import Mathlib

/-!
# rtk-scrape: field extraction, ranking and batch driver

A shallow embedding of `main.go` of `FooSoft/rtk-scrape` together with the
parts of the Go standard library that decide its behaviour
(`strings.TrimSpace`, `strings.Split`, `strconv.Atoi`, the regular expression
`\[(\d+)\]`, `bufio.Scanner` with `ScanLines`, `sort.Sort`).

Conventions.
* A Go string is modelled by the list of its Unicode code points
  (`GoString`); the texts are assumed to be valid UTF-8, which is what the
  HTML tokenizer behind `goquery` produces.
* The Go type `int` has `intSize` bits (32 or 64, `strconv.IntSize`); values
  are kept in `Int` and every place where the width matters (the clamping of
  `strconv.Atoi`, the wrap-around of `i++`) is written out explicitly.
* Slice indexing that can panic and loops that need not terminate return an
  `Option`; `none` stands for "no result".
-/

namespace RtkScrape

/-! ## Data model (main.go, lines 24-53) -/

/-- A Go string as the list of its code points. -/
abbrev GoString := List Char

/-- The Go struct `StoryEntry`. -/
structure StoryEntry where
  Author : GoString
  Content : GoString
  ModifiedDate : GoString
  StarredCount : Int
  ReportedCount : Int
deriving DecidableEq, Repr, Inhabited

/-- The Go type `StoryEntryList`, a slice of `StoryEntry`. -/
abbrev StoryEntryList := List StoryEntry

/-- The Go struct `KanjiEntry`. -/
structure KanjiEntry where
  Character : GoString
  Reading : GoString
  FrameNumber : Int
  StrokeCount : Int
  Story : GoString
  Stories : StoryEntryList
deriving DecidableEq, Repr, Inhabited

/-! ## Library functions used by the field extraction -/

/-- Go's `unicode.IsSpace`: the Latin-1 spaces and the code points with the
Unicode White_Space property. -/
def isSpace (c : Char) : Bool :=
  c.toNat = 0x09 || c.toNat = 0x0A || c.toNat = 0x0B || c.toNat = 0x0C || c.toNat = 0x0D ||
  c.toNat = 0x20 || c.toNat = 0x85 || c.toNat = 0xA0 || c.toNat = 0x1680 ||
  (0x2000 ≤ c.toNat && c.toNat ≤ 0x200A) || c.toNat = 0x2028 || c.toNat = 0x2029 ||
  c.toNat = 0x202F || c.toNat = 0x205F || c.toNat = 0x3000

/-- Go's `strings.TrimSpace`: leading and trailing white space removed. -/
def TrimSpace (s : GoString) : GoString :=
  ((s.dropWhile isSpace).reverse.dropWhile isSpace).reverse

/-- Go's `strings.Split(s, sep)` for a separator `sep` of one character: the
pieces of `s` between the occurrences of `sep`; there is always at least one
piece. -/
def Split : GoString → Char → List GoString
  | [], _ => [[]]
  | c :: cs, sep =>
    if c = sep then [] :: Split cs sep
    else
      match Split cs sep with
      | [] => [[c]]
      | p :: ps => (c :: p) :: ps

/-- An ASCII decimal digit, the class `\d` of Go regular expressions and the
digit test of `strconv`. -/
def isDigit (c : Char) : Bool := decide ('0'.toNat ≤ c.toNat) && decide (c.toNat ≤ '9'.toNat)

/-- The value of a decimal digit, `c - '0'`. -/
def digitVal (c : Char) : Nat := c.toNat - '0'.toNat

/-- The `Err` field of a `*strconv.NumError`. -/
inductive NumError where
  | ErrSyntax
  | ErrRange
deriving DecidableEq, Repr

/-- The digit loop of `strconv.ParseUint(s, 10, bitSize)` with accumulator `n`
(a `uint64`): a non-digit is a syntax error with value 0; an overflow returns
`maxVal` with a range error at once, without looking at the rest of `s`. -/
def ParseUintLoop (maxVal : Nat) : GoString → Nat → Nat × Option NumError
  | [], n => (n, none)
  | c :: cs, n =>
    if !isDigit c then (0, some NumError.ErrSyntax)
    else if n ≥ (2 ^ 64 - 1) / 10 + 1 then (maxVal, some NumError.ErrRange)
    else
      let n10 := (n * 10) % 2 ^ 64
      let n1 := (n10 + digitVal c) % 2 ^ 64
      if n1 < n10 || n1 > maxVal then (maxVal, some NumError.ErrRange)
      else ParseUintLoop maxVal cs n1

/-- Go's `strconv.ParseUint(s, 10, 0)` on a platform whose `int` has
`intSize` bits. -/
def ParseUint (intSize : Nat) (s : GoString) : Nat × Option NumError :=
  if s = [] then (0, some NumError.ErrSyntax)
  else ParseUintLoop (2 ^ intSize - 1) s 0

/-- Go's `strconv.ParseInt(s, 10, 0)`: an optional sign, then `ParseUint`; a
value out of the range of `int` is clamped and reported as a range error. -/
def ParseInt (intSize : Nat) (s : GoString) : Int × Option NumError :=
  match s with
  | [] => (0, some NumError.ErrSyntax)
  | c :: cs =>
    let neg := decide (c = '-')
    let body := if c = '+' ∨ c = '-' then cs else c :: cs
    match ParseUint intSize body with
    | (_, some NumError.ErrSyntax) => (0, some NumError.ErrSyntax)
    | (un, _) =>
      let cutoff : Nat := 2 ^ (intSize - 1)
      if !neg && decide (un ≥ cutoff) then ((cutoff : Int) - 1, some NumError.ErrRange)
      else if neg && decide (un > cutoff) then (-(cutoff : Int), some NumError.ErrRange)
      else (if neg then -(un : Int) else (un : Int), none)

/-- The number of bytes of the UTF-8 encoding of a string, Go's `len(s)`. -/
def byteLen (s : GoString) : Nat := (s.map fun c => c.utf8Size).sum

/-- The digit loop of the fast path of `strconv.Atoi`: `none` on a byte that
is not a digit. -/
def AtoiFastLoop : GoString → Nat → Option Nat
  | [], n => some n
  | c :: cs, n => if isDigit c then AtoiFastLoop cs (n * 10 + digitVal c) else none

/-- Go's `strconv.Atoi` on a platform whose `int` has `intSize` bits: the
value and the error. Short strings take the fast path, the others go through
`ParseInt(s, 10, 0)`. -/
def Atoi (intSize : Nat) (s : GoString) : Int × Option NumError :=
  let sLen := byteLen s
  if (intSize = 32 ∧ 0 < sLen ∧ sLen < 10) ∨ (intSize = 64 ∧ 0 < sLen ∧ sLen < 19) then
    match s with
    | [] => (0, some NumError.ErrSyntax)
    | c :: cs =>
      let body := if c = '-' ∨ c = '+' then cs else c :: cs
      if body = [] then (0, some NumError.ErrSyntax)
      else
        match AtoiFastLoop body 0 with
        | none => (0, some NumError.ErrSyntax)
        | some n => (if c = '-' then -(n : Int) else (n : Int), none)
  else ParseInt intSize s

/-- The regular expression `\[(\d+)\]` anchored at the start of `s`: the
submatch `(\d+)` when `s` starts with `[`, a non-empty greedy run of digits
and `]`. -/
def matchBracketHere (s : GoString) : Option GoString :=
  match s with
  | '[' :: rest =>
    match rest.takeWhile isDigit, rest.dropWhile isDigit with
    | d :: ds, ']' :: _ => some (d :: ds)
    | _, _ => none
  | _ => none

/-- The first submatch of `regexp.MustCompile("\[(\d+)\]").FindStringSubmatch(s)`,
that is `matches[1]` of the leftmost match, or `none` when `matches` is nil. -/
def FindStringSubmatch : GoString → Option GoString
  | [] => none
  | c :: cs =>
    match matchBracketHere (c :: cs) with
    | some g => some g
    | none => FindStringSubmatch cs

/-! ## Field extraction of `scrape` (main.go, lines 90-112) -/

/-- The texts that `s.Find(selector).Text()` returns inside one
`div.sharedstory` node. -/
structure SharedStoryNode where
  authorText : GoString
  storyText : GoString
  lastmodifiedText : GoString
  starText : GoString
  reportText : GoString
deriving DecidableEq, Repr, Inhabited

/-- A fetched page, as the texts that `br.Find(selector).Text()` returns for
the selectors of `scrape`, and the `div.sharedstory` nodes in document
order. -/
structure Page where
  kanjiText : GoString
  readingText : GoString
  framenumText : GoString
  strokecountText : GoString
  svTextareaText : GoString
  sharedstory : List SharedStoryNode
deriving DecidableEq, Repr, Inhabited

/-- The placeholder of the story editor. -/
def storyPlaceholder : GoString := "[ click here to enter your story ]".toList

/-- The body of the closure passed to `Each` (lines 105-110): one story. -/
def scrapeStory (intSize : Nat) (s : SharedStoryNode) : StoryEntry :=
  { Author := TrimSpace s.authorText
    Content := TrimSpace s.storyText
    ModifiedDate := TrimSpace s.lastmodifiedText
    StarredCount := (Atoi intSize (TrimSpace s.starText)).1
    ReportedCount := (Atoi intSize (TrimSpace s.reportText)).1 }

/-- Line 94 and lines 100-102: the stroke count from the text of
`div.strokecount`. -/
def scrapeStrokeCount (intSize : Nat) (text : GoString) : Int :=
  let first := (Atoi intSize ((Split (TrimSpace text) ' ').headD [])).1
  match FindStringSubmatch text with
  | some m => (Atoi intSize m).1
  | none => first

/-- Lines 96-98: the story of the signed-in user. -/
def scrapeOwnStory (text : GoString) : GoString :=
  let story := TrimSpace text
  if story = storyPlaceholder then [] else story

/-- Lines 90-112 of `scrape`: the entry as it stands before `sort.Sort`, with
the stories in document order. -/
def scrapeFields (intSize : Nat) (page : Page) : KanjiEntry :=
  { Character := TrimSpace page.kanjiText
    Reading := TrimSpace page.readingText
    FrameNumber := (Atoi intSize (TrimSpace page.framenumText)).1
    StrokeCount := scrapeStrokeCount intSize page.strokecountText
    Story := scrapeOwnStory page.svTextareaText
    Stories := page.sharedstory.map (scrapeStory intSize) }

/-! ## `sort.Interface` on `StoryEntryList` (main.go, lines 43-53)

Indexing outside the slice panics in Go; here it gives `none`. -/

/-- The method `Len`. -/
def Len (e : StoryEntryList) : Nat := e.length

/-- The method `Less`: `e[i].StarredCount > e[j].StarredCount`. -/
def Less (e : StoryEntryList) (i j : Nat) : Option Bool :=
  match e[i]?, e[j]? with
  | some x, some y => some (decide (x.StarredCount > y.StarredCount))
  | _, _ => none

/-- The method `Swap`: `e[i], e[j] = e[j], e[i]`. -/
def Swap (e : StoryEntryList) (i j : Nat) : Option StoryEntryList :=
  match e[i]?, e[j]? with
  | some x, some y => some ((e.set i y).set j x)
  | _, _ => none

/-! ## `sort.Sort` of the Go standard library (pattern-defeating quicksort,
`sort/zsortinterface.go`, Go 1.19 and later)

`scrape` ranks the stories with `sort.Sort(kanji.Stories)`; the functions
below follow the library function by function. Every function works through
`Less` and `Swap` only. Loops whose number of rounds depends on the data take
a `fuel`; running out of fuel gives `none`. Loops that count an index down to
a fixed bound recurse on that index. Indices are natural numbers: the library
subtracts from an index only where the result is not negative (`j-1` under
`j > a`, `a-1` under `a > 0`, `b-1` for a non-empty range), and a loop
`for i <= j ... j--` is only entered with `i >= 1`. -/

/-- The inner loop of `insertionSort`,
`for j := i; j > a && data.Less(j, j-1); j-- { data.Swap(j, j-1) }`. -/
def insertionSortInner (a : Nat) : Nat → StoryEntryList → Option StoryEntryList
  | 0, data => some data
  | j + 1, data =>
    if j + 1 > a then
      match Less data (j + 1) j with
      | none => none
      | some true => (Swap data (j + 1) j).bind (insertionSortInner a j)
      | some false => some data
    else some data

/-- The outer loop of `insertionSort`, `for i := a + 1; i < b; i++`, from
index `i` on. -/
def insertionSortOuter (a b : Nat) : Nat → Nat → StoryEntryList → Option StoryEntryList
  | 0, _, _ => none
  | fuel + 1, i, data =>
    if i < b then (insertionSortInner a i data).bind (insertionSortOuter a b fuel (i + 1))
    else some data

/-- Go's `insertionSort(data, a, b)`: sorts `data[a:b]`. -/
def insertionSort (data : StoryEntryList) (a b : Nat) : Option StoryEntryList :=
  insertionSortOuter a b (b - a + 1) (a + 1) data

/-- The loop of `siftDown(data, lo, hi, first)` from `root` on. -/
def siftDownLoop (hi first : Nat) : Nat → Nat → StoryEntryList → Option StoryEntryList
  | 0, _, _ => none
  | fuel + 1, root, data =>
    let child := 2 * root + 1
    if child ≥ hi then some data
    else
      (if child + 1 < hi then
        (Less data (first + child) (first + child + 1)).map fun l => if l then child + 1 else child
       else some child).bind fun child =>
      (Less data (first + root) (first + child)).bind fun l =>
      if !l then some data
      else (Swap data (first + root) (first + child)).bind (siftDownLoop hi first fuel child)

/-- Go's `siftDown(data, lo, hi, first)`. -/
def siftDown (data : StoryEntryList) (lo hi first : Nat) : Option StoryEntryList :=
  siftDownLoop hi first (hi + 1) lo data

/-- The first loop of `heapSort`, `for i := (hi - 1) / 2; i >= 0; i--`; the
argument is `i + 1`. -/
def heapSortBuild (hi first : Nat) : Nat → StoryEntryList → Option StoryEntryList
  | 0, data => some data
  | i + 1, data => (siftDown data i hi first).bind (heapSortBuild hi first i)

/-- The second loop of `heapSort`, `for i := hi - 1; i >= 0; i--`; the
argument is `i + 1`. -/
def heapSortPop (first : Nat) : Nat → StoryEntryList → Option StoryEntryList
  | 0, data => some data
  | i + 1, data =>
    (Swap data first (first + i)).bind fun data =>
    (siftDown data 0 i first).bind (heapSortPop first i)

/-- Go's `heapSort(data, a, b)`. -/
def heapSort (data : StoryEntryList) (a b : Nat) : Option StoryEntryList :=
  let first := a
  let hi := b - a
  (heapSortBuild hi first ((hi - 1) / 2 + 1) data).bind (heapSortPop first hi)

/-- The loop `for i <= j && data.Less(i, a) { i++ }`; the result is the final `i`. -/
def scanLessUp (data : StoryEntryList) (a j : Nat) : Nat → Nat → Option Nat
  | 0, _ => none
  | fuel + 1, i =>
    if i ≤ j then
      match Less data i a with
      | none => none
      | some true => scanLessUp data a j fuel (i + 1)
      | some false => some i
    else some i

/-- The loop `for i <= j && !data.Less(j, a) { j-- }`; the result is the final `j`. -/
def scanNotLessDown (data : StoryEntryList) (a i : Nat) : Nat → Nat → Option Nat
  | 0, _ => none
  | fuel + 1, j =>
    if i ≤ j then
      match Less data j a with
      | none => none
      | some false => scanNotLessDown data a i fuel (j - 1)
      | some true => some j
    else some j

/-- The main loop of `partition`; the result is the data and the final `j`. -/
def partitionLoop (a : Nat) : Nat → StoryEntryList → Nat → Nat → Option (StoryEntryList × Nat)
  | 0, _, _, _ => none
  | fuel + 1, data, i, j =>
    (scanLessUp data a j (data.length + 1) i).bind fun i =>
    (scanNotLessDown data a i (data.length + 1) j).bind fun j =>
    if i > j then some (data, j)
    else (Swap data i j).bind fun data => partitionLoop a fuel data (i + 1) (j - 1)

/-- Go's `partition(data, a, b, pivot)`: the data, `newpivot` and
`alreadyPartitioned`. -/
def partition (data : StoryEntryList) (a b pivot : Nat) : Option (StoryEntryList × Nat × Bool) :=
  (Swap data a pivot).bind fun data =>
  (scanLessUp data a (b - 1) (data.length + 1) (a + 1)).bind fun i =>
  (scanNotLessDown data a i (data.length + 1) (b - 1)).bind fun j =>
  if i > j then
    (Swap data j a).bind fun data => some (data, j, true)
  else
    (Swap data i j).bind fun data =>
    (partitionLoop a (data.length + 1) data (i + 1) (j - 1)).bind fun r =>
    (Swap r.1 r.2 a).bind fun data => some (data, r.2, false)

/-- The loop `for i <= j && !data.Less(a, i) { i++ }` of `partitionEqual`. -/
def scanNotGreaterUp (data : StoryEntryList) (a j : Nat) : Nat → Nat → Option Nat
  | 0, _ => none
  | fuel + 1, i =>
    if i ≤ j then
      match Less data a i with
      | none => none
      | some false => scanNotGreaterUp data a j fuel (i + 1)
      | some true => some i
    else some i

/-- The loop `for i <= j && data.Less(a, j) { j-- }` of `partitionEqual`. -/
def scanGreaterDown (data : StoryEntryList) (a i : Nat) : Nat → Nat → Option Nat
  | 0, _ => none
  | fuel + 1, j =>
    if i ≤ j then
      match Less data a j with
      | none => none
      | some true => scanGreaterDown data a i fuel (j - 1)
      | some false => some j
    else some j

/-- The main loop of `partitionEqual`; the result is the data and the final `i`. -/
def partitionEqualLoop (a : Nat) : Nat → StoryEntryList → Nat → Nat → Option (StoryEntryList × Nat)
  | 0, _, _, _ => none
  | fuel + 1, data, i, j =>
    (scanNotGreaterUp data a j (data.length + 1) i).bind fun i =>
    (scanGreaterDown data a i (data.length + 1) j).bind fun j =>
    if i > j then some (data, i)
    else (Swap data i j).bind fun data => partitionEqualLoop a fuel data (i + 1) (j - 1)

/-- Go's `partitionEqual(data, a, b, pivot)`: the data and `newpivot`. -/
def partitionEqual (data : StoryEntryList) (a b pivot : Nat) : Option (StoryEntryList × Nat) :=
  (Swap data a pivot).bind fun data =>
  partitionEqualLoop a (data.length + 1) data (a + 1) (b - 1)

/-- The loop `for i < b && !data.Less(i, i-1) { i++ }` of
`partialInsertionSort`. -/
def scanSortedUp (data : StoryEntryList) (b : Nat) : Nat → Nat → Option Nat
  | 0, _ => none
  | fuel + 1, i =>
    if i < b then
      match Less data i (i - 1) with
      | none => none
      | some false => scanSortedUp data b fuel (i + 1)
      | some true => some i
    else some i

/-- The loop `for j := i - 1; j >= 1; j--` of `partialInsertionSort`, which
shifts the smaller element to the left; the argument is `j`. -/
def shiftSmallerLeft : Nat → StoryEntryList → Option StoryEntryList
  | 0, data => some data
  | j + 1, data =>
    match Less data (j + 1) j with
    | none => none
    | some false => some data
    | some true => (Swap data (j + 1) j).bind (shiftSmallerLeft j)

/-- The loop `for j := i + 1; j < b; j++` of `partialInsertionSort`, which
shifts the greater element to the right. -/
def shiftGreaterRight (b : Nat) : Nat → Nat → StoryEntryList → Option StoryEntryList
  | 0, _, _ => none
  | fuel + 1, j, data =>
    if j < b then
      match Less data j (j - 1) with
      | none => none
      | some false => some data
      | some true => (Swap data j (j - 1)).bind (shiftGreaterRight b fuel (j + 1))
    else some data

/-- The loop `for j := 0; j < maxSteps; j++` of `partialInsertionSort`; the
first argument is the number of rounds left. -/
def partialInsertionSortLoop (a b : Nat) :
    Nat → Nat → StoryEntryList → Option (StoryEntryList × Bool)
  | 0, _, data => some (data, false)
  | steps + 1, i, data =>
    (scanSortedUp data b (data.length + 1) i).bind fun i =>
    if i = b then some (data, true)
    else if b - a < 50 then some (data, false)
    else
      (Swap data i (i - 1)).bind fun data =>
      (if i - a ≥ 2 then shiftSmallerLeft (i - 1) data else some data).bind fun data =>
      (if b - i ≥ 2 then shiftGreaterRight b (data.length + 1) (i + 1) data
       else some data).bind fun data =>
      partialInsertionSortLoop a b steps i data

/-- Go's `partialInsertionSort(data, a, b)`: the data and whether the slice is
sorted at the end. -/
def partialInsertionSort (data : StoryEntryList) (a b : Nat) : Option (StoryEntryList × Bool) :=
  partialInsertionSortLoop a b 5 (a + 1) data

/-- The method `Next` of `xorshift`, on a `uint64`, with the shifts 13, 7, 17
of the 64-bit generator. The numbers it produces only choose which elements
`breakPatterns` exchanges. -/
def xorshiftNext (r : Nat) : Nat :=
  let r := r ^^^ ((r <<< 13) % 2 ^ 64)
  let r := r ^^^ (r >>> 7)
  r ^^^ ((r <<< 17) % 2 ^ 64)

/-- Go's `bits.Len`: the number of bits needed to write `n`. -/
def bitsLen (n : Nat) : Nat := if n = 0 then 0 else Nat.log2 n + 1

/-- Go's `nextPowerOfTwo(length)`, `1 << bits.Len(uint(length))`. -/
def nextPowerOfTwo (length : Nat) : Nat := 1 <<< bitsLen length

/-- The loop `for i := 0; i < 3; i++` of `breakPatterns`; the first argument
is the number of rounds left. -/
def breakPatternsLoop (a length idx modulus : Nat) :
    Nat → Nat → Nat → StoryEntryList → Option StoryEntryList
  | 0, _, _, data => some data
  | n + 1, i, random, data =>
    let random := xorshiftNext random
    let other := random &&& (modulus - 1)
    let other := if other ≥ length then other - length else other
    (Swap data (idx - 1 + i) (a + other)).bind
      (breakPatternsLoop a length idx modulus n (i + 1) random)

/-- Go's `breakPatterns(data, a, b)`. -/
def breakPatterns (data : StoryEntryList) (a b : Nat) : Option StoryEntryList :=
  let length := b - a
  if length ≥ 8 then
    breakPatternsLoop a length (a + (length / 4) * 2 - 1) (nextPowerOfTwo length) 3 0 length data
  else some data

/-- The type `sortedHint`. -/
inductive sortedHint where
  | unknownHint
  | increasingHint
  | decreasingHint
deriving DecidableEq, Repr

/-- Go's `order2(data, a, b, swaps)`: the two indices in order and the new
value of `*swaps`. -/
def order2 (data : StoryEntryList) (a b swaps : Nat) : Option (Nat × Nat × Nat) :=
  (Less data b a).map fun l => if l then (b, a, swaps + 1) else (a, b, swaps)

/-- Go's `median(data, a, b, c, swaps)`: the index of the median and the new
value of `*swaps`. -/
def median (data : StoryEntryList) (a b c swaps : Nat) : Option (Nat × Nat) :=
  (order2 data a b swaps).bind fun r1 =>
  (order2 data r1.2.1 c r1.2.2).bind fun r2 =>
  (order2 data r1.1 r2.1 r2.2.2).bind fun r3 =>
  some (r3.2.1, r3.2.2)

/-- Go's `medianAdjacent(data, a, swaps)`. -/
def medianAdjacent (data : StoryEntryList) (a swaps : Nat) : Option (Nat × Nat) :=
  median data (a - 1) a (a + 1) swaps

/-- Go's `choosePivot(data, a, b)`: the pivot index and the hint. -/
def choosePivot (data : StoryEntryList) (a b : Nat) : Option (Nat × sortedHint) :=
  let l := b - a
  let i := a + l / 4 * 1
  let j := a + l / 4 * 2
  let k := a + l / 4 * 3
  (if l ≥ 8 then
    (if l ≥ 50 then
      (medianAdjacent data i 0).bind fun ri =>
      (medianAdjacent data j ri.2).bind fun rj =>
      (medianAdjacent data k rj.2).bind fun rk =>
      some (ri.1, rj.1, rk.1, rk.2)
     else some (i, j, k, 0)).bind fun r =>
    median data r.1 r.2.1 r.2.2.1 r.2.2.2
   else some (j, 0)).map fun r =>
  if r.2 = 0 then (r.1, sortedHint.increasingHint)
  else if r.2 = 4 * 3 then (r.1, sortedHint.decreasingHint)
  else (r.1, sortedHint.unknownHint)

/-- The loop of `reverseRange`, `for i < j { data.Swap(i, j); i++; j-- }`. -/
def reverseRangeLoop : Nat → Nat → Nat → StoryEntryList → Option StoryEntryList
  | 0, _, _, _ => none
  | fuel + 1, i, j, data =>
    if i < j then (Swap data i j).bind (reverseRangeLoop fuel (i + 1) (j - 1))
    else some data

/-- Go's `reverseRange(data, a, b)`. -/
def reverseRange (data : StoryEntryList) (a b : Nat) : Option StoryEntryList :=
  reverseRangeLoop (data.length + 1) a (b - 1) data

/-- Go's `pdqsort(data, a, b, limit)`: the loop of the function from a state
`(a, b, limit, wasBalanced, wasPartitioned)` on. A recursive call starts with
both flags true. -/
def pdqsort : Nat → StoryEntryList → Nat → Nat → Nat → Bool → Bool → Option StoryEntryList
  | 0, _, _, _, _, _, _ => none
  | fuel + 1, data, a, b, limit, wasBalanced, wasPartitioned =>
    let length := b - a
    if length ≤ 12 then insertionSort data a b
    else if limit = 0 then heapSort data a b
    else
      (if !wasBalanced then (breakPatterns data a b).map fun d => (d, limit - 1)
       else some (data, limit)).bind fun dl =>
      let limit := dl.2
      (choosePivot dl.1 a b).bind fun ph =>
      (if ph.2 = sortedHint.decreasingHint then
        (reverseRange dl.1 a b).map fun d =>
          (d, (b - 1) - (ph.1 - a), sortedHint.increasingHint)
       else some (dl.1, ph.1, ph.2)).bind fun dph =>
      let pivot := dph.2.1
      (if wasBalanced && wasPartitioned && dph.2.2 = sortedHint.increasingHint then
        partialInsertionSort dph.1 a b
       else some (dph.1, false)).bind fun ds =>
      if ds.2 then some ds.1
      else
        (if a > 0 then (Less ds.1 (a - 1) pivot).map fun l => !l else some false).bind fun eq =>
        if eq then
          (partitionEqual ds.1 a b pivot).bind fun dm =>
          pdqsort fuel dm.1 dm.2 b limit wasBalanced wasPartitioned
        else
          (partition ds.1 a b pivot).bind fun dma =>
          let mid := dma.2.1
          let leftLen := mid - a
          let rightLen := b - mid
          let balanceThreshold := length / 8
          if leftLen < rightLen then
            (pdqsort fuel dma.1 a mid limit true true).bind fun d =>
            pdqsort fuel d (mid + 1) b limit (leftLen ≥ balanceThreshold) dma.2.2
          else
            (pdqsort fuel dma.1 (mid + 1) b limit true true).bind fun d =>
            pdqsort fuel d a mid limit (rightLen ≥ balanceThreshold) dma.2.2

/-- Go's `sort.Sort(data)` for a `StoryEntryList`. -/
def sortSort (data : StoryEntryList) : Option StoryEntryList :=
  let n := Len data
  if n ≤ 1 then some data
  else pdqsort (n + 1) data 0 n (bitsLen n) true true

/-! ## `scrape`, `load`, `login` and `main` (main.go, lines 55-203) -/

/-- The browser `*browser.Browser` of the `surf` library, as operations on a
state `σ` (session, cookies, current document). An error is `some err`. -/
structure Browser (σ : Type) where
  /-- The call `br.Open(url)`. -/
  Open : σ → GoString → Option GoString × σ
  /-- Whether `br.Form("form")` finds a form. -/
  hasForm : σ → Bool
  /-- The call `fm.Input(name, value)`. -/
  Input : σ → GoString → GoString → Option GoString × σ
  /-- The call `fm.Submit()`. -/
  Submit : σ → Option GoString × σ
  /-- The call `br.Title()`. -/
  Title : σ → GoString
  /-- The texts of the current document for the selectors of `scrape`. -/
  page : σ → Page

/-- The file system: `os.Open` with the content of the file, and the writing
of the JSON document by `save`. -/
structure FileSystem where
  /-- The content of the file at a path, or the error of `os.Open`. -/
  readFile : GoString → Except GoString GoString
  /-- The effect of `save(path, kanjiList)`: its error, if any. -/
  writeJSON : GoString → List KanjiEntry → Option GoString

/-- Go's `login` (lines 55-83). -/
def login {σ : Type} (br : Browser σ) (st : σ) (username password : GoString) :
    Option GoString × σ :=
  match br.Open st "http://kanji.koohii.com/login".toList with
  | (some err, st) => (some err, st)
  | (none, st) =>
    if !br.hasForm st then (some "login form not found".toList, st)
    else
      match br.Input st "username".toList username with
      | (some err, st) => (some err, st)
      | (none, st) =>
        match br.Input st "password".toList password with
        | (some err, st) => (some err, st)
        | (none, st) =>
          match br.Submit st with
          | (some err, st) => (some err, st)
          | (none, st) =>
            if br.Title st = "Sign In - Kanji Koohii".toList then
              (some "failed to sign in".toList, st)
            else (none, st)

/-- Go's `scrape` (lines 85-117): `none` when `sort.Sort` gives no result,
otherwise the error of `br.Open` or the entry. -/
def scrape {σ : Type} (intSize : Nat) (br : Browser σ) (st : σ) (lookup : GoString) :
    Option (Except GoString KanjiEntry) × σ :=
  match br.Open st ("http://kanji.koohii.com/study/kanji/".toList ++ lookup) with
  | (some err, st) => (some (Except.error err), st)
  | (none, st) =>
    let kanji := scrapeFields intSize (br.page st)
    ((sortSort kanji.Stories).map fun stories => Except.ok { kanji with Stories := stories }, st)

/-- The function `dropCR` of `bufio`: a trailing carriage return removed. -/
def dropCR (data : GoString) : GoString :=
  if data.getLast? = some '\r' then data.dropLast else data

/-- The constant `bufio.MaxScanTokenSize`. -/
def maxScanTokenSize : Nat := 64 * 1024

/-- The tokens that `scanner.Scan()` / `scanner.Text()` deliver with the
default split function `ScanLines`; `cur` is the part of the current line
read so far. A line that fills the buffer of `maxScanTokenSize` bytes without
a newline makes `Scan` return false (`ErrTooLong`), which ends the loop. -/
def scanLines : GoString → GoString → List GoString
  | [], cur =>
    if cur = [] then []
    else if byteLen cur ≥ maxScanTokenSize then []
    else [dropCR cur]
  | c :: cs, cur =>
    if c = '\n' then
      if byteLen cur ≥ maxScanTokenSize then []
      else dropCR cur :: scanLines cs []
    else scanLines cs (cur ++ [c])

/-- Go's `load` (lines 119-133); the error of the scanner is not looked at. -/
def load (fs : FileSystem) (path : GoString) : Except GoString (List GoString) :=
  match fs.readFile path with
  | Except.error err => Except.error err
  | Except.ok content => Except.ok (scanLines content [])

/-- Go's `save` (lines 135-146). -/
def save (fs : FileSystem) (path : GoString) (kanjiList : List KanjiEntry) : Option GoString :=
  fs.writeJSON path kanjiList

/-- The command line after `flag.Parse()`. -/
structure Flags where
  username : GoString
  password : GoString
  firstFrame : Int
  lastFrame : Int
  args : List GoString
deriving DecidableEq, Repr, Inhabited

/-- What a run of `main` does, in order. `fatal` is `log.Fatal`, which ends
the process with status 1. -/
inductive Event where
  | usage
  | exit (code : Nat)
  | log (msg : GoString)
  | fatal (err : GoString)
  | login (username password : GoString)
  | load (path : GoString)
  | scrape (lookup : GoString)
  | sleep (seconds : Nat)
  | save (path : GoString) (kanjiList : List KanjiEntry)
deriving DecidableEq, Repr

/-- A value of the Go type `int` after an arithmetic operation: wrapped into
`[-2^(intSize-1), 2^(intSize-1))`. -/
def wrapInt (intSize : Nat) (x : Int) : Int :=
  (x + 2 ^ (intSize - 1)) % 2 ^ intSize - 2 ^ (intSize - 1)

/-- Go's `strconv.Itoa`. -/
def Itoa (i : Int) : GoString :=
  if i < 0 then '-' :: Nat.toDigits 10 i.natAbs else Nat.toDigits 10 i.toNat

/-- Lines 182-184,
`for i := *firstFrame; i <= *lastFrame; i++ { lookups = append(lookups, strconv.Itoa(i)) }`,
from `i` on; `none` when the loop is still running after `fuel` rounds. -/
def rangeLookups (intSize : Nat) (lastFrame : Int) :
    Nat → Int → List GoString → Option (List GoString)
  | 0, _, _ => none
  | fuel + 1, i, lookups =>
    if i ≤ lastFrame then
      rangeLookups intSize lastFrame fuel (wrapInt intSize (i + 1)) (lookups ++ [Itoa i])
    else some lookups

/-- Lines 187-197, the loop over the lookups, for a scraping function
`scrapeFn`: the events, and the list of entries when every call succeeded.
`none` when a call of `scrapeFn` gives no result. -/
def scrapeAll {σ : Type} (scrapeFn : σ → GoString → Option (Except GoString KanjiEntry) × σ) :
    σ → List GoString → List KanjiEntry → Option (List Event × Option (List KanjiEntry))
  | _, [], kanjiList => some ([], some kanjiList)
  | st, lookup :: rest, kanjiList =>
    let head := [Event.log ("scraping ".toList ++ lookup ++ "...".toList), Event.scrape lookup]
    match scrapeFn st lookup with
    | (none, _) => none
    | (some (Except.error err), _) => some (head ++ [Event.fatal err], none)
    | (some (Except.ok kanji), st) =>
      (scrapeAll scrapeFn st rest (kanjiList ++ [kanji])).map fun r =>
        (head ++ [Event.sleep 2] ++ r.1, r.2)

/-- Lines 174-185: the lookups, from the file `args[1]` or from the range of
frames; the events, and the lookups unless `load` failed. -/
def resolveLookups (intSize : Nat) (fs : FileSystem) (fuel : Nat) (flags : Flags) :
    Option (List Event × Option (List GoString)) :=
  if flags.args.length ≥ 2 then
    let path := flags.args.getD 1 []
    let head := [Event.log ("loading from ".toList ++ path ++ "...".toList), Event.load path]
    match load fs path with
    | Except.error err => some (head ++ [Event.fatal err], none)
    | Except.ok lookups => some (head, some lookups)
  else
    (rangeLookups intSize flags.lastFrame fuel flags.firstFrame []).map fun lookups =>
      ([], some lookups)

/-- Lines 199-202: the final `save`. -/
def saveAll (fs : FileSystem) (path : GoString) (kanjiList : List KanjiEntry) : List Event :=
  let head := [Event.log ("saving to ".toList ++ path ++ "...".toList), Event.save path kanjiList]
  match save fs path kanjiList with
  | some err => head ++ [Event.fatal err]
  | none => head

/-- Lines 164-202 of `main`, after the validation, for a scraping function
`scrapeFn`. -/
def run {σ : Type} (intSize : Nat) (br : Browser σ) (fs : FileSystem)
    (scrapeFn : σ → GoString → Option (Except GoString KanjiEntry) × σ)
    (fuel : Nat) (st : σ) (flags : Flags) : Option (List Event) :=
  let head := [Event.log "logging in...".toList, Event.login flags.username flags.password]
  match login br st flags.username flags.password with
  | (some err, _) => some (head ++ [Event.fatal err])
  | (none, st) =>
    (resolveLookups intSize fs fuel flags).bind fun l =>
    match l.2 with
    | none => some (head ++ l.1)
    | some lookups =>
      (scrapeAll scrapeFn st lookups []).map fun r =>
      match r.2 with
      | none => head ++ l.1 ++ r.1
      | some kanjiList => head ++ l.1 ++ r.1 ++ saveAll fs (flags.args.getD 0 []) kanjiList

/-- Go's `main` (lines 148-203): the events of a run, `none` when the run
gives no result. The loop of line 182 gets `fuel` rounds. -/
def main {σ : Type} (intSize : Nat) (br : Browser σ) (fs : FileSystem)
    (fuel : Nat) (st : σ) (flags : Flags) : Option (List Event) :=
  if byteLen flags.username = 0 ∨ byteLen flags.password = 0 ∨ flags.args.length = 0 ∨
      flags.firstFrame ≥ flags.lastFrame then
    some [Event.usage, Event.exit 2]
  else run intSize br fs (scrape intSize br) fuel st flags

/-! ## Notions used to state the properties -/

/-- The number written by a run of decimal digits, continuing from `n`. -/
def decimalFrom (n : Nat) (ds : GoString) : Nat := ds.foldl (fun n c => n * 10 + digitVal c) n

/-- The number written by a run of decimal digits. -/
def decimalValue (ds : GoString) : Nat := decimalFrom 0 ds

/-- The text `text` has the bracketed run of digits `ds` right after `pre`. -/
def BracketedRun (text pre ds post : GoString) : Prop :=
  text = pre ++ '[' :: (ds ++ ']' :: post) ∧ ds ≠ [] ∧ ∀ x ∈ ds, isDigit x = true

instance (text pre ds post : GoString) : Decidable (BracketedRun text pre ds post) := by
  unfold BracketedRun
  infer_instance

/-- The text after an optional leading sign. -/
def signBody (s : GoString) : GoString :=
  match s with
  | [] => []
  | c :: cs => if c = '+' ∨ c = '-' then cs else c :: cs

/-- The text is not an optionally signed run of decimal digits: nothing
follows the sign, or some character after it is not a digit. -/
def notNumeric (s : GoString) : Prop :=
  signBody s = [] ∨ ∃ c ∈ signBody s, isDigit c = false

instance (s : GoString) : Decidable (notNumeric s) := by
  unfold notNumeric
  infer_instance

/-- The digits in front of the first character that is not one. -/
def leadingDigits (s : GoString) : GoString := (signBody s).takeWhile isDigit

/-- The key of the ranking at index `i`, `data[i].StarredCount`. -/
def keyAt (data : StoryEntryList) (i : Nat) : Int := (data.getD i default).StarredCount

/-- The list `data` with the elements at `i` and `j` exchanged. -/
def swapList (data : StoryEntryList) (i j : Nat) : StoryEntryList :=
  (data.set i (data.getD j default)).set j (data.getD i default)

/-- The list `data'` comes from `data` by exchanges of elements at indices in
`[a, b)`. -/
inductive SwapsIn (a b : Nat) : StoryEntryList → StoryEntryList → Prop where
  | refl (data : StoryEntryList) : SwapsIn a b data data
  | step {data data' : StoryEntryList} (i j : Nat) :
      SwapsIn a b data data' → a ≤ i → i < b → a ≤ j → j < b →
      SwapsIn a b data (swapList data' i j)

/-- The keys at the indices of `[a, b)` are in descending order. -/
def SortedOn (data : StoryEntryList) (a b : Nat) : Prop :=
  ∀ i j, a ≤ i → i < j → j < b → keyAt data i ≥ keyAt data j

/-- The element in front of `data[a:b]`, if there is one, has a key that is
at least every key of `data[a:b]`. -/
def LowerBound (data : StoryEntryList) (a b : Nat) : Prop :=
  0 < a → ∀ k, a ≤ k → k < b → keyAt data k ≤ keyAt data (a - 1)

/-- The list `data'` comes from `data` by exchanges of two neighbours whose
keys differ. -/
inductive StableSwaps : StoryEntryList → StoryEntryList → Prop where
  | refl (data : StoryEntryList) : StableSwaps data data
  | step {data data' : StoryEntryList} (j : Nat) :
      StableSwaps data data' → j + 1 < data'.length → keyAt data' (j + 1) ≠ keyAt data' j →
      StableSwaps data (swapList data' (j + 1) j)

/-- The stories of `data` with `StarredCount = k`, in their order in `data`. -/
def withStars (k : Int) (data : StoryEntryList) : StoryEntryList :=
  data.filter fun e => decide (e.StarredCount = k)

/-- The heap property of `data[first : first+hi]` at the node `r` with child
`c`: the key of the parent is at most the key of the child. -/
def HeapAt (data : StoryEntryList) (first hi r c : Nat) : Prop :=
  (c = 2 * r + 1 ∨ c = 2 * r + 2) → c < hi → keyAt data (first + r) ≤ keyAt data (first + c)

/-- The heap property of `data[first : first+hi]` at every node from `lo` on. -/
def HeapFrom (data : StoryEntryList) (first hi lo : Nat) : Prop :=
  ∀ r c, lo ≤ r → HeapAt data first hi r c

/-- The lines of a file: the pieces between the newlines, where a newline at
the very end closes the last line and does not open another one. -/
def fileLines (content : GoString) : List GoString :=
  let pieces := Split content '\n'
  if pieces.getLast? = some [] then pieces.dropLast else pieces

/-- The non-empty lines of a file, each kept as it is. -/
def nonEmptyLines (content : GoString) : List GoString :=
  (fileLines content).filter fun line => decide (line ≠ [])

/-- The integers `first, first + 1, ..., last`. -/
def intRange (first last : Int) : List Int :=
  (List.range (last + 1 - first).toNat).map fun (k : Nat) => first + (k : Int)

/-- The outcome of scraping the lookups `pre` one after the other from the
state `st` when every call succeeds: the entries and the final state. -/
def scrapePrefix {σ : Type} (scrapeFn : σ → GoString → Option (Except GoString KanjiEntry) × σ) :
    σ → List GoString → Option (List KanjiEntry × σ)
  | st, [] => some ([], st)
  | st, lookup :: rest =>
    match scrapeFn st lookup with
    | (some (Except.ok kanji), st) =>
      (scrapePrefix scrapeFn st rest).map fun r => (kanji :: r.1, r.2)
    | _ => none

/-- The lookup of a `scrape` event. -/
def scrapedKey : Event → Option GoString
  | Event.scrape lookup => some lookup
  | _ => none

/-- Whether an event is a call of `save`. -/
def isSave : Event → Bool
  | Event.save _ _ => true
  | _ => false

/-- Whether an event is a call of `login` or of `scrape`, that is, network
activity. -/
def isNetwork : Event → Bool
  | Event.login _ _ => true
  | Event.scrape _ => true
  | _ => false

/-- The events of one round of the loop of lines 187-197 in which `scrape`
succeeds. -/
def scrapeRound (lookup : GoString) : List Event :=
  [Event.log ("scraping ".toList ++ lookup ++ "...".toList), Event.scrape lookup, Event.sleep 2]

/-- The events of the rounds for the lookups `pre` when every `scrape`
succeeds. -/
def scrapeEvents (pre : List GoString) : List Event := (pre.map scrapeRound).flatten

/-- The validation of line 159 rejects the command line. -/
def invalidFlags (flags : Flags) : Prop :=
  flags.username = [] ∨ flags.password = [] ∨ flags.args = [] ∨
    flags.firstFrame ≥ flags.lastFrame

instance (flags : Flags) : Decidable (invalidFlags flags) := by
  unfold invalidFlags
  infer_instance

/-- The address that `scrape` opens for a lookup. -/
def studyUrl (lookup : GoString) : GoString :=
  "http://kanji.koohii.com/study/kanji/".toList ++ lookup

/-- The document that `scrape` reads for a lookup: the one the browser holds
after `br.Open`. -/
def fetchedPage {σ : Type} (br : Browser σ) (st : σ) (lookup : GoString) : Page :=
  br.page (br.Open st (studyUrl lookup)).2

/-- The first field of a text split at white space of any kind
(`strings.Fields(text)[0]`), empty when there is none. -/
def firstField (text : GoString) : GoString :=
  (text.dropWhile isSpace).takeWhile fun c => !isSpace c

/-- The order of the ranking between two neighbours. -/
def starsDescending (a b : StoryEntry) : Prop := a.StarredCount ≥ b.StarredCount

instance : DecidableRel starsDescending := fun a b =>
  inferInstanceAs (Decidable (a.StarredCount ≥ b.StarredCount))

/-! ## Concrete inputs -/

/-- A story with an author and a number of stars. -/
def storyOf (author : String) (stars : Int) : StoryEntry :=
  { Author := author.toList, Content := [], ModifiedDate := [], StarredCount := stars,
    ReportedCount := 0 }

/-- Thirteen stories in document order: twelve without a star, then one with
a star. -/
def thirteenStories : StoryEntryList :=
  [storyOf "a" 0, storyOf "b" 0, storyOf "c" 0, storyOf "d" 0, storyOf "e" 0, storyOf "f" 0,
   storyOf "g" 0, storyOf "h" 0, storyOf "i" 0, storyOf "j" 0, storyOf "k" 0, storyOf "l" 0,
   storyOf "m" 1]

/-- Three stories, the first two without a star. -/
def threeStories : StoryEntryList := [storyOf "a" 0, storyOf "b" 0, storyOf "c" 2]

/-- A page whose nodes are all empty, with the given texts of
`div.framenum`, `div.strokecount` and `div#sv-textarea`. -/
def pageWith (framenum strokecount story : String) : Page :=
  { kanjiText := [], readingText := [], framenumText := framenum.toList,
    strokecountText := strokecount.toList, svTextareaText := story.toList, sharedstory := [] }

/-- A browser without state: every call succeeds, the title is that of a
signed-in page, and the document is always `page`. -/
def constBrowser (page : Page) : Browser Unit :=
  { Open := fun _ _ => (none, ())
    hasForm := fun _ => true
    Input := fun _ _ _ => (none, ())
    Submit := fun _ => (none, ())
    Title := fun _ => "Kanji Koohii".toList
    page := fun _ => page }

/-- The browser `constBrowser` except that opening `badUrl` fails. -/
def failingBrowser (page : Page) (badUrl err : GoString) : Browser Unit :=
  { constBrowser page with
    Open := fun _ url => if url = badUrl then (some err, ()) else (none, ()) }

/-- A file system in which every file has the content `content` and every
write succeeds. -/
def constFS (content : String) : FileSystem :=
  { readFile := fun _ => Except.ok content.toList
    writeJSON := fun _ _ => none }

/-- The command line `--username u --password p out.json keys.txt` with the
default range of frames. -/
def fileFlags : Flags :=
  { username := "u".toList, password := "p".toList, firstFrame := 1, lastFrame := 3030,
    args := ["out.json".toList, "keys.txt".toList] }

/-- The command line
`--username u --password p --firstFrame 9223372036854775806 --lastFrame 9223372036854775807 out.json`. -/
def maxIntFlags : Flags :=
  { username := "u".toList, password := "p".toList, firstFrame := 9223372036854775806,
    lastFrame := 9223372036854775807, args := ["out.json".toList] }

/-! ## `strconv.Atoi` on a run of digits -/

theorem isDigit_iff (c : Char) : isDigit c = true ↔ 48 ≤ c.toNat ∧ c.toNat ≤ 57 := by
  simp [isDigit]

theorem digitVal_le (c : Char) (h : isDigit c = true) : digitVal c ≤ 9 := by
  rw [isDigit_iff] at h
  simp only [digitVal]
  have : '0'.toNat = 48 := rfl
  omega

theorem utf8Size_digit (c : Char) (h : isDigit c = true) : c.utf8Size = 1 := by
  rw [isDigit_iff] at h
  have h2 : c.val.toNat ≤ 127 := by
    have : c.toNat = c.val.toNat := rfl
    omega
  simp only [Char.utf8Size]
  have : c.val ≤ UInt32.ofNatCore 127 (by decide) := by
    rw [UInt32.le_def]
    exact h2
  rw [if_pos this]

theorem utf8Size_pos (c : Char) : 0 < c.utf8Size := by
  simp only [Char.utf8Size]
  split_ifs <;> decide

theorem byteLen_nil : byteLen [] = 0 := rfl

theorem byteLen_cons (c : Char) (s : GoString) : byteLen (c :: s) = c.utf8Size + byteLen s := by
  simp [byteLen]

theorem byteLen_eq_zero (s : GoString) : byteLen s = 0 ↔ s = [] := by
  cases s with
  | nil => simp [byteLen_nil]
  | cons c cs =>
    have := utf8Size_pos c
    simp [byteLen_cons]
    omega

theorem byteLen_digits (ds : GoString) (h : ∀ c ∈ ds, isDigit c = true) :
    byteLen ds = ds.length := by
  induction ds with
  | nil => rfl
  | cons c cs ih =>
    rw [byteLen_cons, utf8Size_digit c (h c (List.mem_cons_self _ _)),
      ih (fun x hx => h x (List.mem_cons_of_mem _ hx))]
    simp [Nat.add_comm]

theorem decimalFrom_cons (n : Nat) (c : Char) (cs : GoString) :
    decimalFrom n (c :: cs) = decimalFrom (n * 10 + digitVal c) cs := rfl

theorem decimalFrom_ge (n : Nat) (ds : GoString) : n ≤ decimalFrom n ds := by
  induction ds generalizing n with
  | nil => exact Nat.le_refl _
  | cons c cs ih =>
    rw [decimalFrom_cons]
    have := ih (n * 10 + digitVal c)
    omega

theorem AtoiFastLoop_digits (ds : GoString) (n : Nat) (h : ∀ c ∈ ds, isDigit c = true) :
    AtoiFastLoop ds n = some (decimalFrom n ds) := by
  induction ds generalizing n with
  | nil => rfl
  | cons c cs ih =>
    simp only [AtoiFastLoop, h c (List.mem_cons_self _ _), if_true]
    rw [ih _ (fun x hx => h x (List.mem_cons_of_mem _ hx))]
    rfl

theorem ParseUintLoop_digits (maxVal : Nat) (hmax : maxVal < 2 ^ 64) (ds : GoString) (n : Nat)
    (h : ∀ c ∈ ds, isDigit c = true) (hv : decimalFrom n ds ≤ maxVal) :
    ParseUintLoop maxVal ds n = (decimalFrom n ds, none) := by
  induction ds generalizing n with
  | nil => rfl
  | cons c cs ih =>
    have hc := h c (List.mem_cons_self _ _)
    have hd := digitVal_le c hc
    rw [decimalFrom_cons] at hv ⊢
    have hge := decimalFrom_ge (n * 10 + digitVal c) cs
    have hn1 : n * 10 + digitVal c < 2 ^ 64 := by omega
    have hn10 : n * 10 < 2 ^ 64 := by omega
    have hcut : ¬ n ≥ (2 ^ 64 - 1) / 10 + 1 := by
      norm_num at hn10 ⊢
      omega
    simp only [ParseUintLoop, hc, Bool.not_true, Bool.false_eq_true, if_false, hcut]
    rw [Nat.mod_eq_of_lt hn10, Nat.mod_eq_of_lt hn1]
    have h1 : ¬ (n * 10 + digitVal c < n * 10) := by omega
    have h2 : ¬ (n * 10 + digitVal c > maxVal) := by omega
    simp only [h1, h2, decide_False, Bool.or_self, Bool.false_eq_true, if_false]
    exact ih _ (fun x hx => h x (List.mem_cons_of_mem _ hx)) hv

theorem isDigit_ne_sign (c : Char) (h : isDigit c = true) : c ≠ '-' ∧ c ≠ '+' := by
  rw [isDigit_iff] at h
  constructor
  · rintro rfl
    revert h
    decide
  · rintro rfl
    revert h
    decide

/-- On a non-empty run of digits whose value fits an `int`, `Atoi` returns
that value and no error. -/
theorem Atoi_digits (intSize : Nat) (hsz : intSize = 32 ∨ intSize = 64) (ds : GoString)
    (hne : ds ≠ []) (h : ∀ c ∈ ds, isDigit c = true)
    (hv : decimalValue ds < 2 ^ (intSize - 1)) :
    Atoi intSize ds = ((decimalValue ds : Int), none) := by
  obtain ⟨c, cs, rfl⟩ := List.exists_cons_of_ne_nil hne
  have hc := h c (List.mem_cons_self _ _)
  obtain ⟨hm, hp⟩ := isDigit_ne_sign c hc
  have hbody : (if c = '-' ∨ c = '+' then cs else c :: cs) = c :: cs := by simp [hm, hp]
  have hbody2 : (if c = '+' ∨ c = '-' then cs else c :: cs) = c :: cs := by simp [hm, hp]
  by_cases hfast : (intSize = 32 ∧ 0 < byteLen (c :: cs) ∧ byteLen (c :: cs) < 10) ∨
      (intSize = 64 ∧ 0 < byteLen (c :: cs) ∧ byteLen (c :: cs) < 19)
  · simp only [Atoi, hfast, if_true, hm, hp, or_self, if_false, List.cons_ne_nil c cs,
      AtoiFastLoop_digits (c :: cs) 0 h]
    rfl
  · have hmax : 2 ^ intSize - 1 < 2 ^ 64 := by
      rcases hsz with rfl | rfl <;> norm_num
    have hle : decimalFrom 0 (c :: cs) ≤ 2 ^ intSize - 1 := by
      have : decimalValue (c :: cs) = decimalFrom 0 (c :: cs) := rfl
      have h2 : 2 ^ (intSize - 1) ≤ 2 ^ intSize - 1 := by
        rcases hsz with rfl | rfl <;> norm_num
      omega
    have hpu : ParseUint intSize (c :: cs) = (decimalValue (c :: cs), none) := by
      unfold ParseUint
      rw [if_neg (List.cons_ne_nil c cs), ParseUintLoop_digits _ hmax (c :: cs) 0 h hle]
      rfl
    have hnot : ¬ decimalValue (c :: cs) ≥ 2 ^ (intSize - 1) := by omega
    simp only [Atoi, hfast, if_false, ParseInt, hm, hp, or_self, hpu, decide_False,
      Bool.not_false, Bool.true_and, Bool.false_and, Bool.false_eq_true, hnot]

/-! ### The regular expression -/

theorem takeWhile_digits_append (ds : GoString) (c : Char) (q : GoString)
    (h : ∀ x ∈ ds, isDigit x = true) (hc : isDigit c = false) :
    (ds ++ c :: q).takeWhile isDigit = ds ∧ (ds ++ c :: q).dropWhile isDigit = c :: q := by
  induction ds with
  | nil => simp [List.takeWhile, List.dropWhile, hc]
  | cons d ds ih =>
    have hd := h d (List.mem_cons_self _ _)
    have := ih (fun x hx => h x (List.mem_cons_of_mem _ hx))
    simp [List.takeWhile, List.dropWhile, hd, this.1, this.2]

theorem matchBracketHere_intro (ds q : GoString) (hne : ds ≠ [])
    (h : ∀ x ∈ ds, isDigit x = true) :
    matchBracketHere ('[' :: (ds ++ ']' :: q)) = some ds := by
  obtain ⟨h1, h2⟩ := takeWhile_digits_append ds ']' q h (by decide)
  obtain ⟨d, ds', rfl⟩ := List.exists_cons_of_ne_nil hne
  simp only [matchBracketHere, h1, h2]

theorem matchBracketHere_elim (s g : GoString) (h : matchBracketHere s = some g) :
    ∃ q, s = '[' :: (g ++ ']' :: q) ∧ g ≠ [] ∧ ∀ x ∈ g, isDigit x = true := by
  unfold matchBracketHere at h
  split at h
  · rename_i rest
    split at h
    · rename_i d ds q htw hdw
      injection h with h
      subst h
      refine ⟨q, ?_, List.cons_ne_nil _ _, ?_⟩
      · have := List.takeWhile_append_dropWhile isDigit rest
        rw [htw, hdw] at this
        rw [← this]
      · intro x hx
        rw [← htw] at hx
        exact (List.mem_takeWhile_imp hx)
    · cases h
  · cases h

theorem FindStringSubmatch_first (text pre ds post : GoString)
    (h : BracketedRun text pre ds post)
    (hfirst : ∀ p ds' q, BracketedRun text p ds' q → pre.length ≤ p.length) :
    FindStringSubmatch text = some ds := by
  induction pre generalizing text with
  | nil =>
    obtain ⟨rfl, hne, hd⟩ := h
    simp only [List.nil_append, FindStringSubmatch, matchBracketHere_intro ds post hne hd]
  | cons c pre ih =>
    obtain ⟨rfl, hne, hd⟩ := h
    have hnone : matchBracketHere (c :: pre ++ '[' :: (ds ++ ']' :: post)) = none := by
      cases hm : matchBracketHere (c :: pre ++ '[' :: (ds ++ ']' :: post)) with
      | none => rfl
      | some g =>
        obtain ⟨q, heq, hg, hgd⟩ := matchBracketHere_elim _ _ hm
        have := hfirst [] g q ⟨by simpa using heq, hg, hgd⟩
        simp at this
    have hstep : FindStringSubmatch (c :: pre ++ '[' :: (ds ++ ']' :: post)) =
        FindStringSubmatch (pre ++ '[' :: (ds ++ ']' :: post)) := by
      show (match matchBracketHere (c :: pre ++ '[' :: (ds ++ ']' :: post)) with
        | some g => some g
        | none => FindStringSubmatch (pre ++ '[' :: (ds ++ ']' :: post))) = _
      rw [hnone]
    rw [hstep]
    apply ih _ ⟨rfl, hne, hd⟩
    intro p ds' q hb
    have := hfirst (c :: p) ds' q ⟨congrArg (List.cons c) hb.1, hb.2.1, hb.2.2⟩
    simpa using this

theorem FindStringSubmatch_some (text g : GoString) (h : FindStringSubmatch text = some g) :
    ∃ p q, BracketedRun text p g q := by
  induction text with
  | nil => simp [FindStringSubmatch] at h
  | cons c cs ih =>
    simp only [FindStringSubmatch] at h
    cases hm : matchBracketHere (c :: cs) with
    | some g' =>
      rw [hm] at h
      injection h with h
      subst h
      obtain ⟨q, heq, hg, hgd⟩ := matchBracketHere_elim _ _ hm
      exact ⟨[], q, by simpa using heq, hg, hgd⟩
    | none =>
      rw [hm] at h
      obtain ⟨p, q, hb⟩ := ih h
      exact ⟨c :: p, q, congrArg (List.cons c) hb.1, hb.2.1, hb.2.2⟩

theorem FindStringSubmatch_none (text : GoString)
    (h : ¬ ∃ p ds q, BracketedRun text p ds q) : FindStringSubmatch text = none := by
  cases hf : FindStringSubmatch text with
  | none => rfl
  | some g =>
    obtain ⟨p, q, hb⟩ := FindStringSubmatch_some text g hf
    exact absurd ⟨p, g, q, hb⟩ h

/-! ### `Split` and `TrimSpace` -/

theorem Split_ne_nil (s : GoString) (sep : Char) : Split s sep ≠ [] := by
  induction s with
  | nil => simp [Split]
  | cons c cs ih =>
    simp only [Split]
    split_ifs
    · simp
    · split <;> simp

theorem Split_head (s : GoString) (sep : Char) :
    (Split s sep).headD [] = s.takeWhile (fun c => decide (c ≠ sep)) := by
  induction s with
  | nil => simp [Split]
  | cons c cs ih =>
    simp only [Split]
    by_cases hc : c = sep
    · simp [hc, List.takeWhile]
    · rw [if_neg hc]
      cases hs : Split cs sep with
      | nil => exact absurd hs (Split_ne_nil cs sep)
      | cons p ps =>
        rw [hs] at ih
        simp only [List.headD_cons] at ih ⊢
        simp [List.takeWhile, hc, ih]

theorem dropWhile_all (s : GoString) (p : Char → Bool) (h : ∀ c ∈ s, p c = true) :
    s.dropWhile p = [] := by
  induction s with
  | nil => rfl
  | cons c cs ih =>
    simp [List.dropWhile, h c (List.mem_cons_self _ _),
      ih (fun x hx => h x (List.mem_cons_of_mem _ hx))]

theorem TrimSpace_all_space (s : GoString) (h : ∀ c ∈ s, isSpace c = true) : TrimSpace s = [] := by
  simp [TrimSpace, dropWhile_all s isSpace h]

/-! ### `Atoi` on text that is not a number -/

theorem AtoiFastLoop_nondigit (s : GoString) (n : Nat) (h : ∃ c ∈ s, isDigit c = false) :
    AtoiFastLoop s n = none := by
  induction s generalizing n with
  | nil => simp at h
  | cons c cs ih =>
    simp only [AtoiFastLoop]
    by_cases hc : isDigit c = true
    · rw [if_pos hc]
      apply ih
      obtain ⟨x, hx, hxd⟩ := h
      rcases List.mem_cons.mp hx with rfl | hx
      · rw [hc] at hxd
        cases hxd
      · exact ⟨x, hx, hxd⟩
    · rw [if_neg hc]

theorem ParseUintLoop_nondigit (maxVal : Nat) (hmax : maxVal < 2 ^ 64) (s : GoString) (n : Nat)
    (h : ∃ c ∈ s, isDigit c = false) (hv : decimalFrom n (s.takeWhile isDigit) ≤ maxVal) :
    ParseUintLoop maxVal s n = (0, some NumError.ErrSyntax) := by
  induction s generalizing n with
  | nil => simp at h
  | cons c cs ih =>
    by_cases hc : isDigit c = true
    · have hd := digitVal_le c hc
      simp only [List.takeWhile, hc] at hv
      rw [decimalFrom_cons] at hv
      have hge := decimalFrom_ge (n * 10 + digitVal c) (cs.takeWhile isDigit)
      have hn1 : n * 10 + digitVal c < 2 ^ 64 := by omega
      have hn10 : n * 10 < 2 ^ 64 := by omega
      have hcut : ¬ n ≥ (2 ^ 64 - 1) / 10 + 1 := by
        norm_num at hn10 ⊢
        omega
      simp only [ParseUintLoop, hc, Bool.not_true, Bool.false_eq_true, if_false, hcut]
      rw [Nat.mod_eq_of_lt hn10, Nat.mod_eq_of_lt hn1]
      have h1 : ¬ (n * 10 + digitVal c < n * 10) := by omega
      have h2 : ¬ (n * 10 + digitVal c > maxVal) := by omega
      simp only [h1, h2, decide_False, Bool.or_self, Bool.false_eq_true, if_false]
      apply ih _ _ hv
      obtain ⟨x, hx, hxd⟩ := h
      rcases List.mem_cons.mp hx with rfl | hx
      · rw [hc] at hxd
        cases hxd
      · exact ⟨x, hx, hxd⟩
    · simp [ParseUintLoop, hc]

/-- On text that is not a number and whose leading digits fit an `int`,
`Atoi` returns 0 with a syntax error. -/
theorem Atoi_notNumeric (intSize : Nat) (hsz : intSize = 32 ∨ intSize = 64) (s : GoString)
    (h : notNumeric s) (hv : decimalValue (leadingDigits s) < 2 ^ (intSize - 1)) :
    Atoi intSize s = (0, some NumError.ErrSyntax) := by
  have hmax : 2 ^ intSize - 1 < 2 ^ 64 := by
    rcases hsz with rfl | rfl <;> norm_num
  have hle : decimalFrom 0 (leadingDigits s) ≤ 2 ^ intSize - 1 := by
    have : decimalValue (leadingDigits s) = decimalFrom 0 (leadingDigits s) := rfl
    have h2 : 2 ^ (intSize - 1) ≤ 2 ^ intSize - 1 := by
      rcases hsz with rfl | rfl <;> norm_num
    omega
  cases s with
  | nil => simp [Atoi, byteLen, ParseInt]
  | cons c cs =>
    have hslow : ParseInt intSize (c :: cs) = (0, some NumError.ErrSyntax) := by
      have hpu : ParseUint intSize (signBody (c :: cs)) = (0, some NumError.ErrSyntax) := by
        unfold ParseUint
        rcases h with h | h
        · rw [if_pos h]
        · have hne : signBody (c :: cs) ≠ [] := by
            obtain ⟨x, hx, _⟩ := h
            exact List.ne_nil_of_mem hx
          rw [if_neg hne]
          exact ParseUintLoop_nondigit _ hmax _ 0 h hle
      simp only [ParseInt]
      simp only [signBody] at hpu
      rw [hpu]
    have hfast : (if signBody (c :: cs) = [] then ((0 : Int), some NumError.ErrSyntax)
        else
          match AtoiFastLoop (signBody (c :: cs)) 0 with
          | none => (0, some NumError.ErrSyntax)
          | some n => (if c = '-' then -(n : Int) else (n : Int), none)) =
        (0, some NumError.ErrSyntax) := by
      rcases h with h | h
      · rw [if_pos h]
      · have hne : signBody (c :: cs) ≠ [] := by
          obtain ⟨x, hx, _⟩ := h
          exact List.ne_nil_of_mem hx
        rw [if_neg hne, AtoiFastLoop_nondigit _ 0 h]
    have hsb : (if c = '-' ∨ c = '+' then cs else c :: cs) = signBody (c :: cs) := by
      simp only [signBody]
      by_cases h1 : c = '-' <;> by_cases h2 : c = '+' <;> simp [h1, h2]
    by_cases hf : (intSize = 32 ∧ 0 < byteLen (c :: cs) ∧ byteLen (c :: cs) < 10) ∨
        (intSize = 64 ∧ 0 < byteLen (c :: cs) ∧ byteLen (c :: cs) < 19)
    · simp only [Atoi, hf, if_true, hsb]
      exact hfast
    · simp only [Atoi, hf, if_false]
      exact hslow

/-! ### `Atoi` on a run of digits that does not fit an `int` -/

theorem decimalFrom_lt (ds : GoString) (n : Nat) (h : ∀ c ∈ ds, isDigit c = true) :
    decimalFrom n ds + 1 ≤ (n + 1) * 10 ^ ds.length := by
  induction ds generalizing n with
  | nil => simp [decimalFrom]
  | cons c cs ih =>
    have hd := digitVal_le c (h c (List.mem_cons_self _ _))
    have h1 := ih (n * 10 + digitVal c) (fun x hx => h x (List.mem_cons_of_mem _ hx))
    rw [decimalFrom_cons, List.length_cons, Nat.pow_succ]
    have h2 : (n * 10 + digitVal c + 1) * 10 ^ cs.length ≤ (n * 10 + 10) * 10 ^ cs.length :=
      Nat.mul_le_mul_right _ (by omega)
    have h3 : (n * 10 + 10) * 10 ^ cs.length = (n + 1) * (10 ^ cs.length * 10) := by ring
    omega

theorem ParseUintLoop_overflow (maxVal : Nat) (ds : GoString) (n : Nat)
    (h : ∀ c ∈ ds, isDigit c = true) (hn : n ≤ maxVal) (hv : decimalFrom n ds > maxVal) :
    ParseUintLoop maxVal ds n = (maxVal, some NumError.ErrRange) := by
  induction ds generalizing n with
  | nil =>
    simp only [decimalFrom, List.foldl_nil] at hv
    omega
  | cons c cs ih =>
    have hc := h c (List.mem_cons_self _ _)
    have hd := digitVal_le c hc
    rw [decimalFrom_cons] at hv
    simp only [ParseUintLoop, hc, Bool.not_true, Bool.false_eq_true, if_false]
    by_cases hcut : n ≥ (2 ^ 64 - 1) / 10 + 1
    · rw [if_pos hcut]
    · rw [if_neg hcut]
      have hn10 : n * 10 < 2 ^ 64 := by
        norm_num at hcut ⊢
        omega
      rw [Nat.mod_eq_of_lt hn10]
      by_cases hchk : ((n * 10 + digitVal c) % 2 ^ 64 < n * 10 ∨
          (n * 10 + digitVal c) % 2 ^ 64 > maxVal)
      · have : (decide ((n * 10 + digitVal c) % 2 ^ 64 < n * 10) ||
            decide ((n * 10 + digitVal c) % 2 ^ 64 > maxVal)) = true := by
          simpa using hchk
        simp only [this, if_true]
      · have : (decide ((n * 10 + digitVal c) % 2 ^ 64 < n * 10) ||
            decide ((n * 10 + digitVal c) % 2 ^ 64 > maxVal)) = false := by
          simpa using hchk
        simp only [this, Bool.false_eq_true, if_false]
        have hnowrap : n * 10 + digitVal c < 2 ^ 64 := by
          by_contra hcon
          have h1 : (n * 10 + digitVal c) % 2 ^ 64 = n * 10 + digitVal c - 2 ^ 64 := by
            rw [Nat.mod_eq_sub_mod (by omega), Nat.mod_eq_of_lt]
            norm_num at hn10 ⊢
            omega
          rw [h1] at hchk
          norm_num at hn10 hcon hchk ⊢
          omega
        rw [Nat.mod_eq_of_lt hnowrap] at hchk ⊢
        exact ih _ (fun x hx => h x (List.mem_cons_of_mem _ hx)) (by omega) hv

/-- On a run of digits whose value does not fit an `int`, `Atoi` returns the
greatest `int` with a range error. -/
theorem Atoi_overflow (intSize : Nat) (hsz : intSize = 32 ∨ intSize = 64) (ds : GoString)
    (hne : ds ≠ []) (h : ∀ c ∈ ds, isDigit c = true)
    (hv : decimalValue ds ≥ 2 ^ (intSize - 1)) :
    Atoi intSize ds = ((2 ^ (intSize - 1) : Int) - 1, some NumError.ErrRange) := by
  obtain ⟨c, cs, rfl⟩ := List.exists_cons_of_ne_nil hne
  have hc := h c (List.mem_cons_self _ _)
  obtain ⟨hm, hp⟩ := isDigit_ne_sign c hc
  have hlt := decimalFrom_lt (c :: cs) 0 h
  have hval : decimalValue (c :: cs) = decimalFrom 0 (c :: cs) := rfl
  have hbl := byteLen_digits (c :: cs) h
  have hfast : ¬ ((intSize = 32 ∧ 0 < byteLen (c :: cs) ∧ byteLen (c :: cs) < 10) ∨
      (intSize = 64 ∧ 0 < byteLen (c :: cs) ∧ byteLen (c :: cs) < 19)) := by
    rw [hbl]
    rintro (⟨rfl, _, h2⟩ | ⟨rfl, _, h2⟩)
    · have hP : 10 ^ (c :: cs).length ≤ 10 ^ 9 := Nat.pow_le_pow_right (by decide) (by omega)
      have h9 : (10 : Nat) ^ 9 = 1000000000 := by norm_num
      have h31 : (2 : Nat) ^ (32 - 1) = 2147483648 := by norm_num
      rw [h9] at hP
      rw [h31] at hv
      omega
    · have hP : 10 ^ (c :: cs).length ≤ 10 ^ 18 := Nat.pow_le_pow_right (by decide) (by omega)
      have h18 : (10 : Nat) ^ 18 = 1000000000000000000 := by norm_num
      have h63 : (2 : Nat) ^ (64 - 1) = 9223372036854775808 := by norm_num
      rw [h18] at hP
      rw [h63] at hv
      omega
  have hmax : 2 ^ intSize - 1 < 2 ^ 64 := by
    rcases hsz with rfl | rfl <;> norm_num
  have hcut : 2 ^ (intSize - 1) ≤ 2 ^ intSize - 1 := by
    rcases hsz with rfl | rfl <;> norm_num
  have hpu : ∃ un e, ParseUint intSize (c :: cs) = (un, e) ∧ e ≠ some NumError.ErrSyntax ∧
      un ≥ 2 ^ (intSize - 1) := by
    unfold ParseUint
    rw [if_neg (List.cons_ne_nil c cs)]
    by_cases hfit : decimalFrom 0 (c :: cs) ≤ 2 ^ intSize - 1
    · rw [ParseUintLoop_digits _ hmax (c :: cs) 0 h hfit]
      exact ⟨_, _, rfl, by simp, by omega⟩
    · rw [ParseUintLoop_overflow _ (c :: cs) 0 h (Nat.zero_le _) (by omega)]
      exact ⟨_, _, rfl, by simp, hcut⟩
  obtain ⟨un, e, hpu, he, hun⟩ := hpu
  simp only [Atoi, hfast, if_false, ParseInt, hm, hp, or_self, hpu, decide_False,
    Bool.not_false, Bool.true_and]
  have hd : decide (un ≥ 2 ^ (intSize - 1)) = true := by simpa using hun
  rw [if_pos hd]
  simp

/-! ## Exchanges of elements -/

theorem Less_eq (d : StoryEntryList) (i j : Nat) (hi : i < d.length) (hj : j < d.length) :
    Less d i j = some (decide (keyAt d i > keyAt d j)) := by
  simp [Less, keyAt, List.getElem?_eq_getElem hi, List.getElem?_eq_getElem hj,
    List.getD_eq_getElem _ _ hi, List.getD_eq_getElem _ _ hj]

theorem Swap_eq (d : StoryEntryList) (i j : Nat) (hi : i < d.length) (hj : j < d.length) :
    Swap d i j = some (swapList d i j) := by
  simp [Swap, swapList, List.getElem?_eq_getElem hi, List.getElem?_eq_getElem hj,
    List.getD_eq_getElem _ _ hi, List.getD_eq_getElem _ _ hj]

theorem length_swapList (d : StoryEntryList) (i j : Nat) : (swapList d i j).length = d.length := by
  simp [swapList]

theorem getD_swapList (d : StoryEntryList) (i j k : Nat) (hi : i < d.length)
    (hj : j < d.length) :
    (swapList d i j).getD k default =
      if k = j then d.getD i default else if k = i then d.getD j default else d.getD k default := by
  simp only [swapList, List.getD_eq_getElem?_getD, List.getElem?_set, List.length_set]
  by_cases h1 : k = j
  · subst h1
    simp [hj]
  · by_cases h2 : k = i
    · subst h2
      have : ¬ j = k := fun h => h1 h.symm
      simp [this, h1, hi]
    · have h3 : ¬ j = k := fun h => h1 h.symm
      have h4 : ¬ i = k := fun h => h2 h.symm
      simp [h1, h2, h3, h4]

theorem keyAt_swapList (d : StoryEntryList) (i j k : Nat) (hi : i < d.length)
    (hj : j < d.length) :
    keyAt (swapList d i j) k =
      if k = j then keyAt d i else if k = i then keyAt d j else keyAt d k := by
  simp only [keyAt, getD_swapList d i j k hi hj]
  split_ifs <;> rfl

theorem swapList_perm (d : StoryEntryList) (i j : Nat) (hi : i < d.length) (hj : j < d.length) :
    (swapList d i j).Perm d := by
  rw [List.perm_iff_count]
  intro b
  have hj' : j < (d.set i (d.getD j default)).length := by simpa using hj
  have hget : (d.set i (d.getD j default))[j] = d[j] := by
    rw [List.getElem_set]
    split_ifs with h
    · rw [List.getD_eq_getElem _ _ hj]
    · rfl
  simp only [swapList]
  rw [List.count_set _ _ _ _ hj', List.count_set _ _ _ _ hi, hget,
    List.getD_eq_getElem _ _ hj, List.getD_eq_getElem _ _ hi]
  have hpos : (if (d[i] == b) = true then 1 else 0) ≤ List.count b d := by
    split_ifs with h
    · have : d[i] = b := by simpa using h
      rw [← this]
      exact List.count_pos_iff.mpr (List.getElem_mem _)
    · exact Nat.zero_le _
  omega

theorem SwapsIn.length_eq {a b : Nat} {d d' : StoryEntryList} (h : SwapsIn a b d d') :
    d'.length = d.length := by
  induction h with
  | refl => rfl
  | step i j _ _ _ _ _ ih => rw [length_swapList, ih]

theorem SwapsIn.perm {a b : Nat} {d d' : StoryEntryList} (h : SwapsIn a b d d')
    (hb : b ≤ d.length) : d'.Perm d := by
  induction h with
  | refl => exact List.Perm.refl _
  | step i j hs _ hi _ hj ih =>
    have hl := hs.length_eq
    exact (swapList_perm _ i j (by omega) (by omega)).trans ih

theorem SwapsIn.outside {a b : Nat} {d d' : StoryEntryList} (h : SwapsIn a b d d')
    (hb : b ≤ d.length) (k : Nat) (hk : k < a ∨ b ≤ k) :
    d'.getD k default = d.getD k default := by
  induction h with
  | refl => rfl
  | step i j hs _ hi _ hj ih =>
    have hl := hs.length_eq
    rw [getD_swapList _ i j k (by omega) (by omega), if_neg (by omega), if_neg (by omega), ih]

theorem SwapsIn.keyAt_outside {a b : Nat} {d d' : StoryEntryList} (h : SwapsIn a b d d')
    (hb : b ≤ d.length) (k : Nat) (hk : k < a ∨ b ≤ k) : keyAt d' k = keyAt d k := by
  simp only [keyAt, h.outside hb k hk]

theorem SwapsIn.pointwise {a b : Nat} {d d' : StoryEntryList} (h : SwapsIn a b d d')
    (hb : b ≤ d.length) (P : Int → Prop) (hP : ∀ k, a ≤ k → k < b → P (keyAt d k)) :
    ∀ k, a ≤ k → k < b → P (keyAt d' k) := by
  induction h with
  | refl => exact hP
  | step i j hs hi1 hi hj1 hj ih =>
    have hl := hs.length_eq
    intro k hk1 hk2
    rw [keyAt_swapList _ i j k (by omega) (by omega)]
    split_ifs
    · exact ih i hi1 hi
    · exact ih j hj1 hj
    · exact ih k hk1 hk2

theorem SwapsIn.trans {a b : Nat} {d d' d'' : StoryEntryList} (h1 : SwapsIn a b d d')
    (h2 : SwapsIn a b d' d'') : SwapsIn a b d d'' := by
  induction h2 with
  | refl => exact h1
  | step i j _ hi1 hi hj1 hj ih => exact SwapsIn.step i j ih hi1 hi hj1 hj

theorem SwapsIn.mono {a b a' b' : Nat} {d d' : StoryEntryList} (h : SwapsIn a b d d')
    (ha : a' ≤ a) (hb : b ≤ b') : SwapsIn a' b' d d' := by
  induction h with
  | refl => exact SwapsIn.refl _
  | step i j _ hi1 hi hj1 hj ih =>
    exact SwapsIn.step i j ih (by omega) (by omega) (by omega) (by omega)

theorem SwapsIn.swap (a b : Nat) (d : StoryEntryList) (i j : Nat) (hi1 : a ≤ i) (hi : i < b)
    (hj1 : a ≤ j) (hj : j < b) : SwapsIn a b d (swapList d i j) :=
  SwapsIn.step i j (SwapsIn.refl d) hi1 hi hj1 hj

theorem SwapsIn.lowerBound {a b : Nat} {d d' : StoryEntryList} (h : SwapsIn a b d d')
    (hb : b ≤ d.length) (hl : LowerBound d a b) : LowerBound d' a b := by
  intro ha k hk1 hk2
  rw [h.keyAt_outside hb (a - 1) (by omega)]
  exact h.pointwise hb (fun x => x ≤ keyAt d (a - 1)) (hl ha) k hk1 hk2

theorem SwapsIn.sortedOn_outside {a b : Nat} {d d' : StoryEntryList} (h : SwapsIn a b d d')
    (hb : b ≤ d.length) (lo hi : Nat) (hdisj : hi ≤ a ∨ b ≤ lo) (hs : SortedOn d lo hi) :
    SortedOn d' lo hi := by
  intro i j hi1 hij hj
  rw [h.keyAt_outside hb i (by omega), h.keyAt_outside hb j (by omega)]
  exact hs i j hi1 hij hj

/-! ## `insertionSort` -/

theorem insertionSortInner_spec (a0 a hi : Nat) (ha0 : a0 ≤ a) :
    ∀ (j : Nat) (d : StoryEntryList), a ≤ j → j ≤ hi → hi < d.length →
      SortedOn d a j → SortedOn d j (hi + 1) →
      (∀ p q, a ≤ p → p < j → j < q → q ≤ hi → keyAt d p ≥ keyAt d q) →
      (a0 < a → keyAt d (a - 1) ≥ keyAt d j) →
      ∃ d', insertionSortInner a0 j d = some d' ∧ SwapsIn a (hi + 1) d d' ∧
        SortedOn d' a (hi + 1) := by
  intro j
  induction j with
  | zero =>
    intro d haj _ _ _ H2 _ _
    have : a = 0 := by omega
    subst this
    exact ⟨d, rfl, SwapsIn.refl d, H2⟩
  | succ j ih =>
    intro d haj hjhi hlen H1 H2 H3 H4
    by_cases hgt : j + 1 > a0
    · simp only [insertionSortInner, hgt, if_true]
      rw [Less_eq d (j + 1) j (by omega) (by omega)]
      by_cases hless : keyAt d (j + 1) > keyAt d j
      · simp only [hless, decide_True]
        have haj' : a ≤ j := by
          by_contra hcon
          have h1 : a = j + 1 := by omega
          have h2 := H4 (by omega)
          rw [h1] at h2
          simp only [Nat.add_sub_cancel] at h2
          omega
        rw [Swap_eq d (j + 1) j (by omega) (by omega)]
        simp only [Option.bind]
        have hk := fun k => keyAt_swapList d (j + 1) j k (by omega) (by omega)
        obtain ⟨d', hd', hsw, hsorted⟩ := ih (swapList d (j + 1) j) haj' (by omega)
          (by rw [length_swapList]; exact hlen)
          (by
            intro p q hp hpq hq
            rw [hk p, hk q]
            have := H1 p q
            split_ifs <;> omega)
          (by
            intro p q hp hpq hq
            rw [hk p, hk q]
            have h2 := H2 (j + 1) q
            have h3 := H3 j q
            have h4 := H2 p q
            split_ifs <;> omega)
          (by
            intro p q hp hpj hjq hq
            rw [hk p, hk q]
            have h1 := H1 p j
            have h3 := H3 p q
            split_ifs <;> omega)
          (by
            intro h0
            rw [hk (a - 1), hk j]
            have h4 := H4 h0
            have h1 := H1 (a - 1 + 1) j
            split_ifs <;> omega)
        refine ⟨d', hd', ?_, hsorted⟩
        exact (SwapsIn.swap a (hi + 1) d (j + 1) j (by omega) (by omega) haj' (by omega)).trans hsw
      · simp only [hless, decide_False]
        refine ⟨d, rfl, SwapsIn.refl d, ?_⟩
        intro p q hp hpq hq
        have h1 := H1 p q
        have h1' := H1 p j
        have h2 := H2 p q
        have h3 := H3 p q
        by_cases hq1 : q = j + 1
        · subst hq1
          by_cases hp1 : p = j
          · subst hp1
            omega
          · omega
        · omega
    · simp only [insertionSortInner, hgt, if_false]
      refine ⟨d, rfl, SwapsIn.refl d, ?_⟩
      have : a = j + 1 := by omega
      subst this
      exact H2

theorem insertionSortOuter_spec (a b : Nat) :
    ∀ (fuel i : Nat) (d : StoryEntryList), a < i → b ≤ d.length → b - i < fuel →
      SortedOn d a i →
      ∃ d', insertionSortOuter a b fuel i d = some d' ∧ SwapsIn a b d d' ∧ SortedOn d' a b := by
  intro fuel
  induction fuel with
  | zero => intro i d _ _ h; omega
  | succ fuel ih =>
    intro i d hai hb hfuel hs
    by_cases hib : i < b
    · simp only [insertionSortOuter, hib, if_true]
      obtain ⟨d1, hd1, hsw1, hs1⟩ := insertionSortInner_spec a a i (Nat.le_refl a) i d
        (by omega) (Nat.le_refl i) (by omega) hs
        (by intro p q hp hpq hq; omega) (by intro p q _ _ h1 h2; omega) (by intro h; omega)
      have hl1 := hsw1.length_eq
      obtain ⟨d2, hd2, hsw2, hs2⟩ := ih (i + 1) d1 (by omega) (by omega) (by omega) hs1
      refine ⟨d2, ?_, (hsw1.mono (Nat.le_refl a) (by omega)).trans hsw2, hs2⟩
      rw [hd1]
      exact hd2
    · simp only [insertionSortOuter, hib, if_false]
      refine ⟨d, rfl, SwapsIn.refl d, ?_⟩
      intro p q hp hpq hq
      exact hs p q hp hpq (by omega)

theorem insertionSort_spec (d : StoryEntryList) (a b : Nat) (hb : b ≤ d.length) :
    ∃ d', insertionSort d a b = some d' ∧ SwapsIn a b d d' ∧ SortedOn d' a b := by
  unfold insertionSort
  apply insertionSortOuter_spec a b (b - a + 1) (a + 1) d (by omega) hb (by omega)
  intro p q hp hpq hq
  omega

/-! ## Stability of `insertionSort` -/

theorem Less_true (d : StoryEntryList) (i j : Nat) (h : Less d i j = some true) :
    i < d.length ∧ j < d.length ∧ keyAt d i > keyAt d j := by
  by_cases hi : i < d.length
  · by_cases hj : j < d.length
    · rw [Less_eq d i j hi hj] at h
      simp only [Option.some.injEq, decide_eq_true_eq] at h
      exact ⟨hi, hj, h⟩
    · simp [Less, List.getElem?_eq_none (Nat.le_of_not_lt hj)] at h
  · simp [Less, List.getElem?_eq_none (Nat.le_of_not_lt hi)] at h

theorem swapList_adjacent (l1 : StoryEntryList) (x y : StoryEntry) (l2 : StoryEntryList) :
    swapList (l1 ++ x :: y :: l2) (l1.length + 1) l1.length = l1 ++ y :: x :: l2 := by
  induction l1 with
  | nil => simp [swapList]
  | cons c l ih =>
    simp only [swapList, List.cons_append, List.length_cons, List.set_cons_succ,
      List.getD_cons_succ] at ih ⊢
    rw [ih]

theorem withStars_swap_adjacent (k : Int) (l1 : StoryEntryList) (x y : StoryEntry)
    (l2 : StoryEntryList) (hne : y.StarredCount ≠ x.StarredCount) :
    withStars k (swapList (l1 ++ x :: y :: l2) (l1.length + 1) l1.length) =
      withStars k (l1 ++ x :: y :: l2) := by
  rw [swapList_adjacent]
  simp only [withStars, List.filter_append, List.filter_cons]
  by_cases hkx : x.StarredCount = k <;> by_cases hky : y.StarredCount = k
  · exact absurd (hky.trans hkx.symm) hne
  · simp [hkx, hky]
  · simp [hkx, hky]
  · simp [hkx, hky]

theorem split_adjacent (d : StoryEntryList) (j : Nat) (hj : j + 1 < d.length) :
    ∃ l1 x y l2, d = l1 ++ x :: y :: l2 ∧ l1.length = j := by
  refine ⟨d.take j, d[j], d[j + 1], d.drop (j + 2), ?_, ?_⟩
  · conv_lhs => rw [← List.take_append_drop j d]
    rw [List.drop_eq_getElem_cons (by omega : j < d.length),
      List.drop_eq_getElem_cons (by omega : j + 1 < d.length)]
  · rw [List.length_take]
    omega

theorem withStars_swapList (k : Int) (d : StoryEntryList) (j : Nat) (hj : j + 1 < d.length)
    (hne : keyAt d (j + 1) ≠ keyAt d j) :
    withStars k (swapList d (j + 1) j) = withStars k d := by
  obtain ⟨l1, x, y, l2, rfl, rfl⟩ := split_adjacent d j hj
  apply withStars_swap_adjacent
  have hx : keyAt (l1 ++ x :: y :: l2) l1.length = x.StarredCount := by
    have : (l1 ++ x :: y :: l2)[l1.length]? = some x := by
      rw [List.getElem?_append_right (Nat.le_refl _)]
      simp
    simp only [keyAt, List.getD_eq_getElem?_getD, this, Option.getD_some]
  have hy : keyAt (l1 ++ x :: y :: l2) (l1.length + 1) = y.StarredCount := by
    have : (l1 ++ x :: y :: l2)[l1.length + 1]? = some y := by
      rw [List.getElem?_append_right (Nat.le_succ _)]
      simp
    simp only [keyAt, List.getD_eq_getElem?_getD, this, Option.getD_some]
  rw [hx, hy] at hne
  exact hne

theorem StableSwaps.withStars_eq {d d' : StoryEntryList} (h : StableSwaps d d') (k : Int) :
    withStars k d' = withStars k d := by
  induction h with
  | refl => rfl
  | step j _ hj hne ih => rw [withStars_swapList k _ j hj hne, ih]

theorem StableSwaps.followedBy {d d' d'' : StoryEntryList} (h1 : StableSwaps d d')
    (h2 : StableSwaps d' d'') : StableSwaps d d'' := by
  induction h2 with
  | refl => exact h1
  | step j _ hj hne ih => exact StableSwaps.step j ih hj hne

theorem insertionSortInner_stable (a : Nat) :
    ∀ (j : Nat) (d d' : StoryEntryList), insertionSortInner a j d = some d' →
      StableSwaps d d' := by
  intro j
  induction j with
  | zero =>
    intro d d' h
    simp only [insertionSortInner, Option.some.injEq] at h
    subst h
    exact StableSwaps.refl d
  | succ j ih =>
    intro d d' h
    simp only [insertionSortInner] at h
    split_ifs at h with hgt
    · cases hl : Less d (j + 1) j with
      | none => rw [hl] at h; cases h
      | some l =>
        cases l with
        | false =>
          rw [hl] at h
          simp only [Option.some.injEq] at h
          subst h
          exact StableSwaps.refl d
        | true =>
          rw [hl] at h
          obtain ⟨h1, h2, h3⟩ := Less_true d (j + 1) j hl
          rw [Swap_eq d (j + 1) j h1 h2] at h
          simp only [Option.bind] at h
          have hst : StableSwaps d (swapList d (j + 1) j) :=
            StableSwaps.step j (StableSwaps.refl d) h1 (by omega)
          exact hst.followedBy (ih _ _ h)
    · simp only [Option.some.injEq] at h
      subst h
      exact StableSwaps.refl d

theorem insertionSortOuter_stable (a b : Nat) :
    ∀ (fuel i : Nat) (d d' : StoryEntryList), insertionSortOuter a b fuel i d = some d' →
      StableSwaps d d' := by
  intro fuel
  induction fuel with
  | zero => intro i d d' h; cases h
  | succ fuel ih =>
    intro i d d' h
    simp only [insertionSortOuter] at h
    split_ifs at h with hib
    · cases hin : insertionSortInner a i d with
      | none => rw [hin] at h; cases h
      | some d1 =>
        rw [hin] at h
        exact (insertionSortInner_stable a i d d1 hin).followedBy (ih _ _ _ h)
    · simp only [Option.some.injEq] at h
      subst h
      exact StableSwaps.refl d

theorem insertionSort_stable (d d' : StoryEntryList) (a b : Nat)
    (h : insertionSort d a b = some d') : StableSwaps d d' :=
  insertionSortOuter_stable a b _ _ d d' h

/-! ## `partition` -/

theorem scanLessUp_spec (d : StoryEntryList) (a j : Nat) (ha : a < d.length)
    (hj : j < d.length) :
    ∀ (fuel i : Nat), j + 1 - i < fuel →
      ∃ i', scanLessUp d a j fuel i = some i' ∧ i ≤ i' ∧ (i ≤ j + 1 → i' ≤ j + 1) ∧
        (∀ k, i ≤ k → k < i' → keyAt d k > keyAt d a) ∧
        (i' ≤ j → ¬ keyAt d i' > keyAt d a) := by
  intro fuel
  induction fuel with
  | zero => intro i h; omega
  | succ fuel ih =>
    intro i hfuel
    by_cases hij : i ≤ j
    · simp only [scanLessUp, hij, if_true]
      rw [Less_eq d i a (by omega) ha]
      by_cases hl : keyAt d i > keyAt d a
      · simp only [hl, decide_True]
        obtain ⟨i', h1, h2, h3, h4, h5⟩ := ih (i + 1) (by omega)
        refine ⟨i', h1, by omega, by omega, ?_, h5⟩
        intro k hk1 hk2
        by_cases hki : k = i
        · subst hki; exact hl
        · exact h4 k (by omega) hk2
      · simp only [hl, decide_False]
        exact ⟨i, rfl, Nat.le_refl i, fun h => h, fun k h1 h2 => by omega, fun _ => hl⟩
    · simp only [scanLessUp, hij, if_false]
      exact ⟨i, rfl, Nat.le_refl i, fun h => h, fun k h1 h2 => by omega, fun h => by omega⟩

theorem scanNotLessDown_spec (d : StoryEntryList) (a i : Nat) (ha : a < d.length)
    (hi : 1 ≤ i) :
    ∀ (fuel j : Nat), j < d.length → j + 1 - i < fuel →
      ∃ j', scanNotLessDown d a i fuel j = some j' ∧ j' ≤ j ∧ (i ≤ j + 1 → i ≤ j' + 1) ∧
        (∀ k, j' < k → k ≤ j → ¬ keyAt d k > keyAt d a) ∧
        (i ≤ j' → keyAt d j' > keyAt d a) := by
  intro fuel
  induction fuel with
  | zero => intro j _ h; omega
  | succ fuel ih =>
    intro j hj hfuel
    by_cases hij : i ≤ j
    · simp only [scanNotLessDown, hij, if_true]
      rw [Less_eq d j a hj ha]
      by_cases hl : keyAt d j > keyAt d a
      · simp only [hl, decide_True]
        exact ⟨j, rfl, Nat.le_refl j, fun h => h, fun k h1 h2 => by omega, fun _ => hl⟩
      · simp only [hl, decide_False]
        obtain ⟨j', h1, h2, h3, h4, h5⟩ := ih (j - 1) (by omega) (by omega)
        refine ⟨j', h1, by omega, by omega, ?_, h5⟩
        intro k hk1 hk2
        by_cases hkj : k = j
        · subst hkj; exact hl
        · exact h4 k hk1 (by omega)
    · simp only [scanNotLessDown, hij, if_false]
      exact ⟨j, rfl, Nat.le_refl j, fun h => h, fun k h1 h2 => by omega, fun h => by omega⟩

theorem partitionLoop_spec (a b : Nat) (p : Int) :
    ∀ (fuel : Nat) (d : StoryEntryList) (i j : Nat), a < i → j < b → b ≤ d.length →
      i ≤ j + 1 → j + 1 - i < fuel → keyAt d a = p →
      (∀ k, a < k → k < i → keyAt d k > p) →
      (∀ k, j < k → k < b → ¬ keyAt d k > p) →
      ∃ d' j', partitionLoop a fuel d i j = some (d', j') ∧ SwapsIn (a + 1) b d d' ∧
        a ≤ j' ∧ j' < b ∧ (∀ k, a < k → k ≤ j' → keyAt d' k > p) ∧
        (∀ k, j' < k → k < b → ¬ keyAt d' k > p) := by
  intro fuel
  induction fuel with
  | zero => intro d i j _ _ _ _ h; omega
  | succ fuel ih =>
    intro d i j hai hjb hb hij hfuel hp H1 H2
    obtain ⟨i1, hi1, hii1, hi1j, hup, hupstop⟩ :=
      scanLessUp_spec d a j (by omega) (by omega) (d.length + 1) i (by omega)
    obtain ⟨j1, hj1, hj1j, hij1, hdown, hdownstop⟩ :=
      scanNotLessDown_spec d a i1 (by omega) (by omega) (d.length + 1) j (by omega) (by omega)
    simp only [partitionLoop, hi1, hj1, Option.bind]
    rw [hp] at hup hupstop hdown hdownstop
    by_cases hgt : i1 > j1
    · simp only [hgt, if_true]
      refine ⟨d, j1, rfl, SwapsIn.refl d, by omega, by omega, ?_, ?_⟩
      · intro k hk1 hk2
        by_cases hki : k < i
        · exact H1 k hk1 hki
        · exact hup k (by omega) (by omega)
      · intro k hk1 hk2
        by_cases hkj : k ≤ j
        · exact hdown k hk1 hkj
        · exact H2 k (by omega) hk2
    · simp only [hgt, if_false]
      have hstop1 := hupstop (by omega)
      have hstop2 := hdownstop (by omega)
      have hne : i1 ≠ j1 := by
        intro h
        rw [h] at hstop1
        exact hstop1 hstop2
      rw [Swap_eq d i1 j1 (by omega) (by omega)]
      have hk := fun k => keyAt_swapList d i1 j1 k (by omega) (by omega)
      obtain ⟨d', j', hd', hsw, hj'1, hj'2, hA, hB⟩ := ih (swapList d i1 j1) (i1 + 1) (j1 - 1)
        (by omega) (by omega) (by rw [length_swapList]; exact hb) (by omega) (by omega)
        (by rw [hk a, if_neg (by omega), if_neg (by omega)]; exact hp)
        (by
          intro k hk1 hk2
          rw [hk k]
          have h1 := H1 k hk1
          have h2 := hup k
          split_ifs <;> omega)
        (by
          intro k hk1 hk2
          rw [hk k]
          have h1 := H2 k
          have h2 := hdown k
          split_ifs <;> omega)
      refine ⟨d', j', hd', ?_, hj'1, hj'2, hA, hB⟩
      exact (SwapsIn.swap (a + 1) b d i1 j1 (by omega) (by omega) (by omega) (by omega)).trans hsw

theorem partition_finish (a b : Nat) (d : StoryEntryList) (j : Nat) (hb : b ≤ d.length)
    (haj : a ≤ j) (hjb : j < b)
    (H1 : ∀ k, a < k → k ≤ j → keyAt d k > keyAt d a)
    (H2 : ∀ k, j < k → k < b → ¬ keyAt d k > keyAt d a) :
    keyAt (swapList d j a) j = keyAt d a ∧
      (∀ k, a ≤ k → k < j → keyAt (swapList d j a) k > keyAt (swapList d j a) j) ∧
      (∀ k, j < k → k < b → keyAt (swapList d j a) k ≤ keyAt (swapList d j a) j) := by
  have hk := fun k => keyAt_swapList d j a k (by omega) (by omega)
  refine ⟨?_, ?_, ?_⟩
  · rw [hk j]
    split_ifs with h1 h2
    · rw [h1]
    · rfl
    · exact absurd rfl h2
  · intro k hk1 hk2
    rw [hk k, hk j]
    have h1 := H1 k
    have h2 := H1 j
    split_ifs <;> omega
  · intro k hk1 hk2
    rw [hk k, hk j]
    have h1 := H2 k
    split_ifs <;> first | omega | (subst_vars; omega)

/-- The contract of `partition`: the pivot ends at `mid`, the keys in front of
it are greater and the keys behind it are not. -/
theorem partition_spec (d : StoryEntryList) (a b pivot : Nat) (hap : a ≤ pivot)
    (hpb : pivot < b) (hb : b ≤ d.length) :
    ∃ d' mid ap, partition d a b pivot = some (d', mid, ap) ∧ SwapsIn a b d d' ∧
      a ≤ mid ∧ mid < b ∧
      (∀ k, a ≤ k → k < mid → keyAt d' k > keyAt d' mid) ∧
      (∀ k, mid < k → k < b → keyAt d' k ≤ keyAt d' mid) := by
  have hsw0 := SwapsIn.swap a b d a pivot (Nat.le_refl a) (by omega) hap hpb
  have hl0 := length_swapList d a pivot
  obtain ⟨i1, hi1, hii1, hi1j, hup, hupstop⟩ :=
    scanLessUp_spec (swapList d a pivot) a (b - 1) (by omega) (by omega)
      ((swapList d a pivot).length + 1) (a + 1) (by omega)
  obtain ⟨j1, hj1, hj1j, hij1, hdown, hdownstop⟩ :=
    scanNotLessDown_spec (swapList d a pivot) a i1 (by omega) (by omega)
      ((swapList d a pivot).length + 1) (b - 1) (by omega) (by omega)
  simp only [partition, Swap_eq d a pivot (by omega) (by omega), hi1, hj1, Option.bind]
  by_cases hgt : i1 > j1
  · simp only [hgt, if_true]
    rw [Swap_eq _ j1 a (by omega) (by omega)]
    obtain ⟨h1, h2, h3⟩ := partition_finish a b (swapList d a pivot) j1 (by omega) (by omega)
      (by omega) (fun k hk1 hk2 => hup k (by omega) (by omega))
      (fun k hk1 hk2 => hdown k hk1 (by omega))
    refine ⟨_, j1, true, rfl, ?_, by omega, by omega, h2, h3⟩
    exact hsw0.trans (SwapsIn.swap a b _ j1 a (by omega) (by omega) (Nat.le_refl a) (by omega))
  · simp only [hgt, if_false]
    have hstop1 := hupstop (by omega)
    have hstop2 := hdownstop (by omega)
    have hne : i1 ≠ j1 := by
      intro h
      rw [h] at hstop1
      exact hstop1 hstop2
    rw [Swap_eq _ i1 j1 (by omega) (by omega)]
    have hk := fun k => keyAt_swapList (swapList d a pivot) i1 j1 k (by omega) (by omega)
    have hl1 := length_swapList (swapList d a pivot) i1 j1
    obtain ⟨d2, j2, hd2, hsw2, hj2a, hj2b, hA, hB⟩ :=
      partitionLoop_spec a b (keyAt (swapList d a pivot) a)
        ((swapList (swapList d a pivot) i1 j1).length + 1)
        (swapList (swapList d a pivot) i1 j1) (i1 + 1) (j1 - 1)
        (by omega) (by omega) (by omega) (by omega) (by omega)
        (by rw [hk a, if_neg (by omega), if_neg (by omega)])
        (by
          intro k hk1 hk2
          rw [hk k]
          have h2 := hup k
          split_ifs <;> omega)
        (by
          intro k hk1 hk2
          rw [hk k]
          have h2 := hdown k
          split_ifs <;> omega)
    simp only [hd2]
    have hl2 := hsw2.length_eq
    rw [Swap_eq _ j2 a (by omega) (by omega)]
    have hka : keyAt d2 a = keyAt (swapList d a pivot) a := by
      rw [hsw2.keyAt_outside (by omega) a (by omega), hk a, if_neg (by omega), if_neg (by omega)]
    obtain ⟨h1, h2, h3⟩ := partition_finish a b d2 j2 (by omega) hj2a hj2b
      (by rw [hka]; exact hA) (by rw [hka]; exact hB)
    refine ⟨_, j2, false, rfl, ?_, hj2a, hj2b, h2, h3⟩
    refine hsw0.trans ((SwapsIn.swap a b _ i1 j1 (by omega) (by omega) (by omega)
      (by omega)).trans ((hsw2.mono (by omega) (Nat.le_refl b)).trans ?_))
    exact SwapsIn.swap a b _ j2 a (by omega) (by omega) (Nat.le_refl a) (by omega)

/-! ## `partitionEqual` -/

theorem scanNotGreaterUp_spec (d : StoryEntryList) (a j : Nat) (ha : a < d.length)
    (hj : j < d.length) :
    ∀ (fuel i : Nat), j + 1 - i < fuel →
      ∃ i', scanNotGreaterUp d a j fuel i = some i' ∧ i ≤ i' ∧ (i ≤ j + 1 → i' ≤ j + 1) ∧
        (∀ k, i ≤ k → k < i' → ¬ keyAt d a > keyAt d k) ∧
        (i' ≤ j → keyAt d a > keyAt d i') := by
  intro fuel
  induction fuel with
  | zero => intro i h; omega
  | succ fuel ih =>
    intro i hfuel
    by_cases hij : i ≤ j
    · simp only [scanNotGreaterUp, hij, if_true]
      rw [Less_eq d a i ha (by omega)]
      by_cases hl : keyAt d a > keyAt d i
      · simp only [hl, decide_True]
        exact ⟨i, rfl, Nat.le_refl i, fun h => h, fun k h1 h2 => by omega, fun _ => hl⟩
      · simp only [hl, decide_False]
        obtain ⟨i', h1, h2, h3, h4, h5⟩ := ih (i + 1) (by omega)
        refine ⟨i', h1, by omega, by omega, ?_, h5⟩
        intro k hk1 hk2
        by_cases hki : k = i
        · subst hki; exact hl
        · exact h4 k (by omega) hk2
    · simp only [scanNotGreaterUp, hij, if_false]
      exact ⟨i, rfl, Nat.le_refl i, fun h => h, fun k h1 h2 => by omega, fun h => by omega⟩

theorem scanGreaterDown_spec (d : StoryEntryList) (a i : Nat) (ha : a < d.length)
    (hi : 1 ≤ i) :
    ∀ (fuel j : Nat), j < d.length → j + 1 - i < fuel →
      ∃ j', scanGreaterDown d a i fuel j = some j' ∧ j' ≤ j ∧ (i ≤ j + 1 → i ≤ j' + 1) ∧
        (∀ k, j' < k → k ≤ j → keyAt d a > keyAt d k) ∧
        (i ≤ j' → ¬ keyAt d a > keyAt d j') := by
  intro fuel
  induction fuel with
  | zero => intro j _ h; omega
  | succ fuel ih =>
    intro j hj hfuel
    by_cases hij : i ≤ j
    · simp only [scanGreaterDown, hij, if_true]
      rw [Less_eq d a j ha hj]
      by_cases hl : keyAt d a > keyAt d j
      · simp only [hl, decide_True]
        obtain ⟨j', h1, h2, h3, h4, h5⟩ := ih (j - 1) (by omega) (by omega)
        refine ⟨j', h1, by omega, by omega, ?_, h5⟩
        intro k hk1 hk2
        by_cases hkj : k = j
        · subst hkj; exact hl
        · exact h4 k hk1 (by omega)
      · simp only [hl, decide_False]
        exact ⟨j, rfl, Nat.le_refl j, fun h => h, fun k h1 h2 => by omega, fun _ => hl⟩
    · simp only [scanGreaterDown, hij, if_false]
      exact ⟨j, rfl, Nat.le_refl j, fun h => h, fun k h1 h2 => by omega, fun h => by omega⟩

theorem partitionEqualLoop_spec (a b : Nat) (p : Int) :
    ∀ (fuel : Nat) (d : StoryEntryList) (i j : Nat), a < i → j < b → b ≤ d.length →
      i ≤ j + 1 → j + 1 - i < fuel → keyAt d a = p →
      (∀ k, a < k → k < i → ¬ p > keyAt d k) →
      (∀ k, j < k → k < b → p > keyAt d k) →
      ∃ d' i', partitionEqualLoop a fuel d i j = some (d', i') ∧ SwapsIn (a + 1) b d d' ∧
        a < i' ∧ i' ≤ b ∧ (∀ k, a < k → k < i' → ¬ p > keyAt d' k) ∧
        (∀ k, i' ≤ k → k < b → p > keyAt d' k) := by
  intro fuel
  induction fuel with
  | zero => intro d i j _ _ _ _ h; omega
  | succ fuel ih =>
    intro d i j hai hjb hb hij hfuel hp H1 H2
    obtain ⟨i1, hi1, hii1, hi1j, hup, hupstop⟩ :=
      scanNotGreaterUp_spec d a j (by omega) (by omega) (d.length + 1) i (by omega)
    obtain ⟨j1, hj1, hj1j, hij1, hdown, hdownstop⟩ :=
      scanGreaterDown_spec d a i1 (by omega) (by omega) (d.length + 1) j (by omega) (by omega)
    simp only [partitionEqualLoop, hi1, hj1, Option.bind]
    rw [hp] at hup hupstop hdown hdownstop
    by_cases hgt : i1 > j1
    · simp only [hgt, if_true]
      refine ⟨d, i1, rfl, SwapsIn.refl d, by omega, by omega, ?_, ?_⟩
      · intro k hk1 hk2
        by_cases hki : k < i
        · exact H1 k hk1 hki
        · exact hup k (by omega) (by omega)
      · intro k hk1 hk2
        by_cases hkj : k ≤ j
        · exact hdown k (by omega) hkj
        · exact H2 k (by omega) hk2
    · simp only [hgt, if_false]
      have hstop1 := hupstop (by omega)
      have hstop2 := hdownstop (by omega)
      have hne : i1 ≠ j1 := by
        intro h
        rw [h] at hstop1
        exact hstop2 hstop1
      rw [Swap_eq d i1 j1 (by omega) (by omega)]
      have hk := fun k => keyAt_swapList d i1 j1 k (by omega) (by omega)
      obtain ⟨d', i', hd', hsw, hi'1, hi'2, hA, hB⟩ := ih (swapList d i1 j1) (i1 + 1) (j1 - 1)
        (by omega) (by omega) (by rw [length_swapList]; exact hb) (by omega) (by omega)
        (by rw [hk a, if_neg (by omega), if_neg (by omega)]; exact hp)
        (by
          intro k hk1 hk2
          rw [hk k]
          have h1 := H1 k hk1
          have h2 := hup k
          split_ifs <;> omega)
        (by
          intro k hk1 hk2
          rw [hk k]
          have h1 := H2 k
          have h2 := hdown k
          split_ifs <;> omega)
      refine ⟨d', i', hd', ?_, hi'1, hi'2, hA, hB⟩
      exact (SwapsIn.swap (a + 1) b d i1 j1 (by omega) (by omega) (by omega) (by omega)).trans hsw

/-- The contract of `partitionEqual`: when no key of `data[a:b]` is greater
than the key of the pivot, the keys equal to it come first and the smaller
ones follow from `mid` on. -/
theorem partitionEqual_spec (d : StoryEntryList) (a b pivot : Nat) (hap : a ≤ pivot)
    (hpb : pivot < b) (hb : b ≤ d.length)
    (hbound : ∀ k, a ≤ k → k < b → keyAt d k ≤ keyAt d pivot) :
    ∃ d' mid, partitionEqual d a b pivot = some (d', mid) ∧ SwapsIn a b d d' ∧
      a < mid ∧ mid ≤ b ∧
      (∀ k, a ≤ k → k < mid → keyAt d' k = keyAt d pivot) ∧
      (∀ k, mid ≤ k → k < b → keyAt d' k < keyAt d pivot) := by
  have hsw0 := SwapsIn.swap a b d a pivot (Nat.le_refl a) (by omega) hap hpb
  have hl0 := length_swapList d a pivot
  have hk := fun k => keyAt_swapList d a pivot k (by omega) (by omega)
  have hka : keyAt (swapList d a pivot) a = keyAt d pivot := by
    rw [hk a]
    split_ifs with h h2
    · rw [h]
    · rfl
    · exact absurd rfl h2
  obtain ⟨d', mid, hd', hsw, hm1, hm2, hA, hB⟩ :=
    partitionEqualLoop_spec a b (keyAt d pivot) ((swapList d a pivot).length + 1)
      (swapList d a pivot) (a + 1) (b - 1) (by omega) (by omega) (by omega) (by omega)
      (by omega) hka (fun k h1 h2 => by omega) (fun k h1 h2 => by omega)
  simp only [partitionEqual, Swap_eq d a pivot (by omega) (by omega), Option.bind]
  have hsw' : SwapsIn a b d d' := hsw0.trans (hsw.mono (by omega) (Nat.le_refl b))
  have hbound' := hsw'.pointwise hb (fun x => x ≤ keyAt d pivot) hbound
  refine ⟨d', mid, hd', hsw', hm1, hm2, ?_, ?_⟩
  · intro k hk1 hk2
    by_cases hka' : k = a
    · subst hka'
      rw [hsw.keyAt_outside (by omega) k (by omega), hka]
    · have h1 := hA k (by omega) hk2
      have h2 := hbound' k hk1 (by omega)
      omega
  · intro k hk1 hk2
    have := hB k hk1 hk2
    omega

/-! ## `heapSort` -/

theorem siftDownLoop_spec (hi first lo : Nat) :
    ∀ (fuel root : Nat) (d : StoryEntryList), first + hi ≤ d.length → lo ≤ root →
      hi - root < fuel →
      (∀ r c, lo ≤ r → r ≠ root → HeapAt d first hi r c) →
      (∀ g c, lo ≤ g → (root = 2 * g + 1 ∨ root = 2 * g + 2) →
        (c = 2 * root + 1 ∨ c = 2 * root + 2) → c < hi →
        keyAt d (first + g) ≤ keyAt d (first + c)) →
      ∃ d', siftDownLoop hi first fuel root d = some d' ∧
        SwapsIn (first + lo) (first + hi) d d' ∧ HeapFrom d' first hi lo := by
  intro fuel
  induction fuel with
  | zero => intro root d _ _ h; omega
  | succ fuel ih =>
    intro root d hlen hlo hfuel I1 I2
    by_cases hch : 2 * root + 1 ≥ hi
    · simp only [siftDownLoop, hch, if_true]
      refine ⟨d, rfl, SwapsIn.refl d, ?_⟩
      intro r c hr
      by_cases hrr : r = root
      · subst hrr
        intro hc hchi
        omega
      · exact I1 r c hr hrr
    · -- the child with the smaller key
      have hchild : ∃ child, (child = 2 * root + 1 ∨ child = 2 * root + 2) ∧ child < hi ∧
          (if 2 * root + 1 + 1 < hi then
            (Less d (first + (2 * root + 1)) (first + (2 * root + 1) + 1)).map
              fun l => if l then 2 * root + 1 + 1 else 2 * root + 1
           else some (2 * root + 1)) = some child ∧
          keyAt d (first + child) ≤ keyAt d (first + (2 * root + 1)) ∧
          (2 * root + 2 < hi → keyAt d (first + child) ≤ keyAt d (first + (2 * root + 2))) := by
        by_cases h2 : 2 * root + 1 + 1 < hi
        · rw [if_pos h2, Less_eq d _ _ (by omega) (by omega)]
          by_cases hl : keyAt d (first + (2 * root + 1)) > keyAt d (first + (2 * root + 1) + 1)
          · refine ⟨2 * root + 2, Or.inr rfl, by omega, by simp [hl], ?_, fun _ => le_refl _⟩
            have : first + (2 * root + 1) + 1 = first + (2 * root + 2) := by omega
            rw [this] at hl
            omega
          · refine ⟨2 * root + 1, Or.inl rfl, by omega, by simp [hl], le_refl _, ?_⟩
            intro _
            have : first + (2 * root + 1) + 1 = first + (2 * root + 2) := by omega
            rw [this] at hl
            omega
        · rw [if_neg h2]
          exact ⟨2 * root + 1, Or.inl rfl, by omega, rfl, le_refl _, fun h => by omega⟩
      obtain ⟨child, hcc, hchi, hsel, hmin1, hmin2⟩ := hchild
      simp only [siftDownLoop, hch, if_false, hsel, Option.bind]
      rw [Less_eq d (first + root) (first + child) (by omega) (by omega)]
      simp only [Option.bind]
      by_cases hl : keyAt d (first + root) > keyAt d (first + child)
      · simp only [hl, decide_True, Bool.not_true, Bool.false_eq_true, if_false]
        rw [Swap_eq d (first + root) (first + child) (by omega) (by omega)]
        simp only [Option.bind]
        have hk := fun k =>
          keyAt_swapList d (first + root) (first + child) k (by omega) (by omega)
        obtain ⟨d', hd', hsw, hheap⟩ := ih child (swapList d (first + root) (first + child))
          (by rw [length_swapList]; exact hlen) (by omega) (by omega)
          (by
            intro r c hr hrc hc hchi'
            rw [hk (first + r), hk (first + c)]
            by_cases hrr : r = root
            · subst hrr
              have e2 : first + (2 * r + 2) = first + (2 * r + 2) := rfl
              rcases hc with rfl | rfl <;> rcases hcc with rfl | rfl <;>
                split_ifs <;> omega
            · have h1 := I1 r c hr hrr hc hchi'
              have h2 := I2 r child hr
              have h3 : first + c ≠ first + child := by omega
              by_cases hcr : c = root
              · subst hcr
                have h4 := h2 hc hcc hchi
                split_ifs <;> omega
              · split_ifs <;> omega)
          (by
            intro g c hg hgc hc hchi'
            have hg' : g = root := by omega
            subst hg'
            rw [hk (first + g), hk (first + c)]
            have h1 := I1 child c (by omega) (by omega) hc hchi'
            split_ifs <;> omega)
        refine ⟨d', hd', ?_, hheap⟩
        exact (SwapsIn.swap (first + lo) (first + hi) d (first + root) (first + child) (by omega)
          (by omega) (by omega) (by omega)).trans hsw
      · simp only [hl, decide_False, Bool.not_false, if_true]
        refine ⟨d, rfl, SwapsIn.refl d, ?_⟩
        intro r c hr
        by_cases hrr : r = root
        · subst hrr
          intro hc hchi'
          rcases hc with rfl | rfl
          · omega
          · have := hmin2 hchi'
            omega
        · exact I1 r c hr hrr

theorem siftDown_spec (d : StoryEntryList) (lo hi first : Nat) (hlen : first + hi ≤ d.length)
    (hheap : HeapFrom d first hi (lo + 1)) :
    ∃ d', siftDown d lo hi first = some d' ∧ SwapsIn (first + lo) (first + hi) d d' ∧
      HeapFrom d' first hi lo := by
  unfold siftDown
  apply siftDownLoop_spec hi first lo (hi + 1) lo d hlen (Nat.le_refl lo) (by omega)
  · intro r c hr hrlo
    exact hheap r c (by omega)
  · intro g c hg hgc
    omega

theorem heapSortBuild_spec (hi first : Nat) :
    ∀ (n : Nat) (d : StoryEntryList), first + hi ≤ d.length → HeapFrom d first hi n →
      ∃ d', heapSortBuild hi first n d = some d' ∧ SwapsIn first (first + hi) d d' ∧
        HeapFrom d' first hi 0 := by
  intro n
  induction n with
  | zero =>
    intro d _ h
    exact ⟨d, rfl, SwapsIn.refl d, h⟩
  | succ i ih =>
    intro d hlen hheap
    obtain ⟨d1, hd1, hsw1, hh1⟩ := siftDown_spec d i hi first hlen hheap
    have hl1 := hsw1.length_eq
    obtain ⟨d2, hd2, hsw2, hh2⟩ := ih d1 (by omega) hh1
    refine ⟨d2, ?_, (hsw1.mono (by omega) (Nat.le_refl _)).trans hsw2, hh2⟩
    simp only [heapSortBuild, hd1, Option.bind]
    exact hd2

theorem heap_root_min (d : StoryEntryList) (first n : Nat) (hheap : HeapFrom d first n 0) :
    ∀ x, x < n → keyAt d (first + 0) ≤ keyAt d (first + x) := by
  intro x
  induction x using Nat.strong_induction_on with
  | _ x ih =>
    intro hx
    by_cases hx0 : x = 0
    · subst hx0
      exact le_refl _
    · have h1 := ih ((x - 1) / 2) (by omega) (by omega)
      have h2 := hheap ((x - 1) / 2) x (Nat.zero_le _) (by omega) hx
      omega

theorem heapSortPop_spec (first hi0 : Nat) :
    ∀ (n : Nat) (d : StoryEntryList), n ≤ hi0 → first + hi0 ≤ d.length →
      HeapFrom d first n 0 → SortedOn d (first + n) (first + hi0) →
      (∀ x t, x < n → n ≤ t → t < hi0 → keyAt d (first + x) ≥ keyAt d (first + t)) →
      ∃ d', heapSortPop first n d = some d' ∧ SwapsIn first (first + hi0) d d' ∧
        SortedOn d' first (first + hi0) := by
  intro n
  induction n with
  | zero =>
    intro d _ _ _ hs _
    exact ⟨d, rfl, SwapsIn.refl d, hs⟩
  | succ i ih =>
    intro d hn hlen hheap hsorted hcross
    have hmin := heap_root_min d first (i + 1) hheap
    have hk := fun k => keyAt_swapList d first (first + i) k (by omega) (by omega)
    have hl1 := length_swapList d first (first + i)
    obtain ⟨d2, hd2, hsw2, hh2⟩ := siftDown_spec (swapList d first (first + i)) 0 i first
      (by omega)
      (by
        intro r c hr hc hci
        rw [hk (first + r), hk (first + c)]
        have h1 := hheap r c (Nat.zero_le _) hc (by omega)
        split_ifs <;> omega)
    have hl2 := hsw2.length_eq
    have hsw2' : SwapsIn first (first + i) (swapList d first (first + i)) d2 := by
      simpa using hsw2
    have hout := fun k hk' => hsw2'.keyAt_outside (by omega) k hk'
    obtain ⟨d3, hd3, hsw3, hs3⟩ := ih d2 (by omega) (by omega) hh2
      (by
        intro p q hp hpq hq
        rw [hout p (by omega), hout q (by omega), hk p, hk q]
        have h1 := hsorted p q
        have h2 := hcross 0 (q - first) (by omega) (by omega) (by omega)
        have e1 : first + (q - first) = q := by omega
        rw [e1] at h2
        have e0 : first + 0 = first := rfl
        rw [e0] at h2
        split_ifs <;> omega)
      (by
        intro x t hx ht1 ht2
        rw [hout (first + t) (by omega), hk (first + t)]
        by_cases hti : t = i
        · subst hti
          have hp := hsw2'.pointwise (by omega) (fun v => v ≥ keyAt d first)
            (by
              intro k hk1 hk2
              rw [hk k]
              have h1 := hmin (k - first) (by omega)
              have h2 := hmin t (by omega)
              have e1 : first + (k - first) = k := by omega
              rw [e1] at h1
              have e0 : first + 0 = first := rfl
              rw [e0] at h1 h2
              split_ifs <;> omega)
            (first + x) (by omega) (by omega)
          simp only [if_true]
          exact hp
        · have hp := hsw2'.pointwise (by omega) (fun v => v ≥ keyAt d (first + t))
            (by
              intro k hk1 hk2
              rw [hk k]
              have h1 := hcross (k - first) t (by omega) (by omega) ht2
              have h2 := hcross t t
              have h3 := hcross i t (by omega) (by omega) ht2
              have h4 := hcross 0 t (by omega) (by omega) ht2
              have e1 : first + (k - first) = k := by omega
              rw [e1] at h1
              have e0 : first + 0 = first := rfl
              rw [e0] at h4
              split_ifs <;> omega)
            (first + x) (by omega) (by omega)
          rw [if_neg (by omega), if_neg (by omega)]
          exact hp)
    refine ⟨d3, ?_, ?_, hs3⟩
    · simp only [heapSortPop, Swap_eq d first (first + i) (by omega) (by omega), Option.bind, hd2]
      exact hd3
    · exact (SwapsIn.swap first (first + hi0) d first (first + i) (Nat.le_refl _) (by omega)
        (by omega) (by omega)).trans ((hsw2'.mono (Nat.le_refl _) (by omega)).trans hsw3)

/-- The contract of `heapSort`: it returns and `data[a:b]` is sorted. -/
theorem heapSort_spec (d : StoryEntryList) (a b : Nat) (hab : a ≤ b) (hb : b ≤ d.length) :
    ∃ d', heapSort d a b = some d' ∧ SwapsIn a b d d' ∧ SortedOn d' a b := by
  have hab' : a + (b - a) = b := by omega
  obtain ⟨d1, hd1, hsw1, hh1⟩ := heapSortBuild_spec (b - a) a ((b - a - 1) / 2 + 1) d (by omega)
    (by
      intro r c hr hc hci
      omega)
  have hl1 := hsw1.length_eq
  obtain ⟨d2, hd2, hsw2, hs2⟩ := heapSortPop_spec a (b - a) (b - a) d1 (Nat.le_refl _) (by omega)
    hh1 (by intro p q hp hpq hq; omega) (by intro x t hx ht1 ht2; omega)
  rw [hab'] at hsw1 hsw2 hs2
  refine ⟨d2, ?_, hsw1.trans hsw2, hs2⟩
  simp only [heapSort, hd1, Option.bind]
  exact hd2

/-! ## `partialInsertionSort` -/

theorem scanSortedUp_spec (d : StoryEntryList) (b : Nat) (hb : b ≤ d.length) :
    ∀ (fuel i : Nat), 1 ≤ i → b - i < fuel →
      ∃ i', scanSortedUp d b fuel i = some i' ∧ i ≤ i' ∧ (i ≤ b → i' ≤ b) ∧
        (∀ k, i ≤ k → k < i' → ¬ keyAt d k > keyAt d (k - 1)) ∧
        (i' < b → keyAt d i' > keyAt d (i' - 1)) := by
  intro fuel
  induction fuel with
  | zero => intro i _ h; omega
  | succ fuel ih =>
    intro i hi hfuel
    by_cases hib : i < b
    · simp only [scanSortedUp, hib, if_true]
      rw [Less_eq d i (i - 1) (by omega) (by omega)]
      by_cases hl : keyAt d i > keyAt d (i - 1)
      · simp only [hl, decide_True]
        exact ⟨i, rfl, Nat.le_refl i, fun h => h, fun k h1 h2 => by omega, fun _ => hl⟩
      · simp only [hl, decide_False]
        obtain ⟨i', h1, h2, h3, h4, h5⟩ := ih (i + 1) (by omega) (by omega)
        refine ⟨i', h1, by omega, by omega, ?_, h5⟩
        intro k hk1 hk2
        by_cases hki : k = i
        · subst hki; exact hl
        · exact h4 k (by omega) hk2
    · simp only [scanSortedUp, hib, if_false]
      exact ⟨i, rfl, Nat.le_refl i, fun h => h, fun k h1 h2 => by omega, fun h => by omega⟩

theorem SortedOn.extend (d : StoryEntryList) (a i i' : Nat) (hai : a < i)
    (hs : SortedOn d a i) (hadj : ∀ k, i ≤ k → k < i' → ¬ keyAt d k > keyAt d (k - 1)) :
    SortedOn d a i' := by
  intro p q
  induction q using Nat.strong_induction_on with
  | _ q ih =>
    intro hp hpq hq
    by_cases hqi : q < i
    · exact hs p q hp hpq hqi
    · have h1 := hadj q (by omega) hq
      by_cases hpq' : p = q - 1
      · subst hpq'
        omega
      · have h2 := ih (q - 1) (by omega) hp (by omega) (by omega)
        omega

theorem shiftSmallerLeft_eq : ∀ (j : Nat) (d : StoryEntryList),
    shiftSmallerLeft j d = insertionSortInner 0 j d := by
  intro j
  induction j with
  | zero => intro d; rfl
  | succ j ih =>
    intro d
    simp only [shiftSmallerLeft, insertionSortInner, Nat.succ_pos, gt_iff_lt, if_true]
    cases hl : Less d (j + 1) j with
    | none => rfl
    | some l =>
      cases l with
      | false => rfl
      | true =>
        simp only
        cases hs : Swap d (j + 1) j with
        | none => rfl
        | some d1 => simp only [Option.bind, ih]

theorem shiftGreaterRight_spec (b : Nat) :
    ∀ (fuel j : Nat) (d : StoryEntryList), 1 ≤ j → b ≤ d.length → b - j < fuel →
      ∃ d', shiftGreaterRight b fuel j d = some d' ∧ SwapsIn (j - 1) b d d' := by
  intro fuel
  induction fuel with
  | zero => intro j d _ _ h; omega
  | succ fuel ih =>
    intro j d hj hb hfuel
    by_cases hjb : j < b
    · simp only [shiftGreaterRight, hjb, if_true]
      rw [Less_eq d j (j - 1) (by omega) (by omega)]
      by_cases hl : keyAt d j > keyAt d (j - 1)
      · simp only [hl, decide_True]
        rw [Swap_eq d j (j - 1) (by omega) (by omega)]
        obtain ⟨d', hd', hsw⟩ := ih (j + 1) (swapList d j (j - 1)) (by omega)
          (by rw [length_swapList]; exact hb) (by omega)
        refine ⟨d', hd', ?_⟩
        exact (SwapsIn.swap (j - 1) b d j (j - 1) (by omega) hjb (Nat.le_refl _)
          (by omega)).trans (hsw.mono (by omega) (Nat.le_refl b))
      · simp only [hl, decide_False]
        exact ⟨d, rfl, SwapsIn.refl d⟩
    · simp only [shiftGreaterRight, hjb, if_false]
      exact ⟨d, rfl, SwapsIn.refl d⟩

theorem partialInsertionSortLoop_spec (a b : Nat) :
    ∀ (steps i : Nat) (d : StoryEntryList), a < i → i ≤ b → b ≤ d.length →
      SortedOn d a i → LowerBound d a b →
      ∃ d' s, partialInsertionSortLoop a b steps i d = some (d', s) ∧ SwapsIn a b d d' ∧
        (s = true → SortedOn d' a b) := by
  intro steps
  induction steps with
  | zero =>
    intro i d _ _ _ _ _
    exact ⟨d, false, rfl, SwapsIn.refl d, fun h => by cases h⟩
  | succ steps ih =>
    intro i d hai hib hb hs hlb
    obtain ⟨i1, hi1, hii1, hi1b, hadj, hstop⟩ :=
      scanSortedUp_spec d b hb (d.length + 1) i (by omega) (by omega)
    have hs1 : SortedOn d a i1 := SortedOn.extend d a i i1 hai hs hadj
    simp only [partialInsertionSortLoop, hi1, Option.bind]
    by_cases hend : i1 = b
    · simp only [hend, if_true]
      subst hend
      exact ⟨d, true, rfl, SwapsIn.refl d, fun _ => hs1⟩
    · simp only [hend, if_false]
      by_cases hshort : b - a < 50
      · simp only [hshort, if_true]
        exact ⟨d, false, rfl, SwapsIn.refl d, fun h => by cases h⟩
      · simp only [hshort, if_false]
        have hi1b' : i1 < b := by omega
        rw [Swap_eq d i1 (i1 - 1) (by omega) (by omega)]
        simp only [Option.bind]
        have hk := fun k => keyAt_swapList d i1 (i1 - 1) k (by omega) (by omega)
        have hl1 := length_swapList d i1 (i1 - 1)
        have hsw1 : SwapsIn a b d (swapList d i1 (i1 - 1)) :=
          SwapsIn.swap a b d i1 (i1 - 1) (by omega) hi1b' (by omega) (by omega)
        -- the smaller element goes to the left
        have hleft : ∃ d2, (if i1 - a ≥ 2 then shiftSmallerLeft (i1 - 1) (swapList d i1 (i1 - 1))
            else some (swapList d i1 (i1 - 1))) = some d2 ∧
            SwapsIn a b (swapList d i1 (i1 - 1)) d2 ∧ SortedOn d2 a i1 := by
          by_cases h2 : i1 - a ≥ 2
          · rw [if_pos h2, shiftSmallerLeft_eq]
            obtain ⟨d2, hd2, hsw2, hs2⟩ := insertionSortInner_spec 0 a (i1 - 1) (Nat.zero_le a)
              (i1 - 1) (swapList d i1 (i1 - 1)) (by omega) (Nat.le_refl _) (by omega)
              (by
                intro p q hp hpq hq
                rw [hk p, hk q]
                have := hs1 p q
                split_ifs <;> omega)
              (by intro p q hp hpq hq; omega)
              (by intro p q hp hpj hjq hq; omega)
              (by
                intro h0
                rw [hk (a - 1), hk (i1 - 1)]
                have := hlb h0 i1 (by omega) hi1b'
                split_ifs <;> omega)
            have e : i1 - 1 + 1 = i1 := by omega
            rw [e] at hsw2 hs2
            exact ⟨d2, hd2, hsw2.mono (Nat.le_refl a) (by omega), hs2⟩
          · rw [if_neg h2]
            refine ⟨_, rfl, SwapsIn.refl _, ?_⟩
            intro p q hp hpq hq
            omega
        obtain ⟨d2, hd2, hsw2, hs2⟩ := hleft
        simp only [hd2]
        have hl2 := hsw2.length_eq
        -- the greater element goes to the right
        have hright : ∃ d3, (if b - i1 ≥ 2 then shiftGreaterRight b (d2.length + 1) (i1 + 1) d2
            else some d2) = some d3 ∧ SwapsIn i1 b d2 d3 := by
          by_cases h2 : b - i1 ≥ 2
          · rw [if_pos h2]
            obtain ⟨d3, hd3, hsw3⟩ := shiftGreaterRight_spec b (d2.length + 1) (i1 + 1) d2
              (by omega) (by omega) (by omega)
            exact ⟨d3, hd3, by simpa using hsw3⟩
          · rw [if_neg h2]
            exact ⟨d2, rfl, SwapsIn.refl d2⟩
        obtain ⟨d3, hd3, hsw3⟩ := hright
        simp only [hd3]
        have hl3 := hsw3.length_eq
        have hswall : SwapsIn a b d d3 :=
          hsw1.trans (hsw2.trans (hsw3.mono (by omega) (Nat.le_refl b)))
        obtain ⟨d', s, hd', hsw', hsorted⟩ := ih i1 d3 (by omega) (by omega) (by omega)
          (hsw3.sortedOn_outside (by omega) a i1 (Or.inl (Nat.le_refl _)) hs2)
          (hswall.lowerBound hb hlb)
        exact ⟨d', s, hd', hswall.trans hsw', hsorted⟩

/-- The contract of `partialInsertionSort`: it returns, and `data[a:b]` is
sorted when it says so. -/
theorem partialInsertionSort_spec (d : StoryEntryList) (a b : Nat) (hab : a < b)
    (hb : b ≤ d.length) (hlb : LowerBound d a b) :
    ∃ d' s, partialInsertionSort d a b = some (d', s) ∧ SwapsIn a b d d' ∧
      (s = true → SortedOn d' a b) := by
  unfold partialInsertionSort
  apply partialInsertionSortLoop_spec a b 5 (a + 1) d (by omega) (by omega) hb _ hlb
  intro p q hp hpq hq
  omega

/-! ## `breakPatterns`, `choosePivot`, `reverseRange` -/

theorem nextPowerOfTwo_bounds (length : Nat) (h : 0 < length) :
    0 < nextPowerOfTwo length ∧ nextPowerOfTwo length ≤ 2 * length := by
  have hne : length ≠ 0 := by omega
  simp only [nextPowerOfTwo, bitsLen, hne, if_false, Nat.one_shiftLeft]
  have h1 := Nat.log2_self_le hne
  constructor
  · exact Nat.pos_pow_of_pos _ (by decide)
  · rw [Nat.pow_succ]
    omega

theorem breakPatternsLoop_spec (a b length idx modulus : Nat) (hlen : a + length = b)
    (hidx1 : a + 1 ≤ idx) (hidx2 : idx + 1 < b) (hm1 : 0 < modulus) (hm2 : modulus ≤ 2 * length) :
    ∀ (n i random : Nat) (d : StoryEntryList), b ≤ d.length → i + n ≤ 3 →
      ∃ d', breakPatternsLoop a length idx modulus n i random d = some d' ∧
        SwapsIn a b d d' := by
  intro n
  induction n with
  | zero =>
    intro i random d _ _
    exact ⟨d, rfl, SwapsIn.refl d⟩
  | succ n ih =>
    intro i random d hb hin
    have hand : xorshiftNext random &&& (modulus - 1) ≤ modulus - 1 := Nat.and_le_right
    have hother : (if xorshiftNext random &&& (modulus - 1) ≥ length then
        (xorshiftNext random &&& (modulus - 1)) - length
        else xorshiftNext random &&& (modulus - 1)) < length := by
      split_ifs <;> omega
    simp only [breakPatternsLoop]
    generalize (if xorshiftNext random &&& (modulus - 1) ≥ length then
        (xorshiftNext random &&& (modulus - 1)) - length
        else xorshiftNext random &&& (modulus - 1)) = other at hother ⊢
    rw [Swap_eq d (idx - 1 + i) (a + other) (by omega) (by omega)]
    simp only [Option.some_bind]
    obtain ⟨d', hd', hsw⟩ := ih (i + 1) (xorshiftNext random)
      (swapList d (idx - 1 + i) (a + other)) (by rw [length_swapList]; exact hb) (by omega)
    refine ⟨d', hd', ?_⟩
    exact (SwapsIn.swap a b d (idx - 1 + i) (a + other) (by omega) (by omega) (by omega)
      (by omega)).trans hsw

theorem breakPatterns_spec (d : StoryEntryList) (a b : Nat) (hab : a ≤ b) (hb : b ≤ d.length) :
    ∃ d', breakPatterns d a b = some d' ∧ SwapsIn a b d d' := by
  by_cases h8 : b - a ≥ 8
  · simp only [breakPatterns, h8, if_true]
    obtain ⟨hm1, hm2⟩ := nextPowerOfTwo_bounds (b - a) (by omega)
    exact breakPatternsLoop_spec a b (b - a) (a + (b - a) / 4 * 2 - 1) (nextPowerOfTwo (b - a))
      (by omega) (by omega) (by omega) hm1 hm2 3 0 (b - a) d hb (by omega)
  · simp only [breakPatterns, h8, if_false]
    exact ⟨d, rfl, SwapsIn.refl d⟩

theorem order2_spec (d : StoryEntryList) (x y swaps : Nat) (hx : x < d.length)
    (hy : y < d.length) :
    ∃ r, order2 d x y swaps = some r ∧
      ((r.1 = x ∧ r.2.1 = y) ∨ (r.1 = y ∧ r.2.1 = x)) := by
  simp only [order2, Less_eq d y x hy hx, Option.map]
  split_ifs
  · exact ⟨_, rfl, Or.inr ⟨rfl, rfl⟩⟩
  · exact ⟨_, rfl, Or.inl ⟨rfl, rfl⟩⟩

theorem median_spec (d : StoryEntryList) (x y z swaps : Nat) (hx : x < d.length)
    (hy : y < d.length) (hz : z < d.length) :
    ∃ r, median d x y z swaps = some r ∧ (r.1 = x ∨ r.1 = y ∨ r.1 = z) := by
  obtain ⟨r1, h1, hr1⟩ := order2_spec d x y swaps hx hy
  have hr1a : r1.1 < d.length := by rcases hr1 with ⟨h, _⟩ | ⟨h, _⟩ <;> omega
  have hr1b : r1.2.1 < d.length := by rcases hr1 with ⟨_, h⟩ | ⟨_, h⟩ <;> omega
  obtain ⟨r2, h2, hr2⟩ := order2_spec d r1.2.1 z r1.2.2 hr1b hz
  have hr2a : r2.1 < d.length := by rcases hr2 with ⟨h, _⟩ | ⟨h, _⟩ <;> omega
  obtain ⟨r3, h3, hr3⟩ := order2_spec d r1.1 r2.1 r2.2.2 hr1a hr2a
  refine ⟨(r3.2.1, r3.2.2), ?_, ?_⟩
  · simp only [median, h1, h2, h3, Option.bind]
  · simp only
    rcases hr1 with ⟨h1a, h1b⟩ | ⟨h1a, h1b⟩ <;> rcases hr2 with ⟨h2a, h2b⟩ | ⟨h2a, h2b⟩ <;>
      rcases hr3 with ⟨h3a, h3b⟩ | ⟨h3a, h3b⟩ <;> omega

/-- The contract of `choosePivot`: it returns an index of `data[a:b]`. -/
theorem choosePivot_spec (d : StoryEntryList) (a b : Nat) (hab : b - a ≥ 8) (hb : b ≤ d.length) :
    ∃ pivot hint, choosePivot d a b = some (pivot, hint) ∧ a ≤ pivot ∧ pivot < b := by
  have hijk : ∃ r, (if b - a ≥ 50 then
        (medianAdjacent d (a + (b - a) / 4 * 1) 0).bind fun ri =>
        (medianAdjacent d (a + (b - a) / 4 * 2) ri.2).bind fun rj =>
        (medianAdjacent d (a + (b - a) / 4 * 3) rj.2).bind fun rk =>
        some (ri.1, rj.1, rk.1, rk.2)
       else some (a + (b - a) / 4 * 1, a + (b - a) / 4 * 2, a + (b - a) / 4 * 3, 0)) = some r ∧
      a ≤ r.1 ∧ r.1 < b ∧ a ≤ r.2.1 ∧ r.2.1 < b ∧ a ≤ r.2.2.1 ∧ r.2.2.1 < b := by
    by_cases h50 : b - a ≥ 50
    · rw [if_pos h50]
      obtain ⟨ri, hi, hri⟩ := median_spec d (a + (b - a) / 4 * 1 - 1) (a + (b - a) / 4 * 1)
        (a + (b - a) / 4 * 1 + 1) 0 (by omega) (by omega) (by omega)
      obtain ⟨rj, hj, hrj⟩ := median_spec d (a + (b - a) / 4 * 2 - 1) (a + (b - a) / 4 * 2)
        (a + (b - a) / 4 * 2 + 1) ri.2 (by omega) (by omega) (by omega)
      obtain ⟨rk, hk, hrk⟩ := median_spec d (a + (b - a) / 4 * 3 - 1) (a + (b - a) / 4 * 3)
        (a + (b - a) / 4 * 3 + 1) rj.2 (by omega) (by omega) (by omega)
      refine ⟨(ri.1, rj.1, rk.1, rk.2), ?_, ?_⟩
      · simp only [medianAdjacent, hi, hj, hk, Option.bind]
      · simp only
        omega
    · rw [if_neg h50]
      refine ⟨_, rfl, ?_⟩
      simp only
      omega
  obtain ⟨r, hr, h1, h2, h3, h4, h5, h6⟩ := hijk
  obtain ⟨m, hm, hmr⟩ := median_spec d r.1 r.2.1 r.2.2.1 r.2.2.2 (by omega) (by omega) (by omega)
  have hres : a ≤ m.1 ∧ m.1 < b := by omega
  simp only [choosePivot, hab, if_true]
  rw [hr]
  simp only [Option.some_bind, hm, Option.map_some']
  split_ifs
  · exact ⟨_, _, rfl, hres⟩
  · exact ⟨_, _, rfl, hres⟩
  · exact ⟨_, _, rfl, hres⟩

theorem reverseRangeLoop_spec (a b : Nat) :
    ∀ (fuel i j : Nat) (d : StoryEntryList), a ≤ i → j < b → b ≤ d.length → j - i < fuel →
      ∃ d', reverseRangeLoop fuel i j d = some d' ∧ SwapsIn a b d d' := by
  intro fuel
  induction fuel with
  | zero => intro i j d _ _ _ h; omega
  | succ fuel ih =>
    intro i j d hai hjb hb hfuel
    by_cases hij : i < j
    · simp only [reverseRangeLoop, hij, if_true]
      rw [Swap_eq d i j (by omega) (by omega)]
      obtain ⟨d', hd', hsw⟩ := ih (i + 1) (j - 1) (swapList d i j) (by omega) (by omega)
        (by rw [length_swapList]; exact hb) (by omega)
      refine ⟨d', hd', ?_⟩
      exact (SwapsIn.swap a b d i j hai (by omega) (by omega) hjb).trans hsw
    · simp only [reverseRangeLoop, hij, if_false]
      exact ⟨d, rfl, SwapsIn.refl d⟩

theorem reverseRange_spec (d : StoryEntryList) (a b : Nat) (hab : a < b) (hb : b ≤ d.length) :
    ∃ d', reverseRange d a b = some d' ∧ SwapsIn a b d d' :=
  reverseRangeLoop_spec a b (d.length + 1) a (b - 1) d (Nat.le_refl a) (by omega) hb (by omega)

/-! ## `pdqsort` -/

/-- The contract of `pdqsort`: with enough fuel it returns, it only exchanges
elements of `data[a:b]`, and `data[a:b]` is sorted at the end. The element in
front of `data[a:b]` bounds the range, which is what allows `partitionEqual`. -/
theorem pdqsort_spec : ∀ (fuel : Nat) (d : StoryEntryList) (a b limit : Nat) (wb wp : Bool),
    a ≤ b → b ≤ d.length → b - a < fuel → LowerBound d a b →
    ∃ d', pdqsort fuel d a b limit wb wp = some d' ∧ SwapsIn a b d d' ∧ SortedOn d' a b := by
  intro fuel
  induction fuel with
  | zero => intro d a b limit wb wp _ _ h; omega
  | succ fuel ih =>
    intro d a b limit wb wp hab hb hfuel hlb
    by_cases hsmall : b - a ≤ 12
    · simp only [pdqsort, hsmall, if_true]
      exact insertionSort_spec d a b hb
    · by_cases hlim : limit = 0
      · simp only [pdqsort, hsmall, if_false, hlim, if_true]
        exact heapSort_spec d a b hab hb
      · simp only [pdqsort, hsmall, hlim, if_false]
        -- breakPatterns
        have h1 : ∃ d1 l1, (if (!wb) = true then
            Option.map (fun d => (d, limit - 1)) (breakPatterns d a b)
            else some (d, limit)) = some (d1, l1) ∧ SwapsIn a b d d1 := by
          by_cases hwb : (!wb) = true
          · rw [if_pos hwb]
            obtain ⟨d1, hd1, hsw1⟩ := breakPatterns_spec d a b hab hb
            exact ⟨d1, limit - 1, by rw [hd1]; rfl, hsw1⟩
          · rw [if_neg hwb]
            exact ⟨d, limit, rfl, SwapsIn.refl d⟩
        obtain ⟨d1, l1, hd1, hsw1⟩ := h1
        rw [hd1]
        simp only [Option.some_bind]
        have hl1 := hsw1.length_eq
        -- choosePivot
        obtain ⟨pv0, hint0, hcp, hpv0a, hpv0b⟩ := choosePivot_spec d1 a b (by omega) (by omega)
        rw [hcp]
        simp only [Option.some_bind]
        -- reverseRange
        have h2 : ∃ d2 pv hint, (if hint0 = sortedHint.decreasingHint then
            Option.map (fun d => (d, b - 1 - (pv0 - a), sortedHint.increasingHint))
              (reverseRange d1 a b)
            else some (d1, pv0, hint0)) = some (d2, pv, hint) ∧ SwapsIn a b d1 d2 ∧
            a ≤ pv ∧ pv < b := by
          by_cases hdec : hint0 = sortedHint.decreasingHint
          · rw [if_pos hdec]
            obtain ⟨d2, hd2, hsw2⟩ := reverseRange_spec d1 a b (by omega) (by omega)
            exact ⟨d2, b - 1 - (pv0 - a), sortedHint.increasingHint, by rw [hd2]; rfl, hsw2,
              by omega, by omega⟩
          · rw [if_neg hdec]
            exact ⟨d1, pv0, hint0, rfl, SwapsIn.refl d1, hpv0a, hpv0b⟩
        obtain ⟨d2, pv, hint, hd2, hsw2, hpva, hpvb⟩ := h2
        rw [hd2]
        simp only [Option.some_bind]
        have hl2 := hsw2.length_eq
        have hsw12 : SwapsIn a b d d2 := hsw1.trans hsw2
        -- partialInsertionSort
        have h3 : ∃ d3 s, (if (wb && wp && decide (hint = sortedHint.increasingHint)) = true then
            partialInsertionSort d2 a b else some (d2, false)) = some (d3, s) ∧
            SwapsIn a b d2 d3 ∧ (s = true → SortedOn d3 a b) := by
          by_cases hc : (wb && wp && decide (hint = sortedHint.increasingHint)) = true
          · rw [if_pos hc]
            exact partialInsertionSort_spec d2 a b (by omega) (by omega) (hsw12.lowerBound hb hlb)
          · rw [if_neg hc]
            exact ⟨d2, false, rfl, SwapsIn.refl d2, fun h => by cases h⟩
        obtain ⟨d3, s, hd3, hsw3, hs3⟩ := h3
        rw [hd3]
        simp only [Option.some_bind]
        have hl3 := hsw3.length_eq
        have hsw13 : SwapsIn a b d d3 := hsw12.trans hsw3
        have hlb3 : LowerBound d3 a b := hsw13.lowerBound hb hlb
        by_cases hsorted : s = true
        · simp only [hsorted, if_true]
          exact ⟨d3, rfl, hsw13, hs3 hsorted⟩
        · simp only [hsorted, if_false]
          -- the test `a > 0 && !data.Less(a-1, pivot)`
          have h4 : ∃ eq, (if a > 0 then Option.map (fun l => !l) (Less d3 (a - 1) pv)
              else some false) = some eq ∧
              (eq = true → 0 < a ∧ keyAt d3 (a - 1) ≤ keyAt d3 pv) := by
            by_cases ha0 : a > 0
            · rw [if_pos ha0, Less_eq d3 (a - 1) pv (by omega) (by omega)]
              refine ⟨_, rfl, ?_⟩
              intro h
              simp only [Bool.not_eq_true', decide_eq_false_iff_not, not_lt] at h
              exact ⟨ha0, by omega⟩
            · rw [if_neg ha0]
              exact ⟨false, rfl, fun h => by cases h⟩
          obtain ⟨eq, heq, heqt⟩ := h4
          rw [heq]
          simp only [Option.some_bind]
          by_cases hE : eq = true
          · simp only [hE, if_true]
            obtain ⟨ha0, hle⟩ := heqt hE
            obtain ⟨d4, mid, hd4, hsw4, hm1, hm2, hA, hB⟩ := partitionEqual_spec d3 a b pv hpva hpvb
              (by omega)
              (by
                intro k hk1 hk2
                have := hlb3 ha0 k hk1 hk2
                omega)
            rw [hd4]
            simp only [Option.some_bind]
            have hl4 := hsw4.length_eq
            obtain ⟨d5, hd5, hsw5, hs5⟩ := ih d4 mid b l1 wb wp hm2 (by omega) (by omega)
              (by
                intro _ k hk1 hk2
                have h1 := hA (mid - 1) (by omega) (by omega)
                have h2 := hB k hk1 hk2
                omega)
            have hB5 := hsw5.pointwise (by omega) (fun v => v < keyAt d3 pv) hB
            have hout := fun k hk' => hsw5.keyAt_outside (by omega) k hk'
            refine ⟨d5, hd5, hsw13.trans (hsw4.trans (hsw5.mono (by omega) (Nat.le_refl b))), ?_⟩
            intro p q hp hpq hq
            by_cases hqm : q < mid
            · rw [hout p (by omega), hout q (by omega), hA p hp (by omega), hA q (by omega) hqm]
            · by_cases hpm : p < mid
              · rw [hout p (by omega), hA p hp hpm]
                have := hB5 q (by omega) hq
                omega
              · exact hs5 p q (by omega) hpq hq
          · simp only [hE, if_false]
            obtain ⟨d4, mid, ap, hd4, hsw4, hm1, hm2, hA, hB⟩ :=
              partition_spec d3 a b pv hpva hpvb (by omega)
            rw [hd4]
            simp only [Option.some_bind]
            have hl4 := hsw4.length_eq
            have hsw14 : SwapsIn a b d d4 := hsw13.trans hsw4
            have hlb4 : LowerBound d4 a b := hsw14.lowerBound hb hlb
            by_cases hside : mid - a < b - mid
            · simp only [hside, if_true]
              obtain ⟨d5, hd5, hsw5, hs5⟩ := ih d4 a mid l1 true true hm1 (by omega) (by omega)
                (by
                  intro h0 k hk1 hk2
                  exact hlb4 h0 k hk1 (by omega))
              rw [hd5]
              simp only [Option.some_bind]
              have hl5 := hsw5.length_eq
              have hout5 := fun k hk' => hsw5.keyAt_outside (by omega) k hk'
              have hA5 := hsw5.pointwise (by omega) (fun v => v > keyAt d4 mid) hA
              obtain ⟨d6, hd6, hsw6, hs6⟩ := ih d5 (mid + 1) b l1
                (decide (mid - a ≥ (b - a) / 8)) ap (by omega) (by omega) (by omega)
                (by
                  intro _ k hk1 hk2
                  simp only [Nat.add_sub_cancel]
                  rw [hout5 k (by omega), hout5 mid (by omega)]
                  exact hB k (by omega) hk2)
              have hout6 := fun k hk' => hsw6.keyAt_outside (by omega) k hk'
              have hB6 := hsw6.pointwise (by omega) (fun v => v ≤ keyAt d4 mid)
                (by
                  intro k hk1 hk2
                  rw [hout5 k (by omega)]
                  exact hB k (by omega) hk2)
              refine ⟨d6, hd6, ?_, ?_⟩
              · exact hsw14.trans ((hsw5.mono (Nat.le_refl a) (by omega)).trans
                  (hsw6.mono (by omega) (Nat.le_refl b)))
              · intro p q hp hpq hq
                by_cases hqm : q < mid
                · rw [hout6 p (by omega), hout6 q (by omega)]
                  exact hs5 p q hp hpq hqm
                · by_cases hpm : p < mid
                  · have h1 := hA5 p hp hpm
                    rw [hout6 p (by omega)]
                    by_cases hqe : q = mid
                    · subst hqe
                      rw [hout6 q (by omega), hout5 q (by omega)]
                      omega
                    · have h2 := hB6 q (by omega) hq
                      omega
                  · by_cases hpe : p = mid
                    · subst hpe
                      rw [hout6 p (by omega), hout5 p (by omega)]
                      have h2 := hB6 q (by omega) hq
                      omega
                    · exact hs6 p q (by omega) hpq hq
            · simp only [hside, if_false]
              obtain ⟨d5, hd5, hsw5, hs5⟩ := ih d4 (mid + 1) b l1 true true (by omega) (by omega)
                (by omega)
                (by
                  intro _ k hk1 hk2
                  simp only [Nat.add_sub_cancel]
                  exact hB k (by omega) hk2)
              rw [hd5]
              simp only [Option.some_bind]
              have hl5 := hsw5.length_eq
              have hout5 := fun k hk' => hsw5.keyAt_outside (by omega) k hk'
              have hB5 := hsw5.pointwise (by omega) (fun v => v ≤ keyAt d4 mid)
                (fun k hk1 hk2 => hB k (by omega) hk2)
              obtain ⟨d6, hd6, hsw6, hs6⟩ := ih d5 a mid l1
                (decide (b - mid ≥ (b - a) / 8)) ap hm1 (by omega) (by omega)
                (by
                  intro h0 k hk1 hk2
                  rw [hout5 k (by omega), hout5 (a - 1) (by omega)]
                  exact hlb4 h0 k hk1 (by omega))
              have hout6 := fun k hk' => hsw6.keyAt_outside (by omega) k hk'
              have hA6 := hsw6.pointwise (by omega) (fun v => v > keyAt d4 mid)
                (by
                  intro k hk1 hk2
                  rw [hout5 k (by omega)]
                  exact hA k hk1 hk2)
              refine ⟨d6, hd6, ?_, ?_⟩
              · exact hsw14.trans ((hsw5.mono (by omega) (Nat.le_refl b)).trans
                  (hsw6.mono (Nat.le_refl a) (by omega)))
              · intro p q hp hpq hq
                by_cases hqm : q < mid
                · exact hs6 p q hp hpq hqm
                · by_cases hpm : p < mid
                  · have h1 := hA6 p hp hpm
                    by_cases hqe : q = mid
                    · subst hqe
                      rw [hout6 q (by omega), hout5 q (by omega)]
                      omega
                    · rw [hout6 q (by omega)]
                      have h2 := hB5 q (by omega) hq
                      omega
                  · by_cases hpe : p = mid
                    · subst hpe
                      rw [hout6 p (by omega), hout5 p (by omega), hout6 q (by omega)]
                      have h2 := hB5 q (by omega) hq
                      omega
                    · rw [hout6 p (by omega), hout6 q (by omega)]
                      exact hs5 p q (by omega) hpq hq

/-! ## `sort.Sort` -/

theorem sortSort_sortedOn (d : StoryEntryList) :
    ∃ d', sortSort d = some d' ∧ d'.Perm d ∧ SortedOn d' 0 d.length := by
  by_cases h1 : d.length ≤ 1
  · refine ⟨d, ?_, List.Perm.refl d, ?_⟩
    · simp [sortSort, Len, h1]
    · intro p q hp hpq hq
      omega
  · obtain ⟨d', hd', hsw, hs⟩ := pdqsort_spec (d.length + 1) d 0 d.length (bitsLen d.length)
      true true (Nat.zero_le _) (Nat.le_refl _) (by omega) (by intro h; omega)
    refine ⟨d', ?_, hsw.perm (Nat.le_refl _), hs⟩
    simp only [sortSort, Len, h1, if_false]
    exact hd'

theorem chain_of_sortedOn (d : StoryEntryList) (h : SortedOn d 0 d.length) :
    List.Chain' (fun x y : StoryEntry => x.StarredCount ≥ y.StarredCount) d := by
  rw [List.chain'_iff_get]
  intro i hi
  have := h i (i + 1) (Nat.zero_le _) (Nat.lt_succ_self i) (by omega)
  simp only [keyAt, List.getD_eq_getElem d default (by omega : i < d.length),
    List.getD_eq_getElem d default (by omega : i + 1 < d.length)] at this
  simpa using this

/-- `sort.Sort` returns a permutation of the stories in which every story has
at least as many stars as its successor. -/
theorem sortSort_sorted (d : StoryEntryList) :
    ∃ d', sortSort d = some d' ∧ d'.Perm d ∧
      List.Chain' (fun x y : StoryEntry => x.StarredCount ≥ y.StarredCount) d' := by
  obtain ⟨d', hd', hperm, hs⟩ := sortSort_sortedOn d
  refine ⟨d', hd', hperm, chain_of_sortedOn d' ?_⟩
  rw [hperm.length_eq]
  exact hs

/-- When `br.Open` succeeds, `scrape` returns the entry of `scrapeFields` with
its stories ranked by `sort.Sort`. -/
theorem scrape_ok {σ : Type} (intSize : Nat) (br : Browser σ) (st : σ) (lookup : GoString)
    (h : (br.Open st ("http://kanji.koohii.com/study/kanji/".toList ++ lookup)).1 = none) :
    ∃ stories, sortSort (scrapeFields intSize
        (br.page (br.Open st ("http://kanji.koohii.com/study/kanji/".toList ++ lookup)).2)).Stories
        = some stories ∧
      (scrape intSize br st lookup).1 = some (Except.ok
        { scrapeFields intSize
            (br.page (br.Open st ("http://kanji.koohii.com/study/kanji/".toList ++ lookup)).2)
          with Stories := stories }) := by
  obtain ⟨stories, hs, _, _⟩ := sortSort_sorted (scrapeFields intSize
    (br.page (br.Open st ("http://kanji.koohii.com/study/kanji/".toList ++ lookup)).2)).Stories
  refine ⟨stories, hs, ?_⟩
  unfold scrape
  generalize hopen : br.Open st ("http://kanji.koohii.com/study/kanji/".toList ++ lookup) = r
    at h hs ⊢
  obtain ⟨e, st'⟩ := r
  simp only at h
  subst h
  simp only [hs, Option.map_some']

theorem scrape_error {σ : Type} (intSize : Nat) (br : Browser σ) (st : σ) (lookup : GoString)
    (err : GoString)
    (h : (br.Open st ("http://kanji.koohii.com/study/kanji/".toList ++ lookup)).1 = some err) :
    (scrape intSize br st lookup).1 = some (Except.error err) := by
  unfold scrape
  generalize hopen : br.Open st ("http://kanji.koohii.com/study/kanji/".toList ++ lookup) = r
    at h ⊢
  obtain ⟨e, st'⟩ := r
  simp only at h
  subst h
  rfl

/-! ## The range of frames (lines 182-184) -/

theorem wrapInt_of_inRange (intSize : Nat) (hsz : 1 ≤ intSize) (x : Int)
    (h1 : -(2 ^ (intSize - 1) : Int) ≤ x) (h2 : x < 2 ^ (intSize - 1)) :
    wrapInt intSize x = x := by
  have hpow : (2 : Int) ^ intSize = 2 * 2 ^ (intSize - 1) := by
    have : intSize = (intSize - 1) + 1 := by omega
    conv_lhs => rw [this, pow_succ]
    ring
  simp only [wrapInt]
  rw [Int.emod_eq_of_lt (by omega) (by omega)]
  omega

theorem wrapInt_max (intSize : Nat) (hsz : 1 ≤ intSize) :
    wrapInt intSize ((2 ^ (intSize - 1) - 1 : Int) + 1) = -(2 ^ (intSize - 1) : Int) := by
  have hpow : (2 : Int) ^ intSize = 2 * 2 ^ (intSize - 1) := by
    have : intSize = (intSize - 1) + 1 := by omega
    conv_lhs => rw [this, pow_succ]
    ring
  have hpos : (0 : Int) < 2 ^ (intSize - 1) := by positivity
  simp only [wrapInt]
  have : ((2 : Int) ^ (intSize - 1) - 1 + 1 + 2 ^ (intSize - 1)) = 2 ^ intSize := by
    rw [hpow]; ring
  rw [this, Int.emod_self]
  omega

theorem intRange_cons (first last : Int) (h : first ≤ last) :
    intRange first last = first :: intRange (first + 1) last := by
  simp only [intRange]
  have h1 : (last + 1 - first).toNat = (last + 1 - (first + 1)).toNat + 1 := by omega
  rw [h1, List.range_succ_eq_map, List.map_cons, List.map_map]
  simp only [Nat.cast_zero, add_zero, List.cons.injEq, true_and]
  apply List.map_congr_left
  intro k _
  simp only [Function.comp, Nat.succ_eq_add_one, Nat.cast_add, Nat.cast_one]
  omega

theorem intRange_nil (first last : Int) (h : last < first) : intRange first last = [] := by
  simp only [intRange]
  have : (last + 1 - first).toNat = 0 := by omega
  rw [this]
  rfl

/-- As long as `lastFrame` is not the greatest `int`, the loop of lines
182-184 ends and appends the decimal strings of `i, ..., lastFrame`. -/
theorem rangeLookups_spec (intSize : Nat) (hsz : 1 ≤ intSize) (lastFrame : Int)
    (hlast : lastFrame < 2 ^ (intSize - 1) - 1) :
    ∀ (fuel : Nat) (i : Int) (lookups : List GoString), -(2 ^ (intSize - 1) : Int) ≤ i →
      (lastFrame + 1 - i).toNat < fuel →
      rangeLookups intSize lastFrame fuel i lookups =
        some (lookups ++ (intRange i lastFrame).map Itoa) := by
  intro fuel
  induction fuel with
  | zero => intro i lookups _ h; omega
  | succ fuel ih =>
    intro i lookups hi hfuel
    by_cases hle : i ≤ lastFrame
    · simp only [rangeLookups, hle, if_true]
      rw [wrapInt_of_inRange intSize hsz (i + 1) (by omega) (by omega),
        ih (i + 1) _ (by omega) (by omega), intRange_cons i lastFrame hle]
      simp
    · simp only [rangeLookups, hle, if_false]
      rw [intRange_nil i lastFrame (by omega)]
      simp

/-- When `lastFrame` is the greatest `int`, the loop of lines 182-184 never
ends: `i <= lastFrame` holds for every `int`. -/
theorem rangeLookups_maxInt (intSize : Nat) (hsz : 1 ≤ intSize) :
    ∀ (fuel : Nat) (i : Int) (lookups : List GoString), -(2 ^ (intSize - 1) : Int) ≤ i →
      i ≤ 2 ^ (intSize - 1) - 1 →
      rangeLookups intSize (2 ^ (intSize - 1) - 1) fuel i lookups = none := by
  intro fuel
  induction fuel with
  | zero => intro i lookups _ _; rfl
  | succ fuel ih =>
    intro i lookups h1 h2
    simp only [rangeLookups, h2, if_true]
    by_cases hmax : i = 2 ^ (intSize - 1) - 1
    · rw [hmax, wrapInt_max intSize hsz]
      have hpos : (0 : Int) < 2 ^ (intSize - 1) := by positivity
      exact ih _ _ (le_refl _) (by omega)
    · rw [wrapInt_of_inRange intSize hsz (i + 1) (by omega) (by omega)]
      exact ih _ _ (by omega) (by omega)

/-! ## `load` (lines 119-133) -/

theorem Split_no_sep (cur : GoString) (sep : Char) (h : sep ∉ cur) : Split cur sep = [cur] := by
  induction cur with
  | nil => rfl
  | cons c cs ih =>
    have hc : c ≠ sep := fun e => h (e ▸ List.mem_cons_self _ _)
    have hcs : sep ∉ cs := fun e => h (List.mem_cons_of_mem _ e)
    simp only [Split, hc, if_false, ih hcs]

theorem Split_append_sep (cur cs : GoString) (sep : Char) (h : sep ∉ cur) :
    Split (cur ++ sep :: cs) sep = cur :: Split cs sep := by
  induction cur with
  | nil => simp [Split]
  | cons c cur ih =>
    have hc : c ≠ sep := fun e => h (e ▸ List.mem_cons_self _ _)
    have hcs : sep ∉ cur := fun e => h (List.mem_cons_of_mem _ e)
    rw [List.cons_append, Split, if_neg hc, ih hcs]

theorem fileLines_no_newline (cur : GoString) (h : '\n' ∉ cur) :
    fileLines cur = if cur = [] then [] else [cur] := by
  simp only [fileLines, Split_no_sep cur '\n' h]
  by_cases hc : cur = []
  · simp [hc]
  · simp [hc]

theorem fileLines_append_newline (cur cs : GoString) (h : '\n' ∉ cur) :
    fileLines (cur ++ '\n' :: cs) = cur :: fileLines cs := by
  simp only [fileLines, Split_append_sep cur cs '\n' h]
  have hne := Split_ne_nil cs '\n'
  obtain ⟨p, ps, hps⟩ := List.exists_cons_of_ne_nil hne
  rw [hps]
  simp only [List.getLast?_cons_cons, List.dropLast_cons₂]
  split_ifs <;> rfl

/-- For a file whose lines are shorter than the buffer of the scanner, the
scanner delivers every line of the file, with a trailing carriage return
removed. -/
theorem scanLines_spec : ∀ (content cur : GoString), '\n' ∉ cur →
    (∀ line ∈ fileLines (cur ++ content), byteLen line < maxScanTokenSize) →
    scanLines content cur = (fileLines (cur ++ content)).map dropCR := by
  intro content
  induction content with
  | nil =>
    intro cur hcur hshort
    rw [List.append_nil] at hshort ⊢
    rw [fileLines_no_newline cur hcur] at hshort ⊢
    by_cases hc : cur = []
    · simp [scanLines, hc]
    · have := hshort cur (by simp [hc])
      have hnot : ¬ byteLen cur ≥ maxScanTokenSize := by omega
      simp [scanLines, hc, hnot]
  | cons c cs ih =>
    intro cur hcur hshort
    by_cases hc : c = '\n'
    · subst hc
      rw [fileLines_append_newline cur cs hcur] at hshort ⊢
      have := hshort cur (List.mem_cons_self _ _)
      have hnot : ¬ byteLen cur ≥ maxScanTokenSize := by omega
      simp only [scanLines, if_true, hnot, if_false, List.map_cons]
      rw [ih [] (by simp) (by
        intro line hl
        exact hshort line (List.mem_cons_of_mem _ (by simpa using hl)))]
      simp
    · simp only [scanLines, hc, if_false]
      have hcur' : '\n' ∉ cur ++ [c] := by
        simp only [List.mem_append, List.mem_singleton, not_or]
        exact ⟨hcur, fun e => hc e.symm⟩
      have happ : cur ++ [c] ++ cs = cur ++ c :: cs := by simp
      rw [ih (cur ++ [c]) hcur' (by rw [happ]; exact hshort), happ]

/-! ## The loop over the lookups and the final `save` (lines 187-202) -/

theorem scrapeAll_ok {σ : Type}
    (scrapeFn : σ → GoString → Option (Except GoString KanjiEntry) × σ) :
    ∀ (lookups : List GoString) (st : σ) (acc entries : List KanjiEntry) (st' : σ),
      scrapePrefix scrapeFn st lookups = some (entries, st') →
      scrapeAll scrapeFn st lookups acc = some (scrapeEvents lookups, some (acc ++ entries)) := by
  intro lookups
  induction lookups with
  | nil =>
    intro st acc entries st' h
    simp only [scrapePrefix, Option.some.injEq, Prod.mk.injEq] at h
    simp [scrapeAll, scrapeEvents, ← h.1]
  | cons k ks ih =>
    intro st acc entries st' h
    simp only [scrapePrefix] at h
    rcases hf : scrapeFn st k with ⟨r, st1⟩
    rw [hf] at h
    rcases r with _ | (err | kanji)
    · cases h
    · cases h
    · simp only at h
      cases hp : scrapePrefix scrapeFn st1 ks with
      | none => rw [hp] at h; cases h
      | some r1 =>
        obtain ⟨es, st2⟩ := r1
        rw [hp] at h
        simp only [Option.map_some', Option.some.injEq, Prod.mk.injEq] at h
        simp only [scrapeAll, hf]
        rw [ih st1 (acc ++ [kanji]) es st2 hp]
        simp [scrapeEvents, scrapeRound, ← h.1]

theorem scrapeAll_fail {σ : Type}
    (scrapeFn : σ → GoString → Option (Except GoString KanjiEntry) × σ)
    (key : GoString) (post : List GoString) (err : GoString) :
    ∀ (pre : List GoString) (st : σ) (acc entries : List KanjiEntry) (st' : σ),
      scrapePrefix scrapeFn st pre = some (entries, st') →
      (scrapeFn st' key).1 = some (Except.error err) →
      scrapeAll scrapeFn st (pre ++ key :: post) acc =
        some (scrapeEvents pre ++
          [Event.log ("scraping ".toList ++ key ++ "...".toList), Event.scrape key,
            Event.fatal err], none) := by
  intro pre
  induction pre with
  | nil =>
    intro st acc entries st' h herr
    simp only [scrapePrefix, Option.some.injEq, Prod.mk.injEq] at h
    rw [← h.2] at herr
    rcases hf : scrapeFn st key with ⟨r, st1⟩
    rw [hf] at herr
    simp only at herr
    subst herr
    simp [scrapeAll, hf, scrapeEvents]
  | cons k ks ih =>
    intro st acc entries st' h herr
    simp only [scrapePrefix] at h
    rcases hf : scrapeFn st k with ⟨r, st1⟩
    rw [hf] at h
    rcases r with _ | (e | kanji)
    · cases h
    · cases h
    · simp only at h
      cases hp : scrapePrefix scrapeFn st1 ks with
      | none => rw [hp] at h; cases h
      | some r1 =>
        obtain ⟨es, st2⟩ := r1
        rw [hp] at h
        simp only [Option.map_some', Option.some.injEq, Prod.mk.injEq] at h
        rw [← h.2] at herr
        rw [List.cons_append]
        simp only [scrapeAll, hf]
        rw [ih st1 (acc ++ [kanji]) es st2 hp herr]
        simp [scrapeEvents, scrapeRound]

theorem scrapeAll_some {σ : Type}
    (scrapeFn : σ → GoString → Option (Except GoString KanjiEntry) × σ) :
    ∀ (lookups : List GoString) (st : σ) (acc : List KanjiEntry) (evs : List Event)
      (res : Option (List KanjiEntry)),
      scrapeAll scrapeFn st lookups acc = some (evs, res) →
      (∀ e ∈ evs, isSave e = false) ∧
      (∀ l, res = some l → ∃ entries st', scrapePrefix scrapeFn st lookups = some (entries, st') ∧
        l = acc ++ entries) := by
  intro lookups
  induction lookups with
  | nil =>
    intro st acc evs res h
    simp only [scrapeAll, Option.some.injEq, Prod.mk.injEq] at h
    obtain ⟨rfl, rfl⟩ := h
    refine ⟨by simp, ?_⟩
    intro l hl
    simp only [Option.some.injEq] at hl
    exact ⟨[], st, rfl, by simp [hl]⟩
  | cons k ks ih =>
    intro st acc evs res h
    simp only [scrapeAll] at h
    rcases hf : scrapeFn st k with ⟨r, st1⟩
    rw [hf] at h
    rcases r with _ | (e | kanji)
    · cases h
    · simp only [Option.some.injEq, Prod.mk.injEq] at h
      obtain ⟨rfl, rfl⟩ := h
      refine ⟨by simp [isSave], ?_⟩
      intro l hl
      cases hl
    · simp only at h
      cases hr : scrapeAll scrapeFn st1 ks (acc ++ [kanji]) with
      | none => rw [hr] at h; cases h
      | some r1 =>
        obtain ⟨evs1, res1⟩ := r1
        rw [hr] at h
        simp only [Option.map_some', Option.some.injEq, Prod.mk.injEq] at h
        obtain ⟨rfl, rfl⟩ := h
        obtain ⟨h1, h2⟩ := ih st1 (acc ++ [kanji]) evs1 res1 hr
        refine ⟨?_, ?_⟩
        · intro e he
          simp only [List.append_assoc, List.cons_append, List.nil_append, List.mem_cons] at he
          rcases he with rfl | rfl | rfl | he
          · rfl
          · rfl
          · rfl
          · exact h1 e he
        · intro l hl
          obtain ⟨entries, st', hp, hl'⟩ := h2 l hl
          refine ⟨kanji :: entries, st', ?_, by simp [hl']⟩
          simp only [scrapePrefix, hf, hp, Option.map_some']

theorem scrapedKey_scrapeEvents (pre : List GoString) :
    (scrapeEvents pre).filterMap scrapedKey = pre := by
  induction pre with
  | nil => rfl
  | cons k ks ih =>
    have : scrapeEvents (k :: ks) = scrapeRound k ++ scrapeEvents ks := by
      simp [scrapeEvents]
    rw [this, List.filterMap_append, ih]
    simp [scrapeRound, scrapedKey, List.filterMap_cons]

theorem isSave_scrapeEvents (pre : List GoString) : ∀ e ∈ scrapeEvents pre, isSave e = false := by
  induction pre with
  | nil => simp [scrapeEvents]
  | cons k ks ih =>
    have : scrapeEvents (k :: ks) = scrapeRound k ++ scrapeEvents ks := by
      simp [scrapeEvents]
    rw [this]
    intro e he
    rcases List.mem_append.mp he with h | h
    · simp only [scrapeRound, List.mem_cons, List.mem_singleton, List.not_mem_nil, or_false] at h
      rcases h with rfl | rfl | rfl <;> rfl
    · exact ih e h

theorem resolveLookups_events (intSize : Nat) (fs : FileSystem) (fuel : Nat) (flags : Flags)
    (evs : List Event) (res : Option (List GoString))
    (h : resolveLookups intSize fs fuel flags = some (evs, res)) :
    (∀ e ∈ evs, isSave e = false) ∧ evs.filterMap scrapedKey = [] ∧
      (res = none → ∃ err, evs.getLast? = some (Event.fatal err)) := by
  unfold resolveLookups at h
  split_ifs at h with hargs
  · simp only at h
    cases hl : load fs (flags.args.getD 1 []) with
    | error err =>
      rw [hl] at h
      simp only [Option.some.injEq, Prod.mk.injEq] at h
      obtain ⟨rfl, rfl⟩ := h
      refine ⟨?_, by simp [scrapedKey, List.filterMap_cons], fun _ => ⟨err, by simp⟩⟩
      intro e he
      simp only [List.cons_append, List.nil_append, List.mem_cons, List.mem_singleton,
        List.not_mem_nil, or_false] at he
      rcases he with rfl | rfl | rfl <;> rfl
    | ok lookups =>
      rw [hl] at h
      simp only [Option.some.injEq, Prod.mk.injEq] at h
      obtain ⟨rfl, rfl⟩ := h
      refine ⟨?_, by simp [scrapedKey, List.filterMap_cons], fun h => by cases h⟩
      intro e he
      simp only [List.mem_cons, List.mem_singleton, List.not_mem_nil, or_false] at he
      rcases he with rfl | rfl <;> rfl
  · cases hr : rangeLookups intSize flags.lastFrame fuel flags.firstFrame [] with
    | none => rw [hr] at h; cases h
    | some lookups =>
      rw [hr] at h
      simp only [Option.map_some', Option.some.injEq, Prod.mk.injEq] at h
      obtain ⟨rfl, rfl⟩ := h
      exact ⟨by simp, rfl, fun h => by cases h⟩

/-! ## The ranking of the stories -/

/-- C1: for every list of stories, `sort.Sort` with the `Less` of
`StoryEntryList` returns, and it returns a permutation of the stories in which
every adjacent pair `(a, b)` has `a.StarredCount >= b.StarredCount`; `scrape`
always returns, either the error of `br.Open` or an entry whose stories are
in that order. -/
theorem ranking_sorted_descending {σ : Type} (intSize : Nat) (br : Browser σ) (st : σ)
    (lookup : GoString) (stories : StoryEntryList) :
    (∃ ranked, sortSort stories = some ranked ∧ ranked.Perm stories ∧
      List.Chain' starsDescending ranked) ∧
    (match (scrape intSize br st lookup).1 with
      | some (Except.ok kanji) => List.Chain' starsDescending kanji.Stories
      | some (Except.error err) => (br.Open st (studyUrl lookup)).1 = some err
      | none => False) := by
  refine ⟨sortSort_sorted stories, ?_⟩
  cases hopen : (br.Open st (studyUrl lookup)).1 with
  | none =>
    obtain ⟨ranked, hranked, hscrape⟩ := scrape_ok intSize br st lookup hopen
    obtain ⟨ranked', hranked', _, hchain⟩ := sortSort_sorted (scrapeFields intSize
      (br.page (br.Open st ("http://kanji.koohii.com/study/kanji/".toList ++ lookup)).2)).Stories
    rw [hranked] at hranked'
    injection hranked' with hsame
    subst hsame
    rw [hscrape]
    exact hchain
  | some err =>
    rw [scrape_error intSize br st lookup err hopen]

/-- C2, as stated, fails: `sort.Sort` moves the story `g` in front of the
story `a`, both without a star, in a list of thirteen stories. -/
theorem ranking_not_stable_thirteen :
    sortSort thirteenStories =
      some [storyOf "m" 1, storyOf "g" 0, storyOf "c" 0, storyOf "d" 0, storyOf "e" 0,
        storyOf "f" 0, storyOf "a" 0, storyOf "h" 0, storyOf "i" 0, storyOf "j" 0,
        storyOf "k" 0, storyOf "l" 0, storyOf "b" 0] ∧
    ¬ ∀ stories ranked, sortSort stories = some ranked →
      ∀ k, withStars k ranked = withStars k stories := by
  have heval : sortSort thirteenStories =
      some [storyOf "m" 1, storyOf "g" 0, storyOf "c" 0, storyOf "d" 0, storyOf "e" 0,
        storyOf "f" 0, storyOf "a" 0, storyOf "h" 0, storyOf "i" 0, storyOf "j" 0,
        storyOf "k" 0, storyOf "l" 0, storyOf "b" 0] := by decide
  refine ⟨heval, ?_⟩
  intro hall
  have h0 := hall thirteenStories _ heval 0
  revert h0
  decide

/-- C2, amended: for a list of at most twelve stories `sort.Sort` returns and
keeps the stories with the same number of stars in the order they had before. -/
theorem ranking_stable_upto_twelve (stories : StoryEntryList) (hlen : stories.length ≤ 12) :
    ∃ ranked, sortSort stories = some ranked ∧
      ∀ k, withStars k ranked = withStars k stories := by
  by_cases h1 : stories.length ≤ 1
  · exact ⟨stories, by simp [sortSort, Len, h1], fun _ => rfl⟩
  · obtain ⟨ranked, hranked, _, _⟩ := insertionSort_spec stories 0 stories.length (Nat.le_refl _)
    have hsort : sortSort stories = some ranked := by
      have hsmall : stories.length - 0 ≤ 12 := by omega
      simp only [sortSort, Len, h1, if_false, pdqsort, hsmall, if_true]
      exact hranked
    exact ⟨ranked, hsort, fun k => (insertionSort_stable stories ranked 0 _ hranked).withStars_eq k⟩

/-- C2, an instance of `ranking_stable_upto_twelve`: three stories, two of them
without a star. -/
theorem ranking_stable_upto_twelve_witness :
    threeStories.length ≤ 12 ∧
    ∃ ranked, sortSort threeStories = some ranked ∧
      ∀ k, withStars k ranked = withStars k threeStories :=
  ⟨by decide, ranking_stable_upto_twelve threeStories (by decide)⟩

/-! ## The fields of an entry -/

theorem scrape_fields {σ : Type} (intSize : Nat) (br : Browser σ) (st : σ) (lookup : GoString)
    (hopen : (br.Open st (studyUrl lookup)).1 = none) :
    ∃ kanji, (scrape intSize br st lookup).1 = some (Except.ok kanji) ∧
      kanji.FrameNumber = (scrapeFields intSize (fetchedPage br st lookup)).FrameNumber ∧
      kanji.StrokeCount = (scrapeFields intSize (fetchedPage br st lookup)).StrokeCount ∧
      kanji.Story = (scrapeFields intSize (fetchedPage br st lookup)).Story ∧
      kanji.Stories.Perm (scrapeFields intSize (fetchedPage br st lookup)).Stories := by
  obtain ⟨ranked, hranked, hscrape⟩ := scrape_ok intSize br st lookup hopen
  obtain ⟨ranked', hranked', hperm, _⟩ := sortSort_sorted (scrapeFields intSize
    (br.page (br.Open st ("http://kanji.koohii.com/study/kanji/".toList ++ lookup)).2)).Stories
  rw [hranked] at hranked'
  injection hranked' with hsame
  subst hsame
  exact ⟨_, hscrape, rfl, rfl, rfl, hperm⟩

theorem scrapeStrokeCount_bracketed (intSize : Nat) (hsz : intSize = 32 ∨ intSize = 64)
    (text pre ds post : GoString) (hrun : BracketedRun text pre ds post)
    (hfirst : ∀ p ds' q, BracketedRun text p ds' q → pre.length ≤ p.length)
    (hfit : decimalValue ds < 2 ^ (intSize - 1)) :
    scrapeStrokeCount intSize text = decimalValue ds := by
  simp only [scrapeStrokeCount, FindStringSubmatch_first text pre ds post hrun hfirst,
    Atoi_digits intSize hsz ds hrun.2.1 hrun.2.2 hfit]

theorem scrapeStrokeCount_plain (intSize : Nat) (text : GoString)
    (hno : ¬ ∃ p ds q, BracketedRun text p ds q) :
    scrapeStrokeCount intSize text =
      (Atoi intSize ((TrimSpace text).takeWhile fun c => decide (c ≠ ' '))).1 := by
  simp only [scrapeStrokeCount, FindStringSubmatch_none text hno, Split_head]

/-- C3: when the text of `div.strokecount` has a bracketed run of digits `[n]`
with `n` representable as an `int`, `scrape` returns an entry whose
`StrokeCount` is `n` for the first such run, whatever the text starts with;
the text "8 strokes [10]" gives 10. -/
theorem strokeCount_bracketed_wins {σ : Type} (intSize : Nat) (br : Browser σ) (st : σ)
    (lookup pre ds post : GoString) (hsz : intSize = 32 ∨ intSize = 64)
    (hopen : (br.Open st (studyUrl lookup)).1 = none)
    (hrun : BracketedRun (fetchedPage br st lookup).strokecountText pre ds post)
    (hfirst : ∀ p ds' q, BracketedRun (fetchedPage br st lookup).strokecountText p ds' q →
      pre.length ≤ p.length)
    (hfit : decimalValue ds < 2 ^ (intSize - 1)) :
    (∃ kanji, (scrape intSize br st lookup).1 = some (Except.ok kanji) ∧
      kanji.StrokeCount = (decimalValue ds : Int)) ∧
    scrapeStrokeCount intSize "8 strokes [10]".toList = 10 := by
  constructor
  · obtain ⟨kanji, hk, _, hsc, _, _⟩ := scrape_fields intSize br st lookup hopen
    refine ⟨kanji, hk, ?_⟩
    rw [hsc]
    exact scrapeStrokeCount_bracketed intSize hsz _ pre ds post hrun hfirst hfit
  · rcases hsz with rfl | rfl <;> decide

/-- C3, an instance of `strokeCount_bracketed_wins`: the page whose stroke-count text
is "8 strokes [10]". -/
theorem strokeCount_bracketed_wins_witness :
    BracketedRun (fetchedPage (constBrowser (pageWith "" "8 strokes [10]" "")) () []).strokecountText
      "8 strokes ".toList "10".toList [] ∧
    (∃ kanji, (scrape 64 (constBrowser (pageWith "" "8 strokes [10]" "")) () []).1 =
        some (Except.ok kanji) ∧ kanji.StrokeCount = (decimalValue "10".toList : Int)) ∧
    scrapeStrokeCount 64 "8 strokes [10]".toList = 10 := by
  have hrun : BracketedRun
      (fetchedPage (constBrowser (pageWith "" "8 strokes [10]" "")) () []).strokecountText
      "8 strokes ".toList "10".toList [] := ⟨by decide, by decide, by decide⟩
  refine ⟨hrun, strokeCount_bracketed_wins 64 (constBrowser (pageWith "" "8 strokes [10]" "")) ()
    [] "8 strokes ".toList "10".toList [] (Or.inr rfl) rfl hrun ?_ (by decide)⟩
  intro p ds' q hb
  by_contra hlt
  have hget : ("8 strokes [10]".toList)[p.length]? = some '[' := by
    have h1 : (fetchedPage (constBrowser (pageWith "" "8 strokes [10]" "")) ()
        []).strokecountText = "8 strokes [10]".toList := rfl
    rw [← h1, hb.1, List.getElem?_append_right (Nat.le_refl _)]
    simp
  have hlt' : p.length < 10 := by
    have : "8 strokes ".toList.length = 10 := by decide
    omega
  generalize p.length = n at hget hlt'
  interval_cases n <;> revert hget <;> decide

/-- C4, as stated, fails: the text "8", a tab, "strokes" has no bracketed run
and its first field at white space is "8", yet the stroke count is 0. -/
theorem strokeCount_tab_not_split :
    (¬ ∃ p ds q, BracketedRun "8\tstrokes".toList p ds q) ∧
    (Atoi 64 (firstField "8\tstrokes".toList)).1 = 8 ∧
    scrapeStrokeCount 64 "8\tstrokes".toList = 0 := by
  refine ⟨?_, by decide, by decide⟩
  rintro ⟨p, ds, q, hb⟩
  have hmem : '[' ∈ "8\tstrokes".toList := by
    rw [hb.1]
    simp
  revert hmem
  decide

/-- C4, amended: when the text of `div.strokecount` has no bracketed run of
digits, `scrape` returns an entry whose `StrokeCount` is the value of
`strconv.Atoi` on the part of the trimmed text in front of its first space
character (U+0020; tabs and newlines do not split); that value is 0 when this
part is not an optionally signed run of digits and its leading digits fit an
`int`; the text "8 strokes" gives 8. -/
theorem strokeCount_first_token {σ : Type} (intSize : Nat) (br : Browser σ) (st : σ)
    (lookup : GoString) (hsz : intSize = 32 ∨ intSize = 64)
    (hopen : (br.Open st (studyUrl lookup)).1 = none)
    (hno : ¬ ∃ p ds q, BracketedRun (fetchedPage br st lookup).strokecountText p ds q) :
    (∃ kanji, (scrape intSize br st lookup).1 = some (Except.ok kanji) ∧
      kanji.StrokeCount = (Atoi intSize ((TrimSpace
        (fetchedPage br st lookup).strokecountText).takeWhile fun c => decide (c ≠ ' '))).1 ∧
      (notNumeric ((TrimSpace (fetchedPage br st lookup).strokecountText).takeWhile
          fun c => decide (c ≠ ' ')) →
        decimalValue (leadingDigits ((TrimSpace
          (fetchedPage br st lookup).strokecountText).takeWhile fun c => decide (c ≠ ' ')))
          < 2 ^ (intSize - 1) →
        kanji.StrokeCount = 0)) ∧
    scrapeStrokeCount intSize "8 strokes".toList = 8 := by
  constructor
  · obtain ⟨kanji, hk, _, hsc, _, _⟩ := scrape_fields intSize br st lookup hopen
    have hval := scrapeStrokeCount_plain intSize _ hno
    refine ⟨kanji, hk, by rw [hsc]; exact hval, ?_⟩
    intro hnn hfit
    rw [hsc]
    show scrapeStrokeCount intSize (fetchedPage br st lookup).strokecountText = 0
    rw [hval, Atoi_notNumeric intSize hsz _ hnn hfit]
  · rcases hsz with rfl | rfl <;> decide

/-- C4, an instance of `strokeCount_first_token`: the page whose stroke-count text is
"8 strokes". -/
theorem strokeCount_first_token_witness :
    (∃ kanji, (scrape 64 (constBrowser (pageWith "" "8 strokes" "")) () []).1 =
        some (Except.ok kanji) ∧
      kanji.StrokeCount = (Atoi 64 ((TrimSpace
        (fetchedPage (constBrowser (pageWith "" "8 strokes" "")) ()
          []).strokecountText).takeWhile fun c => decide (c ≠ ' '))).1 ∧
      (notNumeric ((TrimSpace (fetchedPage (constBrowser (pageWith "" "8 strokes" "")) ()
          []).strokecountText).takeWhile fun c => decide (c ≠ ' ')) →
        decimalValue (leadingDigits ((TrimSpace
          (fetchedPage (constBrowser (pageWith "" "8 strokes" "")) ()
            []).strokecountText).takeWhile fun c => decide (c ≠ ' '))) < 2 ^ (64 - 1) →
        kanji.StrokeCount = 0)) ∧
    scrapeStrokeCount 64 "8 strokes".toList = 8 := by
  apply strokeCount_first_token 64 (constBrowser (pageWith "" "8 strokes" "")) () []
    (Or.inr rfl) rfl
  rintro ⟨p, ds, q, hb⟩
  have hmem : '[' ∈ "8 strokes".toList := by
    have h1 : (fetchedPage (constBrowser (pageWith "" "8 strokes" "")) ()
        []).strokecountText = "8 strokes".toList := rfl
    rw [← h1, hb.1]
    simp
  revert hmem
  decide

/-- C5: `scrape` returns an entry whose `Story` is empty when the trimmed text
of `div#sv-textarea` is exactly the placeholder, and is the trimmed text
otherwise; a text of white space only gives the empty story, and a text that
merely contains the placeholder is kept. -/
theorem story_placeholder_normalised {σ : Type} (intSize : Nat) (br : Browser σ) (st : σ)
    (lookup : GoString) (hopen : (br.Open st (studyUrl lookup)).1 = none) :
    ∃ kanji, (scrape intSize br st lookup).1 = some (Except.ok kanji) ∧
      kanji.Story = (if TrimSpace (fetchedPage br st lookup).svTextareaText = storyPlaceholder
        then [] else TrimSpace (fetchedPage br st lookup).svTextareaText) ∧
      ((∀ c ∈ (fetchedPage br st lookup).svTextareaText, isSpace c = true) → kanji.Story = []) ∧
      (TrimSpace (fetchedPage br st lookup).svTextareaText ≠ storyPlaceholder →
        kanji.Story = TrimSpace (fetchedPage br st lookup).svTextareaText) ∧
      scrapeOwnStory " [ click here to enter your story ] ".toList = [] ∧
      scrapeOwnStory "see [ click here to enter your story ]".toList =
        "see [ click here to enter your story ]".toList := by
  obtain ⟨kanji, hk, _, _, hstory, _⟩ := scrape_fields intSize br st lookup hopen
  have hdef : (scrapeFields intSize (fetchedPage br st lookup)).Story =
      (if TrimSpace (fetchedPage br st lookup).svTextareaText = storyPlaceholder
        then [] else TrimSpace (fetchedPage br st lookup).svTextareaText) := rfl
  refine ⟨kanji, hk, by rw [hstory, hdef], ?_, ?_, by decide, by decide⟩
  · intro hall
    rw [hstory, hdef, TrimSpace_all_space _ hall]
    simp
  · intro hne
    rw [hstory, hdef, if_neg hne]

/-- C5, an instance of `story_placeholder_normalised`: the page whose story editor
holds the placeholder between two spaces. -/
theorem story_placeholder_normalised_witness :
    ∃ kanji, (scrape 64 (constBrowser (pageWith "" ""
        " [ click here to enter your story ] ")) () []).1 = some (Except.ok kanji) ∧
      kanji.Story = [] := by
  obtain ⟨kanji, hk, hstory, _⟩ := story_placeholder_normalised 64
    (constBrowser (pageWith "" "" " [ click here to enter your story ] ")) () [] rfl
  refine ⟨kanji, hk, ?_⟩
  rw [hstory]
  decide

/-- C6, as stated, fails: the frame-number text of twenty nines fails to
parse (range error), yet the frame number is the greatest `int`, not 0, for
an `int` of 64 bits as well as of 32 bits. -/
theorem frameNumber_overflow_not_zero :
    (Atoi 64 (TrimSpace " 99999999999999999999 ".toList)).2 = some NumError.ErrRange ∧
    (scrape 64 (constBrowser (pageWith " 99999999999999999999 " "" "")) () []).1 =
      some (Except.ok
        { Character := [], Reading := [], FrameNumber := 9223372036854775807
          StrokeCount := 0, Story := [], Stories := [] }) ∧
    (Atoi 32 (TrimSpace " 99999999999999999999 ".toList)).2 = some NumError.ErrRange ∧
    (scrapeFields 32 (pageWith " 99999999999999999999 " "" "")).FrameNumber = 2147483647 := by
  refine ⟨by decide, by rfl, by decide, by decide⟩

/-- C6, amended: `scrape` returns an entry, not an error, whatever the texts
of the numeric nodes are; `FrameNumber`, and the `StarredCount` and
`ReportedCount` of every story, are the value of `strconv.Atoi` on the trimmed
text of their node with its error dropped. That value is 0 when the trimmed
text is not an optionally signed run of digits and its leading digits fit an
`int`, and it is the greatest `int` when the trimmed text is a run of digits
too large for an `int`. -/
theorem numeric_fields_default {σ : Type} (intSize : Nat) (br : Browser σ) (st : σ)
    (lookup : GoString) (hsz : intSize = 32 ∨ intSize = 64)
    (hopen : (br.Open st (studyUrl lookup)).1 = none) :
    (∃ kanji, (scrape intSize br st lookup).1 = some (Except.ok kanji) ∧
      kanji.FrameNumber = (Atoi intSize (TrimSpace (fetchedPage br st lookup).framenumText)).1 ∧
      ∀ s ∈ kanji.Stories, ∃ node ∈ (fetchedPage br st lookup).sharedstory,
        s.StarredCount = (Atoi intSize (TrimSpace node.starText)).1 ∧
        s.ReportedCount = (Atoi intSize (TrimSpace node.reportText)).1) ∧
    (∀ text : GoString, notNumeric (TrimSpace text) →
      decimalValue (leadingDigits (TrimSpace text)) < 2 ^ (intSize - 1) →
      Atoi intSize (TrimSpace text) = (0, some NumError.ErrSyntax)) ∧
    (∀ text : GoString, TrimSpace text ≠ [] → (∀ c ∈ TrimSpace text, isDigit c = true) →
      decimalValue (TrimSpace text) ≥ 2 ^ (intSize - 1) →
      Atoi intSize (TrimSpace text) = ((2 ^ (intSize - 1) : Int) - 1, some NumError.ErrRange)) := by
  refine ⟨?_, ?_, ?_⟩
  · obtain ⟨kanji, hk, hfn, _, _, hperm⟩ := scrape_fields intSize br st lookup hopen
    refine ⟨kanji, hk, by rw [hfn]; rfl, ?_⟩
    intro s hs
    have hmem := hperm.mem_iff.mp hs
    simp only [scrapeFields, List.mem_map] at hmem
    obtain ⟨node, hnode, rfl⟩ := hmem
    exact ⟨node, hnode, rfl, rfl⟩
  · intro text hnn hfit
    exact Atoi_notNumeric intSize hsz _ hnn hfit
  · intro text hne hdig hbig
    exact Atoi_overflow intSize hsz _ hne hdig hbig

/-- C6, an instance of `numeric_fields_default`: the page whose frame-number text is
"n/a". -/
theorem numeric_fields_default_witness :
    (∃ kanji, (scrape 64 (constBrowser (pageWith " n/a " "" "")) () []).1 =
        some (Except.ok kanji) ∧ kanji.FrameNumber = 0) ∧
    Atoi 64 (TrimSpace " n/a ".toList) = (0, some NumError.ErrSyntax) := by
  obtain ⟨⟨kanji, hk, hfn, _⟩, hsyn, _⟩ := numeric_fields_default 64
    (constBrowser (pageWith " n/a " "" "")) () [] (Or.inr rfl) rfl
  have h0 := hsyn " n/a ".toList (by decide) (by decide)
  refine ⟨⟨kanji, hk, ?_⟩, h0⟩
  rw [hfn]
  exact congrArg Prod.fst h0

/-! ## The batch driver -/

theorem login_constBrowser (page : Page) (username password : GoString) :
    login (constBrowser page) () username password = (none, ()) := by
  have htitle : ¬ ("Kanji Koohii".toList = "Sign In - Kanji Koohii".toList) := by decide
  simp only [login, constBrowser, Bool.not_true, Bool.false_eq_true, if_false, htitle]

theorem invalidFlags_iff (flags : Flags) :
    (byteLen flags.username = 0 ∨ byteLen flags.password = 0 ∨ flags.args.length = 0 ∨
      flags.firstFrame ≥ flags.lastFrame) ↔ invalidFlags flags := by
  simp only [invalidFlags, byteLen_eq_zero, List.length_eq_zero]

theorem main_of_invalid {σ : Type} (intSize : Nat) (br : Browser σ) (fs : FileSystem)
    (fuel : Nat) (st : σ) (flags : Flags) (h : invalidFlags flags) :
    main intSize br fs fuel st flags = some [Event.usage, Event.exit 2] := by
  unfold main
  rw [if_pos ((invalidFlags_iff flags).mpr h)]

theorem main_of_valid {σ : Type} (intSize : Nat) (br : Browser σ) (fs : FileSystem)
    (fuel : Nat) (st : σ) (flags : Flags) (h : ¬ invalidFlags flags) :
    main intSize br fs fuel st flags = run intSize br fs (scrape intSize br) fuel st flags := by
  unfold main
  rw [if_neg (fun hc => h ((invalidFlags_iff flags).mp hc))]

/-- C7, at the failing input: with `--lastFrame` the greatest `int` (and a
successful login) the loop of lines 182-184 never ends, however many rounds it
gets, so `main` builds no sequence of lookups; with `firstFrame = 1` and
`lastFrame = 3` the same loop builds "1", "2", "3". -/
theorem main_never_ends_at_maxInt :
    (∀ fuel : Nat,
      main 64 (constBrowser (pageWith "" "" "")) (constFS "") fuel () maxIntFlags = none) ∧
    rangeLookups 64 3 4 1 [] = some ["1".toList, "2".toList, "3".toList] := by
  refine ⟨?_, by decide⟩
  intro fuel
  have hvalid : ¬ invalidFlags maxIntFlags := by decide
  rw [main_of_valid 64 _ _ fuel () maxIntFlags hvalid]
  have hloop : rangeLookups 64 maxIntFlags.lastFrame fuel maxIntFlags.firstFrame [] = none :=
    rangeLookups_maxInt 64 (by decide) fuel 9223372036854775806 [] (by norm_num) (by norm_num)
  have hres : resolveLookups 64 (constFS "") fuel maxIntFlags = none := by
    unfold resolveLookups
    rw [if_neg (by decide), hloop]
    rfl
  simp only [run, login_constBrowser, hres, Option.bind]

/-- C8, as stated, fails: for the file "12", empty line, "45" `load` returns
three lookups, the second one empty, where the non-empty lines are two. -/
theorem load_keeps_empty_lines :
    load (constFS "12\n\n45\n") "keys.txt".toList = Except.ok ["12".toList, [], "45".toList] ∧
    nonEmptyLines "12\n\n45\n".toList = ["12".toList, "45".toList] ∧
    load (constFS "12\n\n45\n") "keys.txt".toList ≠
      Except.ok (nonEmptyLines "12\n\n45\n".toList) := by
  have h1 : load (constFS "12\n\n45\n") "keys.txt".toList =
      Except.ok ["12".toList, [], "45".toList] := by rfl
  have h2 : nonEmptyLines "12\n\n45\n".toList = ["12".toList, "45".toList] := by decide
  refine ⟨h1, h2, ?_⟩
  rw [h1, h2]
  intro h
  injection h with h
  revert h
  decide

/-- C8, amended: for a file whose lines are shorter than 65536 bytes `load`
returns every line of the file in file order, the empty lines and the
repeated lines included, each line as read except for one trailing carriage
return, which is dropped. -/
theorem load_every_line (fs : FileSystem) (path content : GoString)
    (hread : fs.readFile path = Except.ok content)
    (hshort : ∀ line ∈ fileLines content, byteLen line < maxScanTokenSize) :
    load fs path = Except.ok ((fileLines content).map dropCR) := by
  simp only [load, hread]
  rw [scanLines_spec content [] (by simp) (by simpa using hshort)]
  simp

/-- C8, an instance of `load_every_line`: a file with an empty line, a repeated line,
trailing blanks, a line ending in a carriage return and no final newline. -/
theorem load_every_line_witness :
    (∀ line ∈ fileLines "12\n\n45 \r\n12\n301 ".toList, byteLen line < maxScanTokenSize) ∧
    load (constFS "12\n\n45 \r\n12\n301 ") "keys.txt".toList =
      Except.ok ((fileLines "12\n\n45 \r\n12\n301 ".toList).map dropCR) ∧
    (fileLines "12\n\n45 \r\n12\n301 ".toList).map dropCR =
      ["12".toList, [], "45 ".toList, "12".toList, "301 ".toList] :=
  ⟨by decide, load_every_line (constFS "12\n\n45 \r\n12\n301 ") "keys.txt".toList
    "12\n\n45 \r\n12\n301 ".toList rfl (by decide), by decide⟩

/-- C9: when `scrape` returns an error for the lookup `key` after succeeding
for the lookups `pre` in front of it, the run of `main` ends with `log.Fatal`
of that error, the lookups scraped are `pre` and `key` and none of the later
ones, and `save` is not called; and in every run of `main`, `save` is called
only when `scrape` succeeded for every lookup, with the entries so collected. -/
theorem main_fail_fast {σ : Type} (intSize : Nat) (br : Browser σ) (fs : FileSystem)
    (fuel : Nat) (st st1 st2 : σ) (flags : Flags) (evs : List Event) (pre : List GoString)
    (key : GoString) (post : List GoString) (entries : List KanjiEntry) (err : GoString)
    (hvalid : ¬ invalidFlags flags)
    (hlogin : login br st flags.username flags.password = (none, st1))
    (hlookups : resolveLookups intSize fs fuel flags = some (evs, some (pre ++ key :: post)))
    (hpre : scrapePrefix (scrape intSize br) st1 pre = some (entries, st2))
    (herr : (scrape intSize br st2 key).1 = some (Except.error err)) :
    (∃ trace, main intSize br fs fuel st flags = some trace ∧
      trace.getLast? = some (Event.fatal err) ∧
      trace.filterMap scrapedKey = pre ++ [key] ∧
      ∀ e ∈ trace, isSave e = false) ∧
    (∀ (fuel' : Nat) (st' : σ) (flags' : Flags) (trace : List Event) (path : GoString)
      (kanjiList : List KanjiEntry),
      main intSize br fs fuel' st' flags' = some trace → Event.save path kanjiList ∈ trace →
      ∃ evs' lookups st3,
        resolveLookups intSize fs fuel' flags' = some (evs', some lookups) ∧
        scrapePrefix (scrape intSize br)
          (login br st' flags'.username flags'.password).2 lookups = some (kanjiList, st3)) := by
  constructor
  · have hall := scrapeAll_fail (scrape intSize br) key post err pre st1 [] entries st2 hpre herr
    obtain ⟨hsave, hkeys, _⟩ := resolveLookups_events intSize fs fuel flags evs _ hlookups
    refine ⟨[Event.log "logging in...".toList, Event.login flags.username flags.password] ++ evs ++
      (scrapeEvents pre ++ [Event.log ("scraping ".toList ++ key ++ "...".toList),
        Event.scrape key, Event.fatal err]), ?_, ?_, ?_, ?_⟩
    · rw [main_of_valid intSize br fs fuel st flags hvalid]
      simp only [run, hlogin, hlookups, Option.bind, hall, Option.map_some']
    · have hassoc : [Event.log "logging in...".toList,
          Event.login flags.username flags.password] ++ evs ++
          (scrapeEvents pre ++ [Event.log ("scraping ".toList ++ key ++ "...".toList),
            Event.scrape key, Event.fatal err]) =
          ([Event.log "logging in...".toList, Event.login flags.username flags.password] ++
            evs ++ scrapeEvents pre ++ [Event.log ("scraping ".toList ++ key ++ "...".toList),
            Event.scrape key]) ++ [Event.fatal err] := by
        simp only [List.append_assoc, List.cons_append, List.nil_append]
      rw [hassoc, List.getLast?_concat]
    · simp only [List.filterMap_append, hkeys, scrapedKey_scrapeEvents]
      simp [scrapedKey, List.filterMap_cons]
    · intro e he
      simp only [List.mem_append, List.mem_cons, List.mem_singleton, List.not_mem_nil,
        or_false] at he
      rcases he with ((rfl | rfl) | he) | he | rfl | rfl | rfl
      · rfl
      · rfl
      · exact hsave e he
      · exact isSave_scrapeEvents pre e he
      · rfl
      · rfl
      · rfl
  · intro fuel' st' flags' trace path kanjiList hmain hmem
    by_cases hv : invalidFlags flags'
    · rw [main_of_invalid intSize br fs fuel' st' flags' hv] at hmain
      injection hmain with hmain
      subst hmain
      simp at hmem
    · rw [main_of_valid intSize br fs fuel' st' flags' hv] at hmain
      simp only [run] at hmain
      rcases hl : login br st' flags'.username flags'.password with ⟨lerr, st1'⟩
      rw [hl] at hmain
      cases lerr with
      | some e =>
        simp only [Option.some.injEq] at hmain
        subst hmain
        simp at hmem
      | none =>
        simp only at hmain
        cases hr : resolveLookups intSize fs fuel' flags' with
        | none => rw [hr] at hmain; cases hmain
        | some l =>
          obtain ⟨evs', res⟩ := l
          rw [hr] at hmain
          simp only [Option.bind] at hmain
          obtain ⟨hsave', _, _⟩ := resolveLookups_events intSize fs fuel' flags' evs' res hr
          cases res with
          | none =>
            simp only [Option.some.injEq] at hmain
            subst hmain
            simp only [List.mem_append, List.mem_cons, List.mem_singleton, List.not_mem_nil,
              or_false] at hmem
            rcases hmem with (h | h) | h
            · cases h
            · cases h
            · have := hsave' _ h
              cases this
          | some lookups =>
            simp only at hmain
            cases hs : scrapeAll (scrape intSize br) st1' lookups [] with
            | none => rw [hs] at hmain; cases hmain
            | some r =>
              obtain ⟨evs2, res2⟩ := r
              rw [hs] at hmain
              simp only [Option.map_some', Option.some.injEq] at hmain
              obtain ⟨hsave2, hres2⟩ := scrapeAll_some (scrape intSize br) lookups st1' []
                evs2 res2 hs
              cases res2 with
              | none =>
                simp only at hmain
                subst hmain
                simp only [List.mem_append, List.mem_cons, List.mem_singleton,
                  List.not_mem_nil, or_false] at hmem
                rcases hmem with ((h | h) | h) | h
                · cases h
                · cases h
                · have := hsave' _ h
                  cases this
                · have := hsave2 _ h
                  cases this
              | some collected =>
                simp only at hmain
                subst hmain
                obtain ⟨entries', st3, hp, hcol⟩ := hres2 collected rfl
                simp only [List.nil_append] at hcol
                subst hcol
                refine ⟨evs', lookups, st3, rfl, ?_⟩
                have hk : kanjiList = collected := by
                  simp only [List.mem_append, List.mem_cons, List.mem_singleton,
                    List.not_mem_nil, or_false] at hmem
                  rcases hmem with (((h | h) | h) | h) | h
                  · cases h
                  · cases h
                  · have := hsave' _ h
                    cases this
                  · have := hsave2 _ h
                    cases this
                  · unfold saveAll at h
                    split at h
                    · simp only [List.cons_append, List.nil_append, List.mem_cons,
                        List.mem_singleton, List.not_mem_nil, or_false] at h
                      rcases h with h | h | h
                      · cases h
                      · injection h with _ h2
                      · cases h
                    · simp only [List.mem_cons, List.mem_singleton, List.not_mem_nil,
                        or_false] at h
                      rcases h with h | h
                      · cases h
                      · injection h with _ h2
                rw [hk]
                exact hp

/-- C9, an instance of `main_fail_fast`: the lookups "12", "45", "301" come from a
file and the page of "45" cannot be fetched. -/
theorem main_fail_fast_witness :
    ∃ trace, main 64 (failingBrowser (pageWith "" "" "") (studyUrl "45".toList) "timeout".toList)
        (constFS "12\n45\n301\n") 0 () fileFlags = some trace ∧
      trace.getLast? = some (Event.fatal "timeout".toList) ∧
      trace.filterMap scrapedKey = ["12".toList] ++ ["45".toList] ∧
      ∀ e ∈ trace, isSave e = false :=
  (main_fail_fast 64 (failingBrowser (pageWith "" "" "") (studyUrl "45".toList) "timeout".toList)
    (constFS "12\n45\n301\n") 0 () () () fileFlags
    [Event.log "loading from keys.txt...".toList, Event.load "keys.txt".toList]
    ["12".toList] "45".toList ["301".toList]
    [{ Character := [], Reading := [], FrameNumber := 0, StrokeCount := 0, Story := []
       Stories := [] }]
    "timeout".toList (by decide) (by rfl) (by rfl) (by rfl) (by rfl)).1

/-- C10: `main` prints the usage and exits with status 2, and does nothing
else (no login, no fetch), if and only if the username is empty, or the
password is empty, or there is no positional argument, or
`firstFrame >= lastFrame`; otherwise a run starts with the login. The test of
the range does not look at an input file, and `firstFrame = lastFrame` is
rejected. -/
theorem main_validation {σ : Type} (intSize : Nat) (br : Browser σ) (fs : FileSystem)
    (fuel : Nat) (st : σ) (flags : Flags) :
    (main intSize br fs fuel st flags = some [Event.usage, Event.exit 2] ↔
      (flags.username = [] ∨ flags.password = [] ∨ flags.args = [] ∨
        flags.firstFrame ≥ flags.lastFrame)) ∧
    (∀ trace, main intSize br fs fuel st flags = some trace →
      (Event.usage ∈ trace ↔ trace = [Event.usage, Event.exit 2]) ∧
      (Event.usage ∉ trace → ∃ rest, trace = Event.log "logging in...".toList ::
        Event.login flags.username flags.password :: rest)) ∧
    (∀ e ∈ [Event.usage, Event.exit 2], isNetwork e = false) ∧
    (∀ inputPath : GoString,
      main intSize br fs fuel st { flags with args := flags.args ++ [inputPath] } =
        some [Event.usage, Event.exit 2] ↔
      (flags.username = [] ∨ flags.password = [] ∨ flags.firstFrame ≥ flags.lastFrame)) ∧
    (flags.firstFrame = flags.lastFrame →
      main intSize br fs fuel st flags = some [Event.usage, Event.exit 2]) := by
  have hrun : ∀ (fl : Flags) (trace : List Event),
      run intSize br fs (scrape intSize br) fuel st fl = some trace →
      ∃ rest, trace = Event.log "logging in...".toList ::
        Event.login fl.username fl.password :: rest := by
    intro fl trace h
    simp only [run] at h
    rcases hl : login br st fl.username fl.password with ⟨lerr, st1⟩
    rw [hl] at h
    cases lerr with
    | some e =>
      simp only [Option.some.injEq] at h
      exact ⟨_, h.symm⟩
    | none =>
      simp only at h
      cases hr : resolveLookups intSize fs fuel fl with
      | none => rw [hr] at h; cases h
      | some l =>
        rw [hr] at h
        simp only [Option.bind] at h
        split at h
        · simp only [Option.some.injEq] at h
          exact ⟨_, h.symm⟩
        · rename_i lookups _
          cases hs : scrapeAll (scrape intSize br) st1 lookups [] with
          | none => rw [hs] at h; cases h
          | some r =>
            rw [hs] at h
            simp only [Option.map_some', Option.some.injEq] at h
            split at h
            · exact ⟨l.1 ++ r.1, by rw [← h]; simp⟩
            · rename_i collected _
              exact ⟨l.1 ++ r.1 ++ saveAll fs (fl.args.getD 0 []) collected, by rw [← h]; simp⟩
  have hiff : ∀ fl : Flags, main intSize br fs fuel st fl = some [Event.usage, Event.exit 2] ↔
      invalidFlags fl := by
    intro fl
    constructor
    · intro h
      by_contra hv
      rw [main_of_valid intSize br fs fuel st fl hv] at h
      obtain ⟨rest, hrest⟩ := hrun fl _ h
      cases hrest
    · exact main_of_invalid intSize br fs fuel st fl
  refine ⟨hiff flags, ?_, ?_, ?_, ?_⟩
  · intro trace h
    by_cases hv : invalidFlags flags
    · rw [main_of_invalid intSize br fs fuel st flags hv] at h
      injection h with h
      subst h
      simp
    · rw [main_of_valid intSize br fs fuel st flags hv] at h
      obtain ⟨rest, hrest⟩ := hrun flags trace h
      have hno : Event.usage ∉ trace := by
        intro hmem
        have hnone : main intSize br fs fuel st flags ≠ some [Event.usage, Event.exit 2] :=
          fun hc => hv ((hiff flags).mp hc)
        rw [main_of_valid intSize br fs fuel st flags hv] at hnone
        simp only [run] at h
        rcases hl : login br st flags.username flags.password with ⟨lerr, st1⟩
        rw [hl] at h
        cases lerr with
        | some e =>
          simp only [Option.some.injEq] at h
          subst h
          simp at hmem
        | none =>
          simp only at h
          cases hr : resolveLookups intSize fs fuel flags with
          | none => rw [hr] at h; cases h
          | some l =>
            obtain ⟨evs, res⟩ := l
            rw [hr] at h
            simp only [Option.bind] at h
            have hevs : Event.usage ∉ evs := by
              intro hu
              unfold resolveLookups at hr
              split_ifs at hr
              · simp only at hr
                split at hr
                · simp only [Option.some.injEq, Prod.mk.injEq] at hr
                  rw [← hr.1] at hu
                  simp at hu
                · simp only [Option.some.injEq, Prod.mk.injEq] at hr
                  rw [← hr.1] at hu
                  simp at hu
              · cases hq : rangeLookups intSize flags.lastFrame fuel flags.firstFrame [] with
                | none => rw [hq] at hr; cases hr
                | some q =>
                  rw [hq] at hr
                  simp only [Option.map_some', Option.some.injEq, Prod.mk.injEq] at hr
                  rw [← hr.1] at hu
                  simp at hu
            cases res with
            | none =>
              simp only [Option.some.injEq] at h
              subst h
              simp only [List.mem_append, List.mem_cons, List.mem_singleton, List.not_mem_nil,
                or_false] at hmem
              rcases hmem with (h1 | h1) | h1
              · cases h1
              · cases h1
              · exact hevs h1
            | some lookups =>
              simp only at h
              cases hs : scrapeAll (scrape intSize br) st1 lookups [] with
              | none => rw [hs] at h; cases h
              | some r =>
                obtain ⟨evs2, res2⟩ := r
                rw [hs] at h
                simp only [Option.map_some', Option.some.injEq] at h
                have hevs2 : ∀ (ls : List GoString) (s : σ) (acc : List KanjiEntry)
                    (ev : List Event) (rs : Option (List KanjiEntry)),
                    scrapeAll (scrape intSize br) s ls acc = some (ev, rs) →
                    Event.usage ∉ ev := by
                  intro ls
                  induction ls with
                  | nil =>
                    intro s acc ev rs hq
                    simp only [scrapeAll, Option.some.injEq, Prod.mk.injEq] at hq
                    rw [← hq.1]
                    simp
                  | cons k ks ih =>
                    intro s acc ev rs hq
                    simp only [scrapeAll] at hq
                    split at hq
                    · cases hq
                    · simp only [Option.some.injEq, Prod.mk.injEq] at hq
                      rw [← hq.1]
                      simp
                    · rename_i kanji s1 _
                      cases hq2 : scrapeAll (scrape intSize br) s1 ks (acc ++ [kanji]) with
                      | none => rw [hq2] at hq; cases hq
                      | some r2 =>
                        rw [hq2] at hq
                        simp only [Option.map_some', Option.some.injEq, Prod.mk.injEq] at hq
                        rw [← hq.1]
                        have := ih s1 (acc ++ [kanji]) r2.1 r2.2 hq2
                        simp [this]
                have hu2 := hevs2 lookups st1 [] evs2 res2 hs
                cases res2 with
                | none =>
                  simp only at h
                  subst h
                  simp only [List.mem_append, List.mem_cons, List.mem_singleton,
                    List.not_mem_nil, or_false] at hmem
                  rcases hmem with ((h1 | h1) | h1) | h1
                  · cases h1
                  · cases h1
                  · exact hevs h1
                  · exact hu2 h1
                | some collected =>
                  simp only at h
                  subst h
                  simp only [List.mem_append, List.mem_cons, List.mem_singleton,
                    List.not_mem_nil, or_false] at hmem
                  rcases hmem with (((h1 | h1) | h1) | h1) | h1
                  · cases h1
                  · cases h1
                  · exact hevs h1
                  · exact hu2 h1
                  · unfold saveAll at h1
                    split at h1 <;> simp at h1
      refine ⟨⟨fun hm => absurd hm hno, fun ht => ?_⟩, fun _ => ⟨rest, hrest⟩⟩
      rw [ht] at hrest
      cases hrest
  · intro e he
    simp only [List.mem_cons, List.mem_singleton, List.not_mem_nil, or_false] at he
    rcases he with rfl | rfl <;> rfl
  · intro inputPath
    rw [hiff]
    simp only [invalidFlags, List.append_eq_nil, List.cons_ne_nil, and_false, false_or]
  · intro heq
    exact main_of_invalid intSize br fs fuel st flags (Or.inr (Or.inr (Or.inr (by omega))))

end RtkScrape
